import Mathlib

/-!
# Text fitting and layout of the meme renderer (`server/meme/text_slot.go`)

A shallow embedding of `firstLine`, `lines`, `TextSlot.TextLayout` and
`TextSlot.Render`, and of `isImageAsset` (`server/memelibrary/memelibrary.go`),
followed by theorems about them.

## Modelling conventions

* A Go `string` is the list of runes that `for _, r := range text` yields
  (`List Rune`, a rune being its code point); `[]rune(text)[:n]` is `take n`.
* `fixed.Int26_6` and `int32` values are integers; every operation the code
  performs on them is followed by `wrap32`, the two's complement wrap-around.
  Go `int` is 64 bits wide and wrapped by `wrap64` in the same way. Indices
  and lengths are natural numbers: they are bounded by the length of the text.
* A `font.Face` is the record of the three things the code asks of it: the
  line height, the advance of a rune (absent when the face has no glyph) and
  the kerning of a pair of runes. A `*truetype.Font` is the function that
  `truetype.NewFace` computes: from a size to a face.
* A finite `float64` is the rational number it denotes; every float64
  operation rounds its exact result to 53 significant bits, ties to even
  (`Float64.round`). The exponent range is not modelled: the sizes reached
  from a finite `MaxFontSize` of at least 6 are far from the overflow and
  underflow thresholds.
* A call ends in `Res`: a value, an `error`, or a run-time panic. The two
  loops whose termination is not structural (`lines` and the size search) run
  on a bound of iterations that is proved sufficient (`lines_isSome`,
  `TextLayout_ne_outOfFuel`).

* An asset name is a list of runes too. `filepath.Ext` is the Unix one: the
  path separator is the slash. `strings.ToLower` is exact on ASCII; the case
  table of the runes beyond ASCII is a parameter.

## Contents

The definitions come first: the program, then the notions the properties are
stated with (rendered width, candidate sizes, fitting, words and break
points, the extension of a name), then example inputs.
The lemmas follow, and the claims close the file.
-/

namespace Meme

/-! ## Machine integers -/

/-- Two's complement wrap-around into the `int32` range. -/
def wrap32 (x : Int) : Int := (x + 2147483648) % 4294967296 - 2147483648

/-- Two's complement wrap-around into the `int64` range. -/
def wrap64 (x : Int) : Int :=
  (x + 9223372036854775808) % 18446744073709551616 - 9223372036854775808

/-- The value is representable as an `int32`. -/
def inInt32 (x : Int) : Prop := -2147483648 ≤ x ∧ x ≤ 2147483647

instance (x : Int) : Decidable (inInt32 x) := by unfold inInt32; infer_instance

/-! ## Runes and white space -/

/-- A rune, by its code point. -/
abbrev Rune := Nat

/-- Go `unicode.IsSpace`: the Latin-1 spaces and the code points with the
Unicode White_Space property. -/
def isSpace (r : Rune) : Bool :=
  r = 9 || r = 10 || r = 11 || r = 12 || r = 13 || r = 32 || r = 133 || r = 160 ||
  r = 5760 || (8192 ≤ r && r ≤ 8202) || r = 8232 || r = 8233 || r = 8239 ||
  r = 8287 || r = 12288

/-- `unicode.IsSpace(prev)` for the loop variable `prev`, which is `-1`
(here `none`) until a rune with a glyph has been seen. -/
def prevIsSpace : Option Rune → Bool
  | none => false
  | some p => isSpace p

/-- Go `strings.TrimSpace`: drop the leading and the trailing white space. -/
def trimSpace (text : List Rune) : List Rune :=
  (text.dropWhile isSpace).rdropWhile isSpace

/-! ## Glyph metrics -/

/-- What the layout code asks of a `font.Face`. -/
structure Face where
  /-- `face.Metrics().Height`, in 26.6 fixed point -/
  Height : Int
  /-- `face.GlyphAdvance(r)`; `none` when `ok` is false -/
  GlyphAdvance : Rune → Option Int
  /-- `face.Kern(r0, r1)` -/
  Kern : Rune → Rune → Int

/-! ## The line breaker -/

/-- The loop of `firstLine` over the runes still to visit. `text` is the
trimmed text; the other arguments are the loop variables `pos`, `lastBreak`,
`width`, `lastBreakWidth` and `prev`. -/
def firstLineLoop (face : Face) (text : List Rune) (limit : Int) :
    List Rune → Nat → Nat → Int → Int → Option Rune → List Rune × Int × List Rune
  | [], _, _, width, _, _ => (text, width, [])
  | r :: rest, pos, lastBreak, width, lastBreakWidth, prev =>
    match face.GlyphAdvance r with
    | none => firstLineLoop face text limit rest pos lastBreak width lastBreakWidth prev
    | some adv =>
      let advance : Int :=
        match prev with
        | none => adv
        | some p => wrap32 (adv + face.Kern p r)
      let atBreak : Bool := isSpace r && !prevIsSpace prev
      let lastBreak1 : Nat := if atBreak then pos else lastBreak
      let lastBreakWidth1 : Int := if atBreak then width else lastBreakWidth
      if wrap32 (width + advance) > limit then
        if lastBreak1 = 0 then (text.take pos, width, text.drop pos)
        else (text.take lastBreak1, lastBreakWidth1, text.drop lastBreak1)
      else
        firstLineLoop face text limit rest (pos + 1) lastBreak1
          (wrap32 (width + advance)) lastBreakWidth1 (some r)

/-- Go `firstLine`: the first line of `text`, its width, and the rest. -/
def firstLine (face : Face) (text : List Rune) (limit : Int) :
    List Rune × Int × List Rune :=
  firstLineLoop face (trimSpace text) limit (trimSpace text) 0 0 0 0 none

/-- The loop of `lines`; `fuel` bounds the number of iterations, and `none`
means that the bound was reached with text left over. -/
def linesLoop (face : Face) (limit : Int) :
    Nat → List Rune → List (List Rune) → List Int → Option (List (List Rune) × List Int)
  | _, [], ls, ws => some (ls, ws)
  | 0, _ :: _, _, _ => none
  | fuel + 1, r :: rest, ls, ws =>
    match firstLine face (r :: rest) limit with
    | (line, width, remaining) =>
      if line = [] then some ([], [])
      else linesLoop face limit fuel remaining (ls ++ [line]) (ws ++ [width])

/-- Go `lines`: all lines of `text` and their widths. Every iteration that
does not return removes a rune, so `len(text)` iterations are enough
(`lines_isSome`). -/
def lines (face : Face) (text : List Rune) (limit : Int) :
    Option (List (List Rune) × List Int) :=
  linesLoop face limit text.length text [] []

/-! ## float64 arithmetic -/

/-- Round a rational to the nearest integer, ties to the even one. -/
def roundEven (x : ℚ) : Int :=
  if x - ⌊x⌋ < 1 / 2 then ⌊x⌋
  else if 1 / 2 < x - ⌊x⌋ then ⌊x⌋ + 1
  else if ⌊x⌋ % 2 = 0 then ⌊x⌋
  else ⌊x⌋ + 1

/-- Round a rational to 53 significant bits, ties to even: the value a
float64 operation stores for the exact result `x`. -/
def Float64.round (x : ℚ) : ℚ :=
  if x = 0 then 0
  else (roundEven (x / 2 ^ (Int.log 2 |x| - 52)) : ℚ) * 2 ^ (Int.log 2 |x| - 52)

/-- float64 addition. -/
def Float64.add (a b : ℚ) : ℚ := Float64.round (a + b)

/-- float64 subtraction. -/
def Float64.sub (a b : ℚ) : ℚ := Float64.round (a - b)

/-- float64 division. -/
def Float64.div (a b : ℚ) : ℚ := Float64.round (a / b)

/-! ## Slots and layouts -/

/-- Go `fixed.Point26_6` (and `image.Point`, with `int` coordinates). -/
structure Point where
  X : Int
  Y : Int
deriving DecidableEq, Repr

/-- Go `image.Rectangle`. -/
structure Rectangle where
  Min : Point
  Max : Point
deriving DecidableEq, Repr

/-- Go `Rectangle.Dx`. -/
def Rectangle.Dx (r : Rectangle) : Int := wrap64 (r.Max.X - r.Min.X)

/-- Go `Rectangle.Dy`. -/
def Rectangle.Dy (r : Rectangle) : Int := wrap64 (r.Max.Y - r.Min.Y)

/-- Go `HorizontalAlignment`, an `int`. -/
abbrev HorizontalAlignment := Int

/-- Go `VerticalAlignment`, an `int`. -/
abbrev VerticalAlignment := Int

/-- The constant `Left`. -/
def Left : HorizontalAlignment := -1

/-- The constant `Center`. -/
def Center : HorizontalAlignment := 0

/-- The constant `Right`. -/
def Right : HorizontalAlignment := 1

/-- The constant `Top`. -/
def Top : VerticalAlignment := -1

/-- The constant `Middle`. -/
def Middle : VerticalAlignment := 0

/-- The constant `Bottom`. -/
def Bottom : VerticalAlignment := 1

/-- A `color.Color`, by name. -/
inductive Color where
  | Black
  | named (id : Nat)
deriving DecidableEq, Repr

/-- Go `TextSlot`. `Font` is the font together with `truetype.NewFace`: the
face at a given size. A nil colour is `none`. -/
structure TextSlot where
  Bounds : Rectangle
  Font : ℚ → Face
  MaxFontSize : ℚ
  HorizontalAlignment : HorizontalAlignment
  VerticalAlignment : VerticalAlignment
  TextColor : Option Color
  OutlineColor : Option Color
  AllUppercase : Bool

/-- Go `TextLayout` (the struct). -/
structure Layout where
  Face : Face
  Lines : List (List Rune)
  LinePositions : List Point

/-- How a call ends: with a value, with a non-nil `error`, with a run-time
panic, or not within the iteration bound of the model. -/
inductive Res (α : Type) where
  | ok (a : α)
  | error (msg : String)
  | panic
  | outOfFuel

/-- Go `safecast.ToInt32` on an `int`: `none` is the conversion error. -/
def ToInt32 (i : Int) : Option Int :=
  if i > 2147483647 ∨ i < -2147483648 then none else some i

/-- Go `fixed.Int26_6.Mul`: `Int26_6((int64(x)*int64(y) + 1<<5) >> 6)`. -/
def Int26_6.Mul (x y : Int) : Int := wrap32 ((wrap64 (x * y + 32)) / 64)

/-- The statement `fontSize -= (fontSize + 9) / 10`, in float64. -/
def nextFontSize (fontSize : ℚ) : ℚ :=
  Float64.sub fontSize (Float64.div (Float64.add fontSize 9) 10)

/-- The `switch s.HorizontalAlignment` of `TextLayout`: the `x` of a line of
the given width, from the left edge `safeX` of the rectangle. -/
def alignX (s : TextSlot) (hlimit width safeX : Int) : Int :=
  if s.HorizontalAlignment = Center then
    wrap32 (safeX + Int.tdiv (wrap32 (hlimit - width)) 2)
  else if s.HorizontalAlignment = Right then
    wrap32 (safeX + wrap32 (hlimit - width))
  else safeX

/-- The `switch s.VerticalAlignment` of `TextLayout`: the `y` before the
first line, from the top edge `safeY` of the rectangle. -/
def alignY (s : TextSlot) (vlimit totalHeight safeY : Int) : Int :=
  if s.VerticalAlignment = Middle then
    wrap32 (safeY + Int.tdiv (wrap32 (vlimit - totalHeight)) 2)
  else if s.VerticalAlignment = Bottom then
    wrap32 (safeY + wrap32 (vlimit - totalHeight))
  else safeY

/-- The loop `for i, width := range widths` of `TextLayout`, over the widths
still to visit; `i` is the index, `y` the running baseline and `ps` the slice
`layout.LinePositions`. -/
def positionsLoop (s : TextSlot) (face : Face) (hlimit : Int) :
    List Int → Nat → Int → List Point → Res (List Point)
  | [], _, _, ps => Res.ok ps
  | width :: rest, i, y, ps =>
    match ToInt32 (wrap64 (s.Bounds.Min.X * 64)) with
    | none => Res.error "failed to convert bounds to int32"
    | some safeX =>
      if i < ps.length then
        positionsLoop s face hlimit rest (i + 1) (wrap32 (y + face.Height))
          (ps.set i { X := alignX s hlimit width safeX, Y := wrap32 (y + face.Height) })
      else Res.panic

/-- The part of the loop body of `TextLayout` after the line count was found
to fit: build the layout for the face, the lines and their widths. -/
def buildLayout (s : TextSlot) (face : Face) (hlimit vlimit : Int)
    (ls : List (List Rune)) (widths : List Int) : Res (Option Layout) :=
  match ToInt32 (wrap64 (s.Bounds.Min.Y * 64)) with
  | none => Res.error "failed to convert bounds to int32"
  | some safeY =>
    match ToInt32 (wrap64 ((ls.length : Int) * 64)) with
    | none => Res.error "failed to convert lines to int32"
    | some safeLenLines =>
      match positionsLoop s face hlimit widths 0
          (alignY s vlimit (Int26_6.Mul face.Height safeLenLines) safeY)
          (List.replicate ls.length { X := 0, Y := 0 }) with
      | Res.ok ps => Res.ok (some { Face := face, Lines := ls, LinePositions := ps })
      | Res.error msg => Res.error msg
      | Res.panic => Res.panic
      | Res.outOfFuel => Res.outOfFuel

/-- The line budget `s.Bounds.Dy() / int(face.Metrics().Height/64)`; `none`
is the division by zero. -/
def lineLimit (s : TextSlot) (face : Face) : Option Int :=
  if Int.tdiv face.Height 64 = 0 then none
  else some (wrap64 (Int.tdiv s.Bounds.Dy (Int.tdiv face.Height 64)))

/-- The loop `for fontSize >= 6.0` of `TextLayout`; `fuel` bounds the number
of iterations. -/
def searchLoop (s : TextSlot) (text : List Rune) (hlimit vlimit : Int) :
    Nat → ℚ → Res (Option Layout)
  | 0, fontSize => if 6 ≤ fontSize then Res.outOfFuel else Res.ok none
  | fuel + 1, fontSize =>
    if 6 ≤ fontSize then
      match lineLimit s (s.Font fontSize) with
      | none => Res.panic
      | some limit =>
        match lines (s.Font fontSize) text hlimit with
        | none => Res.outOfFuel
        | some (ls, widths) =>
          if (ls.length : Int) > limit then
            searchLoop s text hlimit vlimit fuel (nextFontSize fontSize)
          else buildLayout s (s.Font fontSize) hlimit vlimit ls widths
    else Res.ok none

/-- The size the search starts at: `MaxFontSize`, or 80 when that is zero. -/
def startSize (s : TextSlot) : ℚ :=
  if s.MaxFontSize = 0 then 80 else s.MaxFontSize

/-- Go `TextSlot.TextLayout`. `Res.ok none` is the result `nil, nil`. Every
iteration that continues lowers the size by more than one, so the integer
part of the start size bounds the number of iterations
(`TextLayout_ne_outOfFuel`). -/
def TextLayout (s : TextSlot) (text : List Rune) : Res (Option Layout) :=
  match ToInt32 (wrap64 (s.Bounds.Dx * 64)) with
  | none => Res.error "failed to convert bounds to int32"
  | some hlimit =>
    match ToInt32 (wrap64 (s.Bounds.Dy * 64)) with
    | none => Res.error "failed to convert bounds to int32"
    | some vlimit => searchLoop s text hlimit vlimit (Int.toNat ⌊startSize s⌋) (startSize s)

/-- One call of `font.Drawer.DrawString`: source colour, face, dot, string. -/
structure DrawCall where
  Src : Color
  Face : Face
  Dot : Point
  Text : List Rune

/-- Go `fixed.Point26_6.Add`. -/
def Point.Add (p q : Point) : Point :=
  { X := wrap32 (p.X + q.X), Y := wrap32 (p.Y + q.Y) }

/-- The loop `for i, line := range layout.Lines` of `Render`, over the lines
still to visit; the result is the sequence of draw calls. -/
def renderLoop (s : TextSlot) (layout : Layout) (textColor : Color) :
    List (List Rune) → Nat → List DrawCall → Res (List DrawCall)
  | [], _, calls => Res.ok calls
  | line :: rest, i, calls =>
    match layout.LinePositions[i]? with
    | none => Res.panic
    | some p =>
      let offset : Int := Int.tdiv layout.Face.Height 16
      let outline : List DrawCall :=
        match s.OutlineColor with
        | none => []
        | some c =>
          [{ X := offset, Y := offset }, { X := wrap32 (-offset), Y := offset },
           { X := wrap32 (-offset), Y := wrap32 (-offset) },
           { X := offset, Y := wrap32 (-offset) }].map
            (fun delta : Point =>
              { Src := c, Face := layout.Face, Dot := p.Add delta, Text := line })
      renderLoop s layout textColor rest (i + 1)
        (calls ++ outline ++ [{ Src := textColor, Face := layout.Face, Dot := p, Text := line }])

/-- Go `TextSlot.Render`: the draw calls made on the image, or the error.
`ToUpper` is `strings.ToUpper`. -/
def Render (ToUpper : List Rune → List Rune) (s : TextSlot) (text : List Rune) :
    Res (List DrawCall) :=
  match TextLayout s (if s.AllUppercase then ToUpper text else text) with
  | Res.ok none => Res.ok []
  | Res.error msg => Res.error msg
  | Res.panic => Res.panic
  | Res.outOfFuel => Res.outOfFuel
  | Res.ok (some layout) =>
    renderLoop s layout (s.TextColor.getD Color.Black) layout.Lines 0 []

/-! ## Asset names (`memelibrary.go`) -/

/-- The runes of a string literal. -/
def runes (s : String) : List Rune := s.toList.map Char.toNat

/-- Go `os.IsPathSeparator` on Unix: the slash. -/
def isPathSeparator (r : Rune) : Bool := r = 47

/-- The loop of Go `filepath.Ext`,
`for i := len(path) - 1; i >= 0 && !os.IsPathSeparator(path[i]); i--`, over
the runes before index `i` in reverse order; `acc` is `path[i+1:]`. The body
returns `path[i:]` at the first dot. -/
def extLoop : List Rune → List Rune → List Rune
  | [], _ => []
  | r :: before, acc =>
    if isPathSeparator r then []
    else if r = 46 then r :: acc
    else extLoop before (r :: acc)

/-- Go `filepath.Ext`. -/
def filepath.Ext (path : List Rune) : List Rune := extLoop path.reverse []

/-- Go `unicode.ToLower`: on ASCII the letters `A` to `Z` move to `a` to `z`
and nothing else changes; `lower` is the case table for the runes beyond
ASCII. -/
def unicode.ToLower (lower : Rune → Rune) (r : Rune) : Rune :=
  if r ≤ 127 then (if 65 ≤ r ∧ r ≤ 90 then r + 32 else r) else lower r

/-- Go `strings.ToLower`. -/
def strings.ToLower (lower : Rune → Rune) (s : List Rune) : List Rune :=
  s.map (unicode.ToLower lower)

/-- Go `isImageAsset`. -/
def isImageAsset (lower : Rune → Rune) (assetName : List Rune) : Bool :=
  let ext := strings.ToLower lower (filepath.Ext assetName)
  ext == runes ".jpg" || ext == runes ".jpeg" || ext == runes ".png"

/-! ## Notions the properties are stated with -/

/-- The last rune of `l` that has a glyph, and `prev` when it has none. -/
def lastGlyph (face : Face) : Option Rune → List Rune → Option Rune
  | prev, [] => prev
  | prev, r :: rest =>
    match face.GlyphAdvance r with
    | none => lastGlyph face prev rest
    | some _ => lastGlyph face (some r) rest

/-- The exact width of the runes `l` set after the rune `prev`: the advances
of the runes that have a glyph plus the kerning between each consecutive
pair of them. -/
def lineWidthFrom (face : Face) : Option Rune → List Rune → Int
  | _, [] => 0
  | prev, r :: rest =>
    match face.GlyphAdvance r with
    | none => lineWidthFrom face prev rest
    | some adv =>
      match prev with
      | none => adv + lineWidthFrom face (some r) rest
      | some p => adv + face.Kern p r + lineWidthFrom face (some r) rest

/-- The rendered width of a line, as an exact integer. -/
def lineWidth (face : Face) (l : List Rune) : Int := lineWidthFrom face none l

/-- No running width overflows: every contiguous piece of the text has a
rendered width in the `int32` range. -/
def NoOverflow (face : Face) (text : List Rune) : Prop :=
  ∀ i ≤ text.length, ∀ n ≤ text.length, inInt32 (lineWidth face ((text.drop i).take n))

instance (face : Face) (text : List Rune) : Decidable (NoOverflow face text) := by
  unfold NoOverflow; infer_instance

/-- The lines `l1, l2, ..., ln` with the gaps `w1, w2, ...` between them:
`l1 w1 l2 w2 ... ln`. -/
def joinWith : List (List Rune) → List (List Rune) → List Rune
  | [], _ => []
  | [l], _ => l
  | l :: ls, [] => l ++ joinWith ls []
  | l :: ls, g :: gs => l ++ g ++ joinWith ls gs

/-- The lines `ls` with widths `ws` are what the loop of `lines` collects from
`text` when it runs to the end: each line is the non-empty first line of what
the line before left over. -/
def Wrapped (face : Face) (limit : Int) : List Rune → List (List Rune) → List Int → Prop
  | text, [], [] => text = []
  | text, l :: ls, w :: ws =>
    text ≠ [] ∧ l ≠ [] ∧
      ∃ rem, firstLine face text limit = (l, w, rem) ∧ Wrapped face limit rem ls ws
  | _, [], _ :: _ => False
  | _, _ :: _, [] => False

/-- The baseline after `n` lines: `y += face.Metrics().Height`, `n` times. -/
def baseline (face : Face) (y : Int) (n : Nat) : Int :=
  (fun y => wrap32 (y + face.Height))^[n] y

/-- The `k`-th candidate size of the search. -/
def candidate (s : TextSlot) (k : Nat) : ℚ := nextFontSize^[k] (startSize s)

/-- The number of lines the text wraps into at size `c`. -/
def lineCount (s : TextSlot) (text : List Rune) (c : ℚ) : Option Nat :=
  (lines (s.Font c) text (wrap64 (s.Bounds.Dx * 64))).map (fun p => p.1.length)

/-- At size `c` the wrapped line count exceeds the line budget. -/
def Exceeds (s : TextSlot) (text : List Rune) (c : ℚ) : Prop :=
  ∃ lim n, lineLimit s (s.Font c) = some lim ∧ lineCount s text c = some n ∧ lim < (n : Int)

/-- At size `c` the wrapped line count is within the line budget. -/
def Fits (s : TextSlot) (text : List Rune) (c : ℚ) : Prop :=
  ∃ lim n, lineLimit s (s.Font c) = some lim ∧ lineCount s text c = some n ∧ (n : Int) ≤ lim

/-- The slot with another maximum size, everything else held fixed. -/
def TextSlot.withMax (s : TextSlot) (m : ℚ) : TextSlot := { s with MaxFontSize := m }

/-- The horizontal offset of a line of the given width, as an exact integer:
0 for `Left`, half the free width for `Center`, the free width for `Right`. -/
def horizontalOffset (s : TextSlot) (width : Int) : Int :=
  if s.HorizontalAlignment = Center then Int.tdiv (s.Bounds.Dx * 64 - width) 2
  else if s.HorizontalAlignment = Right then s.Bounds.Dx * 64 - width
  else 0

/-- The vertical offset of a block of the given height, as an exact integer:
0 for `Top`, half the free height (truncated toward zero) for `Middle`, the
free height for `Bottom`. -/
def verticalOffset (s : TextSlot) (totalHeight : Int) : Int :=
  if s.VerticalAlignment = Middle then Int.tdiv (s.Bounds.Dy * 64 - totalHeight) 2
  else if s.VerticalAlignment = Bottom then s.Bounds.Dy * 64 - totalHeight
  else 0

/-- The layout that the loop body of `TextLayout` builds at size `c`. -/
def layoutAt (s : TextSlot) (text : List Rune) (c : ℚ) : Res (Option Layout) :=
  match lines (s.Font c) text (wrap64 (s.Bounds.Dx * 64)) with
  | none => Res.outOfFuel
  | some (ls, widths) =>
    buildLayout s (s.Font c) (wrap64 (s.Bounds.Dx * 64)) (wrap64 (s.Bounds.Dy * 64)) ls widths

/-- The search of `TextLayout` from `MaxFontSize` chooses the size `c`: it is
the first candidate at which the line count fits, it is at least 6, and every
candidate before it was at least 6 and exceeded its budget. -/
def Chooses (s : TextSlot) (text : List Rune) (c : ℚ) : Prop :=
  ∃ k, c = candidate s k ∧ 6 ≤ c ∧ Fits s text c ∧
    ∀ j < k, 6 ≤ candidate s j ∧ Exceeds s text (candidate s j)


/-! ## Words and break points -/

/-- Every rune has a glyph in the face. -/
def AllGlyphs (face : Face) : Prop := ∀ r, ∃ a, face.GlyphAdvance r = some a

/-- Every advance is non-negative, alone and after kerning against any
previous rune. -/
def NonNegAdvances (face : Face) : Prop :=
  ∀ r a, face.GlyphAdvance r = some a → 0 ≤ a ∧ ∀ p, 0 ≤ a + face.Kern p r

/-- The words of a text, scanning it from the left: `cur` is the word being
read. -/
def wordsLoop : List Rune → List Rune → List (List Rune)
  | cur, [] => if cur = [] then [] else [cur]
  | cur, r :: rest =>
    if isSpace r then (if cur = [] then wordsLoop [] rest else cur :: wordsLoop [] rest)
    else wordsLoop (cur ++ [r]) rest

/-- The words of a text: its maximal runs of runes that are not white
space, in order. -/
def words (text : List Rune) : List (List Rune) := wordsLoop [] text

/-- The index `k` is a word boundary of `t`: the rune before it is not white
space and the rune at it is. -/
def Boundary (t : List Rune) (k : Nat) : Prop :=
  (∃ x, (t.take k).getLast? = some x ∧ isSpace x = false) ∧
  (∃ y, (t.drop k).head? = some y ∧ isSpace y = true)

/-- A run of white space followed by a run of runes that are not white
space. -/
def SpacesThenWord (l : List Rune) : Prop :=
  ∃ ws w, l = ws ++ w ∧ (∀ x ∈ ws, isSpace x = true) ∧ (∀ x ∈ w, isSpace x = false)

/-- The segment of the text `t` made of its first line `line`, the white
space that follows it and the next word. -/
def nextSegment (t line : List Rune) : List Rune :=
  line ++ (t.drop line.length).takeWhile isSpace
    ++ ((t.drop line.length).dropWhile isSpace).takeWhile (fun r => !isSpace r)

/-- What `firstLine` can return for the trimmed text `t`: the text is cut at
an index `k` that is its end, or a word boundary, or (force break) lies in
the first word; under the condition `W` on the face and the limit, a line
that is not the whole text could not have taken the next word. -/
def BreakShape (face : Face) (t : List Rune) (limit : Int) (W : Prop)
    (res : List Rune × Int × List Rune) : Prop :=
  ∃ k, res.1 = t.take k ∧ res.2.2 = t.drop k ∧
    (k = t.length ∨
     (k < t.length ∧
      ((∀ x ∈ t.take (k + 1), isSpace x = false) ∨ (1 ≤ k ∧ Boundary t k)) ∧
      (W → limit < lineWidth face (nextSegment t (t.take k)))))

/-- Every line but the last could not have taken more: with the white space
after it and the next word of the text it is wider than the limit. -/
def Greedy (face : Face) (limit : Int) : List Rune → List (List Rune) → Prop
  | _, [] => True
  | _, [_] => True
  | text, l :: l' :: ls =>
    limit < lineWidth face (nextSegment (trimSpace text) l) ∧
    Greedy face limit ((trimSpace text).drop l.length) (l' :: ls)

/-! ## The extension of a name -/

/-- The last element of a path: what follows its last slash. -/
def lastElement (path : List Rune) : List Rune :=
  (path.reverse.takeWhile (fun r => r ≠ 47)).reverse

/-- The extension of a name as the specification words it: the suffix
starting at the final dot of the last path element, empty when that element
has no dot. -/
def extension (name : List Rune) : List Rune :=
  if 46 ∈ lastElement name then
    46 :: ((lastElement name).reverse.takeWhile (fun r => r ≠ 46)).reverse
  else []

/-- The rune with an ASCII capital replaced by its small letter. -/
def foldCase (r : Rune) : Rune := if 65 ≤ r ∧ r ≤ 90 then r + 32 else r

/-- Two strings are equal up to the case of their ASCII letters. -/
def EqualFold (a b : List Rune) : Prop := a.map foldCase = b.map foldCase

instance (a b : List Rune) : Decidable (EqualFold a b) := by
  unfold EqualFold; infer_instance

/-! ## Example inputs -/

/-- A scalable font: at size `c` the face is laid out for `⌊c⌋` pixels per
em, with a line height of 75/64 em and an advance of half an em for every
rune except U+FFFF, which has no glyph; the pair `A V` is kerned by a
sixteenth of an em. -/
def exFont (c : ℚ) : Face :=
  { Height := ⌊c⌋ * 75
    GlyphAdvance := fun r => if r = 65535 then none else some (⌊c⌋ * 32)
    Kern := fun p r => if p = 65 ∧ r = 86 then -(⌊c⌋ * 4) else 0 }

/-- A slot of 100 by 200 pixels at the origin, centred both ways, with the
default maximum size. -/
def exSlot : TextSlot :=
  { Bounds := { Min := { X := 0, Y := 0 }, Max := { X := 100, Y := 200 } }
    Font := exFont
    MaxFontSize := 0
    HorizontalAlignment := Center
    VerticalAlignment := Middle
    TextColor := none
    OutlineColor := none
    AllUppercase := false }

/-- The text `AV a`. -/
def exText : List Rune := [65, 86, 32, 97]

/-- The layout of `AV a` in `exSlot`: two lines at size 80. -/
def exLayout : Layout :=
  { Face := exFont 80
    Lines := [[65, 86], [97]]
    LinePositions := [{ X := 800, Y := 6400 }, { X := 1920, Y := 12400 }] }

/-- The rectangle of the given width and height at the origin. -/
def exRect (w h : Int) : Rectangle := { Min := { X := 0, Y := 0 }, Max := { X := w, Y := h } }

/-- The rectangle of the given width and height with its top left corner at
`(x, y)`. -/
def exRectAt (x y w h : Int) : Rectangle :=
  { Min := { X := x, Y := y }, Max := { X := x + w, Y := y + h } }

/-- The slot `exSlot` with the given rectangle. -/
def exSlotIn (b : Rectangle) : TextSlot := { exSlot with Bounds := b }

/-- The layout of `a` as one line at size 80, at the given position. -/
def exLayoutA (p : Point) : Layout :=
  { Face := exFont 80, Lines := [[97]], LinePositions := [p] }

/-- The layout of `a` as one line at the given size, at the given position. -/
def exLayoutAt (c : ℚ) (p : Point) : Layout :=
  { Face := exFont c, Lines := [[97]], LinePositions := [p] }

/-- The slot `exSlot` with the given rectangle and maximum size. -/
def exSlotMax (b : Rectangle) (m : ℚ) : TextSlot := { exSlot with Bounds := b, MaxFontSize := m }

/-- The slot `exSlot` with the given rectangle and alignments. -/
def exSlotAligned (b : Rectangle) (h : HorizontalAlignment) (v : VerticalAlignment) : TextSlot :=
  { exSlot with Bounds := b, HorizontalAlignment := h, VerticalAlignment := v }

/-- A degenerate font whose line height is 63 units, less than a pixel, at
every size. -/
def exFlatFont (_ : ℚ) : Face :=
  { Height := 63, GlyphAdvance := fun _ => some 32, Kern := fun _ _ => 0 }

/-- The slot `exSlot` with the degenerate font. -/
def exFlatSlot : TextSlot := { exSlot with Font := exFlatFont }

/-- A face in which every rune has a glyph, 10 pixels wide, with one kerning
pair, `AV`, of one pixel. -/
def exMono : Face :=
  { Height := 1200, GlyphAdvance := fun _ => some 640,
    Kern := fun p r => if p = 65 ∧ r = 86 then -64 else 0 }

/-- A case table for the runes beyond ASCII that has the two entries of the
Unicode table with an ASCII value: the Kelvin sign goes to `k` and the
capital dotted I to `i`. -/
def exLower (r : Rune) : Rune := if r = 8490 then 107 else if r = 304 then 105 else r

/-! ## float64 rounding -/

theorem roundEven_abs_sub_le (x : ℚ) : |(roundEven x : ℚ) - x| ≤ 1 / 2 := by
  have h1 : (⌊x⌋ : ℚ) ≤ x := Int.floor_le x
  have h2 : x < ⌊x⌋ + 1 := Int.lt_floor_add_one x
  unfold roundEven
  split_ifs with ha hb hc
  · rw [abs_le]; constructor <;> linarith
  · push_cast; rw [abs_le]; constructor <;> linarith
  · rw [abs_le]; constructor <;> linarith
  · push_cast; rw [abs_le]; constructor <;> linarith

theorem roundEven_eq_of_abs_lt (x : ℚ) (m : Int) (h : |x - m| < 1 / 2) : roundEven x = m := by
  rw [abs_lt] at h
  have h1 : (⌊x⌋ : ℚ) ≤ x := Int.floor_le x
  have h2 : x < ⌊x⌋ + 1 := Int.lt_floor_add_one x
  have hm : ⌊x⌋ = m ∨ ⌊x⌋ = m - 1 := by
    have a1 : (⌊x⌋ : ℚ) < m + 1 := by linarith
    have a2 : (m : ℚ) - 2 < ⌊x⌋ := by linarith
    have a1' : ⌊x⌋ < m + 1 := by exact_mod_cast a1
    have a2' : m - 2 < ⌊x⌋ := by exact_mod_cast a2
    omega
  unfold roundEven
  rcases hm with hm | hm
  · have hq : (⌊x⌋ : ℚ) = m := by exact_mod_cast hm
    rw [if_pos (by linarith)]; exact hm
  · have hq : (⌊x⌋ : ℚ) = m - 1 := by rw [hm]; push_cast; ring
    rw [if_neg (by linarith), if_pos (by linarith)]; omega

theorem Float64.round_abs_sub_le (x : ℚ) :
    |Float64.round x - x| ≤ |x| / 9007199254740992 := by
  unfold Float64.round
  split_ifs with h0
  · subst h0; simp
  · have hx : 0 < |x| := abs_pos.mpr h0
    have hq : (0 : ℚ) < 2 ^ (Int.log 2 |x| - 52) := by positivity
    have hle : (2 : ℚ) ^ Int.log 2 |x| ≤ |x| := by
      have := Int.zpow_log_le_self (b := 2) (r := |x|) (by norm_num) hx
      simpa using this
    have hsplit : (2 : ℚ) ^ (Int.log 2 |x| - 52) = 2 ^ Int.log 2 |x| / 4503599627370496 := by
      rw [zpow_sub₀ (by norm_num : (2 : ℚ) ≠ 0)]; norm_num
    have key : (roundEven (x / 2 ^ (Int.log 2 |x| - 52)) : ℚ) * 2 ^ (Int.log 2 |x| - 52) - x
        = ((roundEven (x / 2 ^ (Int.log 2 |x| - 52)) : ℚ) - x / 2 ^ (Int.log 2 |x| - 52))
          * 2 ^ (Int.log 2 |x| - 52) := by
      field_simp
    rw [key, abs_mul, abs_of_pos hq]
    have hr := roundEven_abs_sub_le (x / 2 ^ (Int.log 2 |x| - 52))
    calc |(roundEven (x / 2 ^ (Int.log 2 |x| - 52)) : ℚ) - x / 2 ^ (Int.log 2 |x| - 52)|
          * 2 ^ (Int.log 2 |x| - 52)
        ≤ 1 / 2 * 2 ^ (Int.log 2 |x| - 52) := by
          exact mul_le_mul_of_nonneg_right hr hq.le
      _ = 2 ^ Int.log 2 |x| / 9007199254740992 := by rw [hsplit]; ring
      _ ≤ |x| / 9007199254740992 := by
          apply div_le_div_of_nonneg_right hle (by norm_num)

theorem Float64.round_eq_of (x : ℚ) (e m : Int) (hpos : 0 < x)
    (hlo : (2 : ℚ) ^ e ≤ x) (hhi : x < (2 : ℚ) ^ (e + 1))
    (h1 : (m : ℚ) - 1 / 2 < x / 2 ^ (e - 52)) (h2 : x / 2 ^ (e - 52) < m + 1 / 2) :
    Float64.round x = m * 2 ^ (e - 52) := by
  have habs : |x| = x := abs_of_pos hpos
  have he : Int.log 2 |x| = e := by
    rw [habs]
    have h1 : e ≤ Int.log 2 x :=
      (Int.zpow_le_iff_le_log (b := 2) (by norm_num) hpos (x := e)).mp (by simpa using hlo)
    have h2 : Int.log 2 x < e + 1 :=
      (Int.lt_zpow_iff_log_lt (b := 2) (by norm_num) hpos (x := e + 1)).mp (by simpa using hhi)
    omega
  unfold Float64.round
  rw [if_neg hpos.ne', he, roundEven_eq_of_abs_lt _ m (by rw [abs_lt]; constructor <;> linarith)]

theorem nextFontSize_le (s : ℚ) (h : 6 ≤ s) : nextFontSize s ≤ s - 1 := by
  unfold nextFontSize Float64.sub Float64.div Float64.add
  have ha := Float64.round_abs_sub_le (s + 9)
  set a := Float64.round (s + 9) with hadef
  have hb := Float64.round_abs_sub_le (a / 10)
  set b := Float64.round (a / 10) with hbdef
  have hc := Float64.round_abs_sub_le (s - b)
  set c := Float64.round (s - b) with hcdef
  rw [abs_of_nonneg (by linarith : (0:ℚ) ≤ s + 9), abs_le] at ha
  have ha0 : 0 ≤ a := by linarith
  rw [abs_of_nonneg (by positivity : (0:ℚ) ≤ a / 10), abs_le] at hb
  have hsb : 0 ≤ s - b := by linarith
  rw [abs_of_nonneg hsb, abs_le] at hc
  linarith

theorem nextFontSize_80 : nextFontSize 80 = 2501608855515955 / 35184372088832 := by
  unfold nextFontSize Float64.sub Float64.div Float64.add
  have h1 : Float64.round (80 + 9) = 89 := by
    rw [Float64.round_eq_of (80 + 9) 6 6262818231812096] <;> norm_num
  rw [h1]
  have h2 : Float64.round (89 / 10) = 5010254585449677 / 562949953421312 := by
    rw [Float64.round_eq_of (89 / 10) 3 5010254585449677] <;> norm_num
  rw [h2]
  rw [Float64.round_eq_of _ 6 5003217711031910] <;> norm_num

theorem nextFontSize_73 : nextFontSize 73 = 4559894622712627 / 70368744177664 := by
  unfold nextFontSize Float64.sub Float64.div Float64.add
  have h1 : Float64.round (73 + 9) = 82 := by
    rw [Float64.round_eq_of (73 + 9) 6 5770237022568448] <;> norm_num
  rw [h1]
  have h2 : Float64.round (82 / 10) = 2308094809027379 / 281474976710656 := by
    rw [Float64.round_eq_of (82 / 10) 3 4616189618054758] <;> norm_num
  rw [h2]
  rw [Float64.round_eq_of _ 6 4559894622712627] <;> norm_num

theorem nextFontSize_80_80 : nextFontSize (2501608855515955 / 35184372088832)
    = 8879128140337643 / 140737488355328 := by
  unfold nextFontSize Float64.sub Float64.div Float64.add
  have h1 : Float64.round (2501608855515955 / 35184372088832 + 9)
      = 2818268204315443 / 35184372088832 := by
    rw [Float64.round_eq_of _ 6 5636536408630886] <;> norm_num
  rw [h1]
  have h2 : Float64.round (2818268204315443 / 35184372088832 / 10)
      = 4509229126904709 / 562949953421312 := by
    rw [Float64.round_eq_of _ 3 4509229126904709] <;> norm_num
  rw [h2]
  rw [Float64.round_eq_of _ 5 8879128140337643] <;> norm_num

/-! ## Machine integers: basic facts -/

theorem wrap32_of_inInt32 {x : Int} (h : inInt32 x) : wrap32 x = x := by
  unfold inInt32 at h; unfold wrap32; omega

theorem inInt32_wrap32 (x : Int) : inInt32 (wrap32 x) := by
  unfold inInt32 wrap32; omega

theorem wrap32_add_wrap32 (a b : Int) : wrap32 (a + wrap32 b) = wrap32 (a + b) := by
  unfold wrap32; omega

theorem ToInt32_eq_some {i v : Int} (h : ToInt32 i = some v) : v = i ∧ inInt32 i := by
  unfold ToInt32 at h
  split_ifs at h with hc
  simp only [Option.some.injEq] at h
  unfold inInt32
  omega

theorem ToInt32_of_inInt32 {i : Int} (h : inInt32 i) : ToInt32 i = some i := by
  unfold inInt32 at h; unfold ToInt32
  rw [if_neg (by omega)]

theorem ToInt32_eq_none {i : Int} (h : ¬ inInt32 i) : ToInt32 i = none := by
  unfold inInt32 at h; unfold ToInt32
  rw [if_pos (by omega)]

/-! ## Rendered width -/

theorem lastGlyph_append (face : Face) (a b : List Rune) (prev : Option Rune) :
    lastGlyph face prev (a ++ b) = lastGlyph face (lastGlyph face prev a) b := by
  induction a generalizing prev with
  | nil => rfl
  | cons r a ih =>
    show lastGlyph face prev (r :: (a ++ b)) = _
    simp only [lastGlyph]
    cases face.GlyphAdvance r <;> simp only [ih]

theorem lineWidthFrom_append (face : Face) (a b : List Rune) (prev : Option Rune) :
    lineWidthFrom face prev (a ++ b)
      = lineWidthFrom face prev a + lineWidthFrom face (lastGlyph face prev a) b := by
  induction a generalizing prev with
  | nil => simp [lineWidthFrom, lastGlyph]
  | cons r a ih =>
    show lineWidthFrom face prev (r :: (a ++ b)) = _
    simp only [lineWidthFrom, lastGlyph]
    cases hg : face.GlyphAdvance r with
    | none => simp only [ih]
    | some adv =>
      cases prev with
      | none => simp only [ih]; ring
      | some p => simp only [ih]; ring

/-- The width after one more rune that has a glyph. -/
theorem lineWidth_snoc_some (face : Face) (done : List Rune) (r : Rune) (adv : Int)
    (hg : face.GlyphAdvance r = some adv) :
    lineWidth face (done ++ [r])
      = lineWidth face done
        + (match lastGlyph face none done with
           | none => adv
           | some p => adv + face.Kern p r) := by
  unfold lineWidth
  rw [lineWidthFrom_append]
  simp only [lineWidthFrom, hg]
  cases lastGlyph face none done <;> simp

/-- A rune without a glyph adds nothing to the width. -/
theorem lineWidth_snoc_none (face : Face) (done : List Rune) (r : Rune)
    (hg : face.GlyphAdvance r = none) :
    lineWidth face (done ++ [r]) = lineWidth face done := by
  unfold lineWidth
  rw [lineWidthFrom_append]
  simp [lineWidthFrom, hg]

theorem lastGlyph_snoc_some (face : Face) (done : List Rune) (r : Rune) (adv : Int)
    (hg : face.GlyphAdvance r = some adv) :
    lastGlyph face none (done ++ [r]) = some r := by
  rw [lastGlyph_append]; simp [lastGlyph, hg]

theorem lastGlyph_snoc_none (face : Face) (done : List Rune) (r : Rune)
    (hg : face.GlyphAdvance r = none) :
    lastGlyph face none (done ++ [r]) = lastGlyph face none done := by
  rw [lastGlyph_append]; simp [lastGlyph, hg]

/-! ## `firstLine` -/

/-- The line and the rest that `firstLine` returns split the trimmed text. -/
theorem firstLineLoop_split (face : Face) (text : List Rune) (limit : Int) :
    ∀ (rest : List Rune) (pos lb : Nat) (w lbw : Int) (prev : Option Rune),
      ∃ k, (firstLineLoop face text limit rest pos lb w lbw prev).1 = text.take k ∧
        (firstLineLoop face text limit rest pos lb w lbw prev).2.2 = text.drop k := by
  intro rest
  induction rest with
  | nil =>
    intro pos lb w lbw prev
    exact ⟨text.length, by simp [firstLineLoop]⟩
  | cons r rest ih =>
    intro pos lb w lbw prev
    unfold firstLineLoop
    cases hg : face.GlyphAdvance r with
    | none => exact ih _ _ _ _ _
    | some adv =>
      simp only
      split_ifs <;> first | exact ⟨_, rfl, rfl⟩ | exact ih _ _ _ _ _

theorem firstLine_split (face : Face) (text : List Rune) (limit : Int) :
    ∃ k, (firstLine face text limit).1 = (trimSpace text).take k ∧
      (firstLine face text limit).2.2 = (trimSpace text).drop k :=
  firstLineLoop_split face (trimSpace text) limit _ _ _ _ _ _

/-- Every line `firstLine` can return is at most `B` wide, when `B` bounds the
limit and the width of the empty line, and no running width overflows. -/
theorem firstLineLoop_width_le (face : Face) (text : List Rune) (limit B : Int)
    (hB : limit ≤ B) (hno : ∀ j, inInt32 (lineWidth face (text.take j))) :
    ∀ (rest done : List Rune) (pos lb : Nat) (w lbw : Int) (prev : Option Rune),
      text = done ++ rest → w = lineWidth face done → prev = lastGlyph face none done →
      pos ≤ done.length → lb ≤ pos →
      (∀ j ≤ done.length, lineWidth face (text.take j) ≤ B) →
      lineWidth face (firstLineLoop face text limit rest pos lb w lbw prev).1 ≤ B := by
  intro rest
  induction rest with
  | nil =>
    intro done pos lb w lbw prev ht _ _ _ _ hpre
    have := hpre done.length le_rfl
    simp only [firstLineLoop]
    rw [ht] at this ⊢
    simpa using this
  | cons r rest ih =>
    intro done pos lb w lbw prev ht hw hprev hpos hlb hpre
    subst hw hprev
    have ht' : text = (done ++ [r]) ++ rest := by simp [ht]
    have htake : text.take (done.length + 1) = done ++ [r] := by
      rw [ht']
      have : (done ++ [r]).length = done.length + 1 := by simp
      rw [← this, List.take_left']
      rfl
    have htake0 : text.take done.length = done := by
      rw [ht]; simp
    unfold firstLineLoop
    cases hg : face.GlyphAdvance r with
    | none =>
      simp only
      apply ih (done ++ [r]) pos lb _ lbw _ ht'
      · rw [lineWidth_snoc_none face done r hg]
      · rw [lastGlyph_snoc_none face done r hg]
      · simp; omega
      · exact hlb
      · intro j hj
        simp only [List.length_append, List.length_singleton] at hj
        rcases Nat.lt_or_ge j (done.length + 1) with hj' | hj'
        · exact hpre j (by omega)
        · have : j = done.length + 1 := by omega
          rw [this, htake, lineWidth_snoc_none face done r hg, ← htake0]
          exact hpre _ le_rfl
    | some adv =>
      simp only
      have hexact : wrap32 (lineWidth face done + (match lastGlyph face none done with
          | none => adv
          | some p => wrap32 (adv + face.Kern p r))) = lineWidth face (done ++ [r]) := by
        have hin := hno (done.length + 1)
        rw [htake] at hin
        rw [lineWidth_snoc_some face done r adv hg] at hin ⊢
        generalize lastGlyph face none done = q at hin ⊢
        cases q with
        | none => exact wrap32_of_inInt32 hin
        | some p =>
          simp only at hin ⊢
          rw [wrap32_add_wrap32]
          exact wrap32_of_inInt32 hin
      rw [hexact]
      split_ifs with h1 h2 h3 h4
      · exact hpre _ (by omega)
      · exact hpre _ (by omega)
      · exact hpre _ (by omega)
      · exact hpre _ (by omega)
      · apply ih (done ++ [r]) (pos + 1) _ _ _ (some r) ht' rfl
        · rw [lastGlyph_snoc_some face done r adv hg]
        · simp; omega
        · omega
        · intro j hj
          simp only [List.length_append, List.length_singleton] at hj
          rcases Nat.lt_or_ge j (done.length + 1) with hj' | hj'
          · exact hpre j (by omega)
          · have : j = done.length + 1 := by omega
            rw [this, htake]
            omega
      · apply ih (done ++ [r]) (pos + 1) _ _ _ (some r) ht' rfl
        · rw [lastGlyph_snoc_some face done r adv hg]
        · simp; omega
        · omega
        · intro j hj
          simp only [List.length_append, List.length_singleton] at hj
          rcases Nat.lt_or_ge j (done.length + 1) with hj' | hj'
          · exact hpre j (by omega)
          · have : j = done.length + 1 := by omega
            rw [this, htake]
            omega

/-! ## Pieces of a text -/

/-- The trimmed text is a contiguous piece of the text. -/
theorem trimSpace_piece (text : List Rune) :
    ∃ pre post, text = pre ++ trimSpace text ++ post := by
  obtain ⟨post, hpost⟩ := List.rdropWhile_prefix isSpace (l := text.dropWhile isSpace)
  refine ⟨text.takeWhile isSpace, post, ?_⟩
  unfold trimSpace
  rw [List.append_assoc, hpost, List.takeWhile_append_dropWhile]

theorem trimSpace_length_le (text : List Rune) : (trimSpace text).length ≤ text.length := by
  obtain ⟨pre, post, h⟩ := trimSpace_piece text
  have := congrArg List.length h
  simp only [List.length_append] at this
  omega

theorem NoOverflow.piece {face : Face} {text : List Rune} (h : NoOverflow face text)
    (pre seg post : List Rune) (ht : text = pre ++ seg ++ post) :
    inInt32 (lineWidth face seg) := by
  have hlen : text.length = pre.length + seg.length + post.length := by
    rw [ht]; simp only [List.length_append]
  have := h pre.length (by omega) seg.length (by omega)
  rw [ht] at this
  simpa using this

theorem NoOverflow.sub {face : Face} {text : List Rune} (h : NoOverflow face text)
    (pre t post : List Rune) (ht : text = pre ++ t ++ post) : NoOverflow face t := by
  intro i _ n _
  apply h.piece (pre ++ t.take i) _ ((t.drop i).drop n ++ post)
  rw [ht]
  have h1 : t = t.take i ++ ((t.drop i).take n ++ (t.drop i).drop n) := by
    rw [List.take_append_drop, List.take_append_drop]
  conv_lhs => rw [h1]
  simp only [List.append_assoc]

/-! ## `firstLine`, continued -/

theorem firstLine_width_le (face : Face) (text : List Rune) (limit : Int)
    (hno : NoOverflow face text) :
    lineWidth face (firstLine face text limit).1 ≤ max limit 0 := by
  obtain ⟨pre, post, hp⟩ := trimSpace_piece text
  apply firstLineLoop_width_le face (trimSpace text) limit (max limit 0) (le_max_left _ _)
    (fun j => hno.piece pre _ ((trimSpace text).drop j ++ post)
      (by conv_lhs => rw [hp, ← List.take_append_drop j (trimSpace text)]
          simp only [List.append_assoc]))
    (trimSpace text) [] 0 0 0 0 none rfl rfl rfl le_rfl le_rfl
  intro j hj
  have : j = 0 := by simpa using hj
  subst this
  simp [lineWidth, lineWidthFrom]

/-- A non-empty first line leaves a strictly shorter rest. -/
theorem firstLine_remaining_lt (face : Face) (text : List Rune) (limit : Int)
    (h : (firstLine face text limit).1 ≠ []) :
    (firstLine face text limit).2.2.length < text.length := by
  obtain ⟨k, h1, h2⟩ := firstLine_split face text limit
  have hlen := trimSpace_length_le text
  rw [h1] at h
  rw [h2, List.length_drop]
  have hk : k ≠ 0 := by rintro rfl; simp at h
  have ht : (trimSpace text).length ≠ 0 := by
    intro h0
    have : trimSpace text = [] := List.length_eq_zero.mp h0
    rw [this] at h; simp at h
  omega

/-- The rest that `firstLine` leaves is a contiguous piece of the text. -/
theorem firstLine_remaining_piece (face : Face) (text : List Rune) (limit : Int) :
    ∃ pre post, text = pre ++ (firstLine face text limit).2.2 ++ post := by
  obtain ⟨k, _, h2⟩ := firstLine_split face text limit
  obtain ⟨pre, post, hp⟩ := trimSpace_piece text
  refine ⟨pre ++ (trimSpace text).take k, post, ?_⟩
  rw [h2]
  conv_lhs => rw [hp, ← List.take_append_drop k (trimSpace text)]
  simp only [List.append_assoc]

/-! ## `lines` -/

/-- With `len(text)` iterations the loop of `lines` ends: either it gave up,
returning no lines, or it returns the lines collected so far followed by a
complete wrapping of the text. -/
theorem linesLoop_spec (face : Face) (limit : Int) :
    ∀ (fuel : Nat) (text : List Rune) (acc : List (List Rune)) (wacc : List Int),
      text.length ≤ fuel →
      linesLoop face limit fuel text acc wacc = some ([], []) ∨
      ∃ new wnew, linesLoop face limit fuel text acc wacc = some (acc ++ new, wacc ++ wnew) ∧
        Wrapped face limit text new wnew := by
  intro fuel
  induction fuel with
  | zero =>
    intro text acc wacc hlen
    have : text = [] := List.length_eq_zero.mp (by omega)
    subst this
    exact Or.inr ⟨[], [], by simp [linesLoop], by simp [Wrapped]⟩
  | succ fuel ih =>
    intro text acc wacc hlen
    cases text with
    | nil => exact Or.inr ⟨[], [], by simp [linesLoop], by simp [Wrapped]⟩
    | cons r rest =>
      rcases hfl : firstLine face (r :: rest) limit with ⟨line, width, rem⟩
      simp only [linesLoop, hfl]
      by_cases hline : line = []
      · left; rw [if_pos hline]
      · rw [if_neg hline]
        have hlt := firstLine_remaining_lt face (r :: rest) limit (by rw [hfl]; exact hline)
        rw [hfl] at hlt
        simp only at hlt
        rcases ih rem (acc ++ [line]) (wacc ++ [width]) (by omega) with h | ⟨new, wnew, h, hw⟩
        · left; exact h
        · right
          refine ⟨line :: new, width :: wnew, ?_, ?_⟩
          · rw [h]; simp
          · exact ⟨by simp, hline, rem, hfl, hw⟩

/-- Go `lines` always returns: either no lines at all, or a complete wrapping
of the text. -/
theorem lines_spec (face : Face) (text : List Rune) (limit : Int) :
    lines face text limit = some ([], []) ∨
    ∃ ls ws, lines face text limit = some (ls, ws) ∧ Wrapped face limit text ls ws := by
  rcases linesLoop_spec face limit text.length text [] [] le_rfl with h | ⟨new, wnew, h, hw⟩
  · exact Or.inl h
  · exact Or.inr ⟨new, wnew, by simpa [lines] using h, hw⟩

theorem lines_isSome (face : Face) (text : List Rune) (limit : Int) :
    ∃ ls ws, lines face text limit = some (ls, ws) := by
  rcases lines_spec face text limit with h | ⟨ls, ws, h, _⟩
  · exact ⟨[], [], h⟩
  · exact ⟨ls, ws, h⟩

theorem Wrapped.length_eq {face : Face} {limit : Int} :
    ∀ {ls : List (List Rune)} {text : List Rune} {ws : List Int},
      Wrapped face limit text ls ws → ls.length = ws.length := by
  intro ls
  induction ls with
  | nil =>
    intro text ws h
    cases ws with
    | nil => rfl
    | cons w ws => simp [Wrapped] at h
  | cons l ls ih =>
    intro text ws h
    cases ws with
    | nil => simp [Wrapped] at h
    | cons w ws =>
      obtain ⟨_, _, rem, _, hrest⟩ := h
      simp [ih hrest]

/-- Go `lines` returns as many widths as lines. -/
theorem lines_length_eq (face : Face) (text : List Rune) (limit : Int)
    (ls : List (List Rune)) (ws : List Int) (h : lines face text limit = some (ls, ws)) :
    ls.length = ws.length := by
  rcases lines_spec face text limit with h0 | ⟨ls', ws', h1, hw⟩
  · rw [h0] at h; cases h; rfl
  · rw [h1] at h; cases h; exact hw.length_eq

theorem Wrapped.width_le {face : Face} {limit : Int} :
    ∀ {ls : List (List Rune)} {text : List Rune} {ws : List Int},
      NoOverflow face text → Wrapped face limit text ls ws →
      ∀ l ∈ ls, lineWidth face l ≤ max limit 0 := by
  intro ls
  induction ls with
  | nil => intro _ _ _ _ l hl; simp at hl
  | cons l0 ls ih =>
    intro text ws hno h l hl
    cases ws with
    | nil => simp [Wrapped] at h
    | cons w ws =>
      obtain ⟨_, _, rem, hfl, hrest⟩ := h
      rcases List.mem_cons.mp hl with rfl | hl
      · have := firstLine_width_le face text limit hno
        rw [hfl] at this; exact this
      · obtain ⟨pre, post, hp⟩ := firstLine_remaining_piece face text limit
        rw [hfl] at hp
        exact ih (hno.sub pre rem post hp) hrest l hl

/-! ## The size search -/

theorem toNat_floor_nextFontSize_lt (c : ℚ) (h : 6 ≤ c) :
    Int.toNat ⌊nextFontSize c⌋ < Int.toNat ⌊c⌋ := by
  have h1 := nextFontSize_le c h
  have h2 : ⌊nextFontSize c⌋ ≤ ⌊c - 1⌋ := Int.floor_mono h1
  have h3 : ⌊c - 1⌋ = ⌊c⌋ - 1 := Int.floor_sub_one c
  have h4 : (6 : Int) ≤ ⌊c⌋ := Int.le_floor.mpr (by exact_mod_cast h)
  omega

/-- How the loop of `TextLayout` ends when started at size `c0`: after `k`
candidates that were at least 6 and exceeded their budget, the next one is
below 6 (result `nil, nil`), or its line height is below one pixel (panic), or
its line count fits (the layout built there). -/
theorem searchLoop_cases (s : TextSlot) (text : List Rune) :
    ∀ (fuel : Nat) (c0 : ℚ), Int.toNat ⌊c0⌋ ≤ fuel →
      ∃ k, (∀ j < k, 6 ≤ nextFontSize^[j] c0 ∧ Exceeds s text (nextFontSize^[j] c0)) ∧
        ((nextFontSize^[k] c0 < 6 ∧
            searchLoop s text (wrap64 (s.Bounds.Dx * 64)) (wrap64 (s.Bounds.Dy * 64)) fuel c0
              = Res.ok none) ∨
         (6 ≤ nextFontSize^[k] c0 ∧ lineLimit s (s.Font (nextFontSize^[k] c0)) = none ∧
            searchLoop s text (wrap64 (s.Bounds.Dx * 64)) (wrap64 (s.Bounds.Dy * 64)) fuel c0
              = Res.panic) ∨
         (6 ≤ nextFontSize^[k] c0 ∧ Fits s text (nextFontSize^[k] c0) ∧
            searchLoop s text (wrap64 (s.Bounds.Dx * 64)) (wrap64 (s.Bounds.Dy * 64)) fuel c0
              = layoutAt s text (nextFontSize^[k] c0))) := by
  intro fuel
  induction fuel with
  | zero =>
    intro c0 hf
    have hlt : c0 < 6 := by
      by_contra hge
      have h4 : (6 : Int) ≤ ⌊c0⌋ := Int.le_floor.mpr (by exact_mod_cast not_lt.mp hge)
      omega
    refine ⟨0, fun j hj => absurd hj (Nat.not_lt_zero j), Or.inl ⟨hlt, ?_⟩⟩
    simp only [searchLoop, if_neg (not_le.mpr hlt)]
  | succ fuel ih =>
    intro c0 hf
    by_cases hge : 6 ≤ c0
    · cases hlim : lineLimit s (s.Font c0) with
      | none =>
        refine ⟨0, fun j hj => absurd hj (Nat.not_lt_zero j), Or.inr (Or.inl ⟨hge, hlim, ?_⟩)⟩
        simp only [searchLoop, if_pos hge, hlim]
      | some lim =>
        obtain ⟨ls, ws, hl⟩ := lines_isSome (s.Font c0) text (wrap64 (s.Bounds.Dx * 64))
        have hcount : lineCount s text c0 = some ls.length := by
          simp [lineCount, hl]
        by_cases hex : (ls.length : Int) > lim
        · have hstep : searchLoop s text (wrap64 (s.Bounds.Dx * 64))
              (wrap64 (s.Bounds.Dy * 64)) (fuel + 1) c0
              = searchLoop s text (wrap64 (s.Bounds.Dx * 64))
                  (wrap64 (s.Bounds.Dy * 64)) fuel (nextFontSize c0) := by
            simp only [searchLoop, if_pos hge, hlim, hl, if_pos hex]
          have hlt := toNat_floor_nextFontSize_lt c0 hge
          obtain ⟨k, hbefore, hend⟩ := ih (nextFontSize c0) (by omega)
          refine ⟨k + 1, ?_, ?_⟩
          · intro j hj
            cases j with
            | zero => exact ⟨hge, lim, ls.length, hlim, hcount, hex⟩
            | succ j =>
              rw [Function.iterate_succ_apply]
              exact hbefore j (by omega)
          · rw [Function.iterate_succ_apply, hstep]
            exact hend
        · refine ⟨0, fun j hj => absurd hj (Nat.not_lt_zero j),
            Or.inr (Or.inr ⟨hge, ⟨lim, ls.length, hlim, hcount, not_lt.mp hex⟩, ?_⟩)⟩
          simp only [searchLoop, if_pos hge, hlim, hl, if_neg hex, layoutAt,
            Function.iterate_zero, id_eq]
    · refine ⟨0, fun j hj => absurd hj (Nat.not_lt_zero j), Or.inl ⟨not_le.mp hge, ?_⟩⟩
      simp only [searchLoop, if_neg hge]

/-- The candidates examined are strictly decreasing. -/
theorem candidate_succ_lt (s : TextSlot) (j : Nat) (h : 6 ≤ candidate s j) :
    candidate s (j + 1) < candidate s j := by
  have := nextFontSize_le (candidate s j) h
  unfold candidate at *
  rw [Function.iterate_succ_apply']
  linarith

theorem candidate_le_start (s : TextSlot) (k : Nat)
    (h : ∀ j < k, 6 ≤ candidate s j) : candidate s k ≤ startSize s := by
  induction k with
  | zero => exact le_rfl
  | succ k ih =>
    have h1 := candidate_succ_lt s k (h k (Nat.lt_succ_self k))
    have h2 := ih (fun j hj => h j (Nat.lt_succ_of_lt hj))
    linarith

/-- `TextLayout` in terms of the candidates: a conversion error for the
width or the height of the rectangle, or one of the three ends of the search
at some candidate `k`, every candidate before it having exceeded its budget. -/
theorem TextLayout_cases (s : TextSlot) (text : List Rune) :
    (¬ inInt32 (wrap64 (s.Bounds.Dx * 64)) ∧
        TextLayout s text = Res.error "failed to convert bounds to int32") ∨
    (¬ inInt32 (wrap64 (s.Bounds.Dy * 64)) ∧
        TextLayout s text = Res.error "failed to convert bounds to int32") ∨
    (inInt32 (wrap64 (s.Bounds.Dx * 64)) ∧ inInt32 (wrap64 (s.Bounds.Dy * 64)) ∧
      ∃ k, (∀ j < k, 6 ≤ candidate s j ∧ Exceeds s text (candidate s j)) ∧
        ((candidate s k < 6 ∧ TextLayout s text = Res.ok none) ∨
         (6 ≤ candidate s k ∧ lineLimit s (s.Font (candidate s k)) = none ∧
            TextLayout s text = Res.panic) ∨
         (6 ≤ candidate s k ∧ Fits s text (candidate s k) ∧
            TextLayout s text = layoutAt s text (candidate s k)))) := by
  by_cases hx : inInt32 (wrap64 (s.Bounds.Dx * 64))
  · by_cases hy : inInt32 (wrap64 (s.Bounds.Dy * 64))
    · right; right
      refine ⟨hx, hy, ?_⟩
      have hT : TextLayout s text
          = searchLoop s text (wrap64 (s.Bounds.Dx * 64)) (wrap64 (s.Bounds.Dy * 64))
              (Int.toNat ⌊startSize s⌋) (startSize s) := by
        simp only [TextLayout, ToInt32_of_inInt32 hx, ToInt32_of_inInt32 hy]
      rw [hT]
      exact searchLoop_cases s text _ _ le_rfl
    · right; left
      refine ⟨hy, ?_⟩
      simp only [TextLayout, ToInt32_of_inInt32 hx, ToInt32_eq_none hy]
  · left
    refine ⟨hx, ?_⟩
    simp only [TextLayout, ToInt32_eq_none hx]

/-! ## Line positions -/

/-- When the left edge converts and the slice has room, the position loop
succeeds: it writes one position per width, from index `i` on, and leaves
the positions before `i` alone. -/
theorem positionsLoop_ok (s : TextSlot) (face : Face) (hlimit safeX : Int)
    (hx : ToInt32 (wrap64 (s.Bounds.Min.X * 64)) = some safeX) :
    ∀ (ws : List Int) (i : Nat) (y : Int) (ps : List Point), i + ws.length ≤ ps.length →
      ∃ ps', positionsLoop s face hlimit ws i y ps = Res.ok ps' ∧ ps'.length = ps.length ∧
        (∀ t, t < i → ps'[t]? = ps[t]?) ∧
        (∀ t w, ws[t]? = some w →
          ps'[i + t]? =
            some ({ X := alignX s hlimit w safeX, Y := baseline face y (t + 1) } : Point)) := by
  intro ws
  induction ws with
  | nil =>
    intro i y ps _
    exact ⟨ps, rfl, rfl, fun _ _ => rfl, fun t w h => by simp at h⟩
  | cons w0 rest ih =>
    intro i y ps hlen
    simp only [List.length_cons] at hlen
    have hi : i < ps.length := by omega
    obtain ⟨ps', hrun, hl, hbefore, hat⟩ :=
      ih (i + 1) (wrap32 (y + face.Height))
        (ps.set i { X := alignX s hlimit w0 safeX, Y := wrap32 (y + face.Height) })
        (by simp only [List.length_set]; omega)
    refine ⟨ps', ?_, ?_, ?_, ?_⟩
    · simp only [positionsLoop, hx, if_pos hi]
      exact hrun
    · rw [hl, List.length_set]
    · intro t ht
      rw [hbefore t (by omega), List.getElem?_set_ne (by omega)]
    · intro t w htw
      cases t with
      | zero =>
        simp only [List.getElem?_cons_zero, Option.some.injEq] at htw
        subst htw
        rw [Nat.add_zero, hbefore i (Nat.lt_succ_self i), List.getElem?_set_self hi]
        rfl
      | succ t =>
        simp only [List.getElem?_cons_succ] at htw
        have := hat t w htw
        rw [show i + (t + 1) = i + 1 + t by omega, this]
        simp only [baseline, Function.iterate_succ_apply]

/-- When the left edge does not convert, the position loop fails at the
first line. -/
theorem positionsLoop_error (s : TextSlot) (face : Face) (hlimit : Int)
    (hx : ToInt32 (wrap64 (s.Bounds.Min.X * 64)) = none)
    (w : Int) (ws : List Int) (i : Nat) (y : Int) (ps : List Point) :
    positionsLoop s face hlimit (w :: ws) i y ps
      = Res.error "failed to convert bounds to int32" := by
  simp only [positionsLoop, hx]

theorem buildLayout_of_positions (s : TextSlot) (face : Face) (hlimit vlimit : Int)
    (ls : List (List Rune)) (ws : List Int)
    (hy : inInt32 (wrap64 (s.Bounds.Min.Y * 64)))
    (hn : inInt32 (wrap64 ((ls.length : Int) * 64))) :
    buildLayout s face hlimit vlimit ls ws =
      match positionsLoop s face hlimit ws 0
          (alignY s vlimit (Int26_6.Mul face.Height (wrap64 ((ls.length : Int) * 64)))
            (wrap64 (s.Bounds.Min.Y * 64)))
          (List.replicate ls.length ({ X := 0, Y := 0 } : Point)) with
      | Res.ok ps => Res.ok (some { Face := face, Lines := ls, LinePositions := ps })
      | Res.error msg => Res.error msg
      | Res.panic => Res.panic
      | Res.outOfFuel => Res.outOfFuel := by
  unfold buildLayout
  rw [ToInt32_of_inInt32 hy, ToInt32_of_inInt32 hn]

/-- What `buildLayout` returns when as many widths as lines are given: a
conversion error, or a layout holding the face, the lines, and one position
per line. -/
theorem buildLayout_cases (s : TextSlot) (face : Face) (hlimit vlimit : Int)
    (ls : List (List Rune)) (ws : List Int) (hlen : ls.length = ws.length) :
    (¬ inInt32 (wrap64 (s.Bounds.Min.Y * 64)) ∧
      buildLayout s face hlimit vlimit ls ws = Res.error "failed to convert bounds to int32") ∨
    (inInt32 (wrap64 (s.Bounds.Min.Y * 64)) ∧ ¬ inInt32 (wrap64 ((ls.length : Int) * 64)) ∧
      buildLayout s face hlimit vlimit ls ws = Res.error "failed to convert lines to int32") ∨
    (inInt32 (wrap64 (s.Bounds.Min.Y * 64)) ∧ inInt32 (wrap64 ((ls.length : Int) * 64)) ∧
      ¬ inInt32 (wrap64 (s.Bounds.Min.X * 64)) ∧ ls ≠ [] ∧
      buildLayout s face hlimit vlimit ls ws = Res.error "failed to convert bounds to int32") ∨
    (inInt32 (wrap64 (s.Bounds.Min.Y * 64)) ∧ inInt32 (wrap64 ((ls.length : Int) * 64)) ∧
      (inInt32 (wrap64 (s.Bounds.Min.X * 64)) ∨ ls = []) ∧
      ∃ ps, buildLayout s face hlimit vlimit ls ws
          = Res.ok (some { Face := face, Lines := ls, LinePositions := ps }) ∧
        ps.length = ls.length ∧
        ∀ t w, ws[t]? = some w →
          ps[t]? = some
            ({ X := alignX s hlimit w (wrap64 (s.Bounds.Min.X * 64)),
               Y := baseline face
                (alignY s vlimit (Int26_6.Mul face.Height (wrap64 ((ls.length : Int) * 64)))
                  (wrap64 (s.Bounds.Min.Y * 64))) (t + 1) } : Point)) := by
  by_cases hy : inInt32 (wrap64 (s.Bounds.Min.Y * 64))
  · by_cases hn : inInt32 (wrap64 ((ls.length : Int) * 64))
    · have hb := buildLayout_of_positions s face hlimit vlimit ls ws hy hn
      by_cases hx : inInt32 (wrap64 (s.Bounds.Min.X * 64))
      · right; right; right
        refine ⟨hy, hn, Or.inl hx, ?_⟩
        obtain ⟨ps, hrun, hl, _, hat⟩ :=
          positionsLoop_ok s face hlimit _ (ToInt32_of_inInt32 hx) ws 0
            (alignY s vlimit (Int26_6.Mul face.Height (wrap64 ((ls.length : Int) * 64)))
              (wrap64 (s.Bounds.Min.Y * 64)))
            (List.replicate ls.length ({ X := 0, Y := 0 } : Point))
            (by rw [List.length_replicate]; omega)
        refine ⟨ps, ?_, ?_, ?_⟩
        · rw [hb, hrun]
        · rw [hl, List.length_replicate]
        · intro t w htw
          have := hat t w htw
          rwa [Nat.zero_add] at this
      · cases ws with
        | nil =>
          have hls : ls = [] := List.length_eq_zero.mp hlen
          right; right; right
          refine ⟨hy, hn, Or.inr hls, [], ?_, by rw [hls]; rfl, fun t w h => by simp at h⟩
          rw [hb, hls]
          rfl
        | cons w ws =>
          right; right; left
          refine ⟨hy, hn, hx, ?_, ?_⟩
          · intro h; rw [h] at hlen; simp at hlen
          · rw [hb, positionsLoop_error s face hlimit (ToInt32_eq_none hx)]
    · right; left
      refine ⟨hy, hn, ?_⟩
      unfold buildLayout
      rw [ToInt32_of_inInt32 hy, ToInt32_eq_none hn]
  · left
    refine ⟨hy, ?_⟩
    unfold buildLayout
    rw [ToInt32_eq_none hy]

/-! ## What a returned layout tells -/

/-- A layout built at size `c` holds the face of that size, the lines that
`lines` returns there, and one position per line, given by the alignment
rules. -/
theorem layoutAt_layout (s : TextSlot) (text : List Rune) (c : ℚ) (l : Layout)
    (h : layoutAt s text c = Res.ok (some l)) :
    ∃ ws, lines (s.Font c) text (wrap64 (s.Bounds.Dx * 64)) = some (l.Lines, ws) ∧
      l.Face = s.Font c ∧ l.Lines.length = ws.length ∧
      l.LinePositions.length = l.Lines.length ∧
      inInt32 (wrap64 (s.Bounds.Min.Y * 64)) ∧
      inInt32 (wrap64 ((l.Lines.length : Int) * 64)) ∧
      (inInt32 (wrap64 (s.Bounds.Min.X * 64)) ∨ l.Lines = []) ∧
      ∀ t w, ws[t]? = some w →
        l.LinePositions[t]? = some
          ({ X := alignX s (wrap64 (s.Bounds.Dx * 64)) w (wrap64 (s.Bounds.Min.X * 64)),
             Y := baseline (s.Font c)
              (alignY s (wrap64 (s.Bounds.Dy * 64))
                (Int26_6.Mul (s.Font c).Height (wrap64 ((l.Lines.length : Int) * 64)))
                (wrap64 (s.Bounds.Min.Y * 64))) (t + 1) } : Point) := by
  obtain ⟨ls, ws, hl⟩ := lines_isSome (s.Font c) text (wrap64 (s.Bounds.Dx * 64))
  have hlen := lines_length_eq _ _ _ _ _ hl
  unfold layoutAt at h
  rw [hl] at h
  simp only at h
  rcases buildLayout_cases s (s.Font c) (wrap64 (s.Bounds.Dx * 64))
      (wrap64 (s.Bounds.Dy * 64)) ls ws hlen with
    ⟨_, he⟩ | ⟨_, _, he⟩ | ⟨_, _, _, _, he⟩ | ⟨hy, hn, hx, ps, hok, hps, hat⟩
  · rw [he] at h; cases h
  · rw [he] at h; cases h
  · rw [he] at h; cases h
  · rw [hok] at h
    cases h
    exact ⟨ws, hl, rfl, hlen, hps, hy, hn, hx, hat⟩

/-- A layout returned by `TextLayout` was built at a candidate that is the
first to fit. -/
theorem TextLayout_layout (s : TextSlot) (text : List Rune) (l : Layout)
    (h : TextLayout s text = Res.ok (some l)) :
    inInt32 (wrap64 (s.Bounds.Dx * 64)) ∧ inInt32 (wrap64 (s.Bounds.Dy * 64)) ∧
    ∃ k, (∀ j < k, 6 ≤ candidate s j ∧ Exceeds s text (candidate s j)) ∧
      6 ≤ candidate s k ∧ Fits s text (candidate s k) ∧
      layoutAt s text (candidate s k) = Res.ok (some l) := by
  rcases TextLayout_cases s text with ⟨_, he⟩ | ⟨_, he⟩ | ⟨hx, hy, k, hbefore, hend⟩
  · rw [he] at h; cases h
  · rw [he] at h; cases h
  · refine ⟨hx, hy, k, hbefore, ?_⟩
    rcases hend with ⟨_, he⟩ | ⟨_, _, he⟩ | ⟨h6, hfit, he⟩
    · rw [he] at h; cases h
    · rw [he] at h; cases h
    · exact ⟨h6, hfit, by rw [← he]; exact h⟩

theorem not_Exceeds_of_Fits {s : TextSlot} {text : List Rune} {c : ℚ}
    (hf : Fits s text c) (he : Exceeds s text c) : False := by
  obtain ⟨lim, n, h1, h2, h3⟩ := hf
  obtain ⟨lim', n', h1', h2', h3'⟩ := he
  rw [h1] at h1'; rw [h2] at h2'
  cases h1'; cases h2'
  omega

/-- When the width and the height of the rectangle convert, `TextLayout`
returns what the loop body builds at the chosen size. -/
theorem TextLayout_of_Chooses (s : TextSlot) (text : List Rune) (c : ℚ)
    (hx : inInt32 (wrap64 (s.Bounds.Dx * 64))) (hy : inInt32 (wrap64 (s.Bounds.Dy * 64)))
    (hc : Chooses s text c) : TextLayout s text = layoutAt s text c := by
  obtain ⟨k, rfl, h6, hfit, hbefore⟩ := hc
  rcases TextLayout_cases s text with ⟨hx', _⟩ | ⟨hy', _⟩ | ⟨_, _, k', hbefore', hend⟩
  · exact absurd hx hx'
  · exact absurd hy hy'
  · rcases Nat.lt_trichotomy k' k with hlt | heq | hgt
    · have hex := (hbefore k' hlt).2
      have h6' := (hbefore k' hlt).1
      rcases hend with ⟨hlt6, _⟩ | ⟨_, hnone, _⟩ | ⟨_, hfit', _⟩
      · exact absurd h6' (not_le.mpr hlt6)
      · obtain ⟨lim, n, h1, _, _⟩ := hex
        rw [hnone] at h1; cases h1
      · exact (not_Exceeds_of_Fits hfit' hex).elim
    · subst heq
      rcases hend with ⟨hlt6, _⟩ | ⟨_, hnone, _⟩ | ⟨_, _, he⟩
      · exact absurd h6 (not_le.mpr hlt6)
      · obtain ⟨lim, n, h1, _, _⟩ := hfit
        rw [hnone] at h1; cases h1
      · exact he
    · exact (not_Exceeds_of_Fits hfit (hbefore' k hgt).2).elim

/-- The iteration bounds of the model are never reached: `TextLayout` always
ends with a layout, with `nil, nil`, with an error or with a panic. -/
theorem TextLayout_ne_outOfFuel (s : TextSlot) (text : List Rune) :
    TextLayout s text ≠ Res.outOfFuel := by
  rcases TextLayout_cases s text with ⟨_, he⟩ | ⟨_, he⟩ | ⟨_, _, k, _, hend⟩
  · rw [he]; exact fun h => by cases h
  · rw [he]; exact fun h => by cases h
  · rcases hend with ⟨_, he⟩ | ⟨_, _, he⟩ | ⟨_, _, he⟩
    · rw [he]; exact fun h => by cases h
    · rw [he]; exact fun h => by cases h
    · rw [he]
      obtain ⟨ls, ws, hl⟩ := lines_isSome (s.Font (candidate s k)) text
        (wrap64 (s.Bounds.Dx * 64))
      have hlen := lines_length_eq _ _ _ _ _ hl
      unfold layoutAt
      rw [hl]
      show buildLayout s (s.Font (candidate s k)) (wrap64 (s.Bounds.Dx * 64))
          (wrap64 (s.Bounds.Dy * 64)) ls ws ≠ Res.outOfFuel
      rcases buildLayout_cases s (s.Font (candidate s k)) (wrap64 (s.Bounds.Dx * 64))
          (wrap64 (s.Bounds.Dy * 64)) ls ws hlen with
        ⟨_, he⟩ | ⟨_, _, he⟩ | ⟨_, _, _, _, he⟩ | ⟨_, _, _, ps, he, _⟩
      · rw [he]; exact fun h => by cases h
      · rw [he]; exact fun h => by cases h
      · rw [he]; exact fun h => by cases h
      · rw [he]; exact fun h => by cases h

/-- A returned layout identifies the chosen size. -/
theorem Chooses_of_TextLayout (s : TextSlot) (text : List Rune) (l : Layout)
    (h : TextLayout s text = Res.ok (some l)) :
    ∃ c, Chooses s text c ∧ layoutAt s text c = Res.ok (some l) := by
  obtain ⟨_, _, k, hbefore, h6, hfit, hl⟩ := TextLayout_layout s text l h
  exact ⟨candidate s k, ⟨k, rfl, h6, hfit, hbefore⟩, hl⟩

/-! ## Nothing is lost between the lines -/

theorem joinWith_cons_cons (l l' : List Rune) (ls gaps : List (List Rune)) (g : List Rune) :
    joinWith (l :: l' :: ls) (g :: gaps) = l ++ g ++ joinWith (l' :: ls) gaps := rfl

/-- The trimmed text does not end in white space. -/
theorem trimSpace_getLast (t : List Rune) (a : Rune) (h : (trimSpace t).getLast? = some a) :
    isSpace a = false := by
  have hne : trimSpace t ≠ [] := by
    intro h0; rw [h0] at h; simp at h
  have h1 := List.rdropWhile_last_not isSpace (t.dropWhile isSpace) hne
  have h2 := List.getLast?_eq_getLast (trimSpace t) hne
  rw [h] at h2
  simp only [Option.some.injEq] at h2
  unfold trimSpace at h2
  rw [← h2] at h1
  simpa using h1

/-- A non-empty end piece of a list ends as the list does. -/
theorem getLast?_of_end_piece (pre d : List Rune) (hd : d ≠ []) :
    (pre ++ d).getLast? = d.getLast? := by
  rw [List.getLast?_append, List.getLast?_eq_getLast d hd]
  rfl

/-- A list that does not end in white space is not shortened at its end. -/
theorem rdropWhile_of_getLast (d : List Rune)
    (h : ∀ a, d.getLast? = some a → isSpace a = false) :
    d.rdropWhile isSpace = d := by
  rw [List.rdropWhile_eq_self_iff]
  intro hl
  have := h _ (List.getLast?_eq_getLast d hl)
  simp [this]

/-- The rest left by `firstLine` starts with white space and then goes on as
its own trimmed text: it has no white space at its end. -/
theorem trimSpace_rest (t : List Rune) (k : Nat) :
    (trimSpace t).drop k
      = ((trimSpace t).drop k).takeWhile isSpace ++ trimSpace ((trimSpace t).drop k) := by
  have hsplit : trimSpace t
      = ((trimSpace t).take k ++ ((trimSpace t).drop k).takeWhile isSpace)
        ++ ((trimSpace t).drop k).dropWhile isSpace := by
    rw [List.append_assoc, List.takeWhile_append_dropWhile, List.take_append_drop]
  have hself : trimSpace ((trimSpace t).drop k) = ((trimSpace t).drop k).dropWhile isSpace := by
    show (((trimSpace t).drop k).dropWhile isSpace).rdropWhile isSpace = _
    apply rdropWhile_of_getLast
    intro a ha
    have hd : ((trimSpace t).drop k).dropWhile isSpace ≠ [] := by
      intro h0; rw [h0] at ha; simp at ha
    apply trimSpace_getLast t a
    rw [hsplit, getLast?_of_end_piece _ _ hd]
    exact ha
  rw [hself, List.takeWhile_append_dropWhile]

/-- The lines of a complete wrapping, with the white space skipped between
them, are the trimmed text. -/
theorem Wrapped.join {face : Face} {limit : Int} :
    ∀ {ls : List (List Rune)} {text : List Rune} {ws : List Int},
      Wrapped face limit text ls ws → ls ≠ [] →
      ∃ gaps : List (List Rune), gaps.length + 1 = ls.length ∧
        (∀ g ∈ gaps, ∀ r ∈ g, isSpace r = true) ∧ trimSpace text = joinWith ls gaps := by
  intro ls
  induction ls with
  | nil => intro _ _ _ h; exact absurd rfl h
  | cons l ls ih =>
    intro text ws hw _
    cases ws with
    | nil => simp [Wrapped] at hw
    | cons w ws =>
      obtain ⟨_, _, rem, hfl, hrest⟩ := hw
      obtain ⟨k, hk1, hk2⟩ := firstLine_split face text limit
      rw [hfl] at hk1 hk2
      simp only at hk1 hk2
      have hcat : trimSpace text = l ++ rem := by
        rw [hk1, hk2, List.take_append_drop]
      cases ls with
      | nil =>
        cases ws with
        | nil =>
          have hrem : rem = [] := by simpa [Wrapped] using hrest
          refine ⟨[], rfl, by simp, ?_⟩
          rw [hcat, hrem]; simp [joinWith]
        | cons w' ws => simp [Wrapped] at hrest
      | cons l' ls =>
        obtain ⟨gaps, hlen, hsp, hjoin⟩ := ih hrest (by simp)
        refine ⟨rem.takeWhile isSpace :: gaps, by simp [hlen], ?_, ?_⟩
        · intro g hg r hr
          rcases List.mem_cons.mp hg with rfl | hg
          · exact (List.mem_takeWhile_imp hr)
          · exact hsp g hg r hr
        · rw [joinWith_cons_cons, ← hjoin, hcat, List.append_assoc]
          congr 1
          rw [hk2]
          exact trimSpace_rest text k

/-! ## The example font and slots -/

theorem exFont_eq_of_floor (c : ℚ) (n : Int) (h : ⌊c⌋ = n) :
    exFont c = { Height := n * 75
                 GlyphAdvance := fun r => if r = 65535 then none else some (n * 32)
                 Kern := fun p r => if p = 65 ∧ r = 86 then -(n * 4) else 0 } := by
  unfold exFont; rw [h]

/-- The face at the size after 80, about 71.1, is the face at 71. -/
theorem exFont_after_80 : exFont (2501608855515955 / 35184372088832) = exFont 71 := by
  rw [exFont_eq_of_floor _ 71 (by rw [Int.floor_eq_iff]; norm_num),
    exFont_eq_of_floor 71 71 (by rw [Int.floor_eq_iff]; norm_num)]

/-- The face at the second size after 80, about 63.09, is the face at 63. -/
theorem exFont_after_80_80 : exFont (8879128140337643 / 140737488355328) = exFont 63 := by
  rw [exFont_eq_of_floor _ 63 (by rw [Int.floor_eq_iff]; norm_num),
    exFont_eq_of_floor 63 63 (by rw [Int.floor_eq_iff]; norm_num)]

/-- The face at the size after 73, about 64.8, is the face at 64. -/
theorem exFont_after_73 : exFont (4559894622712627 / 70368744177664) = exFont 64 := by
  rw [exFont_eq_of_floor _ 64 (by rw [Int.floor_eq_iff]; norm_num),
    exFont_eq_of_floor 64 64 (by rw [Int.floor_eq_iff]; norm_num)]

/-- When the line count exceeds the budget at every candidate examined, the
search ends without a layout and without an error. -/
theorem TextLayout_eq_none (s : TextSlot) (text : List Rune)
    (hx : inInt32 (wrap64 (s.Bounds.Dx * 64))) (hy : inInt32 (wrap64 (s.Bounds.Dy * 64)))
    (hex : ∀ k, (∀ j ≤ k, 6 ≤ candidate s j) → Exceeds s text (candidate s k)) :
    TextLayout s text = Res.ok none := by
  rcases TextLayout_cases s text with ⟨hx', _⟩ | ⟨hy', _⟩ | ⟨_, _, k, hbefore, hend⟩
  · exact absurd hx hx'
  · exact absurd hy hy'
  · have hall : 6 ≤ candidate s k → Exceeds s text (candidate s k) := fun h6 =>
      hex k (fun j hj => by
        rcases Nat.lt_or_eq_of_le hj with hlt | heq
        · exact (hbefore j hlt).1
        · rw [heq]; exact h6)
    rcases hend with ⟨_, he⟩ | ⟨h6, hnone, _⟩ | ⟨h6, hfit, _⟩
    · exact he
    · obtain ⟨lim, n, h1, _, _⟩ := hall h6
      rw [hnone] at h1; cases h1
    · exact (not_Exceeds_of_Fits hfit (hall h6)).elim

/-- With a maximum size of 6 the only candidate examined is 6. -/
theorem exceeds_all_of_max_6 (s : TextSlot) (text : List Rune) (hm : s.MaxFontSize = 6)
    (h : Exceeds s text 6) :
    ∀ k, (∀ j ≤ k, 6 ≤ candidate s j) → Exceeds s text (candidate s k) := by
  have hs : startSize s = 6 := by unfold startSize; rw [hm]; norm_num
  intro k hk
  cases k with
  | zero => show Exceeds s text (startSize s); rw [hs]; exact h
  | succ k =>
    have h1 := hk 1 (by omega)
    have h2 := nextFontSize_le 6 le_rfl
    have h3 : candidate s 1 = nextFontSize (startSize s) := rfl
    rw [h3, hs] at h1
    linarith

/-! ## The search and the maximum size -/

theorem Exceeds_of_Font_eq {s : TextSlot} {text : List Rune} {c d : ℚ}
    (h : s.Font c = s.Font d) (he : Exceeds s text d) : Exceeds s text c := by
  unfold Exceeds lineCount at *
  rw [h]; exact he

theorem Fits_of_Font_eq {s : TextSlot} {text : List Rune} {c d : ℚ}
    (h : s.Font c = s.Font d) (he : Fits s text d) : Fits s text c := by
  unfold Fits lineCount at *
  rw [h]; exact he

theorem layoutAt_of_Font_eq {s : TextSlot} {text : List Rune} {c d : ℚ}
    (h : s.Font c = s.Font d) : layoutAt s text c = layoutAt s text d := by
  unfold layoutAt
  rw [h]

theorem nextFontSize_abs_sub_le (c : ℚ) (h : 6 ≤ c) :
    |nextFontSize c - (c - (c + 9) / 10)| ≤ c / 4503599627370496 := by
  unfold nextFontSize Float64.sub Float64.div Float64.add
  have ha := Float64.round_abs_sub_le (c + 9)
  set a := Float64.round (c + 9) with hadef
  have hb := Float64.round_abs_sub_le (a / 10)
  set b := Float64.round (a / 10) with hbdef
  have ht := Float64.round_abs_sub_le (c - b)
  set t := Float64.round (c - b) with htdef
  rw [abs_of_nonneg (by linarith : (0:ℚ) ≤ c + 9), abs_le] at ha
  have ha0 : 0 ≤ a := by linarith
  rw [abs_of_nonneg (by positivity : (0:ℚ) ≤ a / 10), abs_le] at hb
  have hsb : 0 ≤ c - b := by linarith
  rw [abs_of_nonneg hsb, abs_le] at ht
  rw [abs_le]
  constructor <;> linarith

theorem nextFontSize_pos (c : ℚ) (h : 6 ≤ c) : 0 < nextFontSize c := by
  have h1 := nextFontSize_abs_sub_le c h
  rw [abs_le] at h1
  linarith [h1.1]

/-- Every candidate reached through candidates of at least 6 is non-zero. -/
theorem candidate_ne_zero (s : TextSlot) (k : Nat) (hk : ∀ j < k, 6 ≤ candidate s j) :
    candidate s k ≠ 0 := by
  cases k with
  | zero =>
    show startSize s ≠ 0
    unfold startSize
    split_ifs with h
    · norm_num
    · exact h
  | succ k =>
    have h1 := nextFontSize_pos (candidate s k) (hk k (Nat.lt_succ_self k))
    have h2 : candidate s (k + 1) = nextFontSize (candidate s k) := by
      unfold candidate
      rw [Function.iterate_succ_apply']
    rw [h2]
    exact h1.ne'

theorem candidate_add (s : TextSlot) (k j : Nat) :
    candidate s (k + j) = nextFontSize^[j] (candidate s k) := by
  unfold candidate
  rw [Nat.add_comm, Function.iterate_add_apply]

theorem candidate_withMax (s : TextSlot) (m : ℚ) (hm : m ≠ 0) (j : Nat) :
    candidate (s.withMax m) j = nextFontSize^[j] m := by
  unfold candidate startSize TextSlot.withMax
  simp only [if_neg hm]

theorem candidate_antitone (s : TextSlot) (a d : Nat)
    (h : ∀ j, a ≤ j → j < a + d → 6 ≤ candidate s j) :
    candidate s (a + d) ≤ candidate s a := by
  induction d with
  | zero => exact le_rfl
  | succ d ih =>
    have h1 := candidate_succ_lt s (a + d) (h (a + d) (by omega) (by omega))
    have h2 := ih (fun j hj1 hj2 => h j hj1 (by omega))
    rw [← Nat.add_assoc]
    linarith

/-- With a maximum size of 80 and a rectangle 75 pixels high, `a` is laid
out at the third candidate, about 63.09. -/
theorem exSlot_75_chooses_80 :
    Chooses (exSlotMax (exRect 100 75) 80) [97] (8879128140337643 / 140737488355328) := by
  refine ⟨2, ?_, by norm_num, ?_, ?_⟩
  · show _ = nextFontSize (nextFontSize 80)
    rw [nextFontSize_80, nextFontSize_80_80]
  · exact Fits_of_Font_eq (d := 63) exFont_after_80_80 ⟨1, 1, rfl, rfl, le_rfl⟩
  · intro j hj
    have hj' : j = 0 ∨ j = 1 := by omega
    rcases hj' with rfl | rfl
    · exact ⟨by decide, 0, 1, rfl, rfl, by decide⟩
    · have h1 : candidate (exSlotMax (exRect 100 75) 80) 1
          = 2501608855515955 / 35184372088832 := nextFontSize_80
      rw [h1]
      exact ⟨by norm_num,
        Exceeds_of_Font_eq (d := 71) exFont_after_80 ⟨0, 1, rfl, rfl, by decide⟩⟩

theorem exSlot_75_layout_80 :
    TextLayout (exSlotMax (exRect 100 75) 80) [97]
      = Res.ok (some (exLayoutAt 63 { X := 2192, Y := 4762 })) := by
  rw [TextLayout_of_Chooses _ _ _ (by decide) (by decide) exSlot_75_chooses_80,
    layoutAt_of_Font_eq (d := 63) exFont_after_80_80]
  rfl

/-- With a maximum size of 73 and the same rectangle, `a` is laid out at the
second candidate, about 64.8, with the larger face. -/
theorem exSlot_75_chooses_73 :
    Chooses (exSlotMax (exRect 100 75) 73) [97] (4559894622712627 / 70368744177664) := by
  refine ⟨1, nextFontSize_73.symm, by norm_num, ?_, ?_⟩
  · exact Fits_of_Font_eq (d := 64) exFont_after_73 ⟨1, 1, rfl, rfl, le_rfl⟩
  · intro j hj
    have hj' : j = 0 := by omega
    subst hj'
    exact ⟨by decide, 0, 1, rfl, rfl, by decide⟩

theorem exSlot_75_layout_73 :
    TextLayout (exSlotMax (exRect 100 75) 73) [97]
      = Res.ok (some (exLayoutAt 64 { X := 2176, Y := 4800 })) := by
  rw [TextLayout_of_Chooses _ _ _ (by decide) (by decide) exSlot_75_chooses_73,
    layoutAt_of_Font_eq (d := 64) exFont_after_73]
  rfl

/-- With the second candidate of the search from 80 as the maximum size, `a`
is again laid out at about 63.09. -/
theorem exSlot_75_layout_after_80 :
    TextLayout ((exSlotMax (exRect 100 75) 80).withMax
        (candidate (exSlotMax (exRect 100 75) 80) 1)) [97]
      = Res.ok (some (exLayoutAt 63 { X := 2192, Y := 4762 })) := by
  have hm : candidate (exSlotMax (exRect 100 75) 80) 1
      = 2501608855515955 / 35184372088832 := nextFontSize_80
  rw [hm]
  have hc : Chooses ((exSlotMax (exRect 100 75) 80).withMax
      (2501608855515955 / 35184372088832)) [97] (8879128140337643 / 140737488355328) := by
    refine ⟨1, ?_, by norm_num, ?_, ?_⟩
    · rw [candidate_withMax _ _ (by norm_num), Function.iterate_one, nextFontSize_80_80]
    · exact Fits_of_Font_eq (d := 63) exFont_after_80_80 ⟨1, 1, rfl, rfl, le_rfl⟩
    · intro j hj
      have hj' : j = 0 := by omega
      subst hj'
      rw [candidate_withMax _ _ (by norm_num), Function.iterate_zero, id_eq]
      exact ⟨by norm_num,
        Exceeds_of_Font_eq (d := 71) exFont_after_80 ⟨0, 1, rfl, rfl, by decide⟩⟩
  rw [TextLayout_of_Chooses _ _ _ (by decide) (by decide) hc,
    layoutAt_of_Font_eq (d := 63) exFont_after_80_80]
  rfl

/-- In a rectangle 83 pixels high the text `a` exceeds its budget at size
80 and is laid out at the next candidate, about 71.1. -/
theorem exSlot_83_chooses :
    Chooses (exSlotIn (exRect 100 83)) [97] (2501608855515955 / 35184372088832) := by
  refine ⟨1, nextFontSize_80.symm, by norm_num, ?_, ?_⟩
  · exact Fits_of_Font_eq (d := 71) exFont_after_80 ⟨1, 1, rfl, rfl, le_rfl⟩
  · intro j hj
    have hj' : j = 0 := by omega
    subst hj'
    exact ⟨by decide, 0, 1, rfl, rfl, by decide⟩

theorem exSlot_83_layout :
    TextLayout (exSlotIn (exRect 100 83)) [97]
      = Res.ok (some (exLayoutAt 71 { X := 2064, Y := 5319 })) := by
  rw [TextLayout_of_Chooses _ _ _ (by decide) (by decide) exSlot_83_chooses,
    layoutAt_of_Font_eq (d := 71) exFont_after_80]
  rfl

/-! ## Alignment without overflow -/

theorem wrap64_of_inInt32 {x : Int} (h : inInt32 x) : wrap64 x = x := by
  unfold inInt32 at h; unfold wrap64; omega

theorem baseline_succ (face : Face) (y : Int) (n : Nat) :
    baseline face y (n + 1) = wrap32 (baseline face y n + face.Height) := by
  unfold baseline
  rw [Function.iterate_succ_apply']

/-- Without overflow the baseline after `n` lines is `n` line heights down. -/
theorem baseline_exact (face : Face) (y : Int) (n : Nat)
    (h : ∀ i : Nat, i ≤ n → inInt32 (y + i * face.Height)) :
    baseline face y n = y + n * face.Height := by
  induction n with
  | zero => simp [baseline]
  | succ n ih =>
    rw [baseline_succ, ih (fun i hi => h i (by omega))]
    have := h (n + 1) le_rfl
    push_cast at this ⊢
    rw [show y + ↑n * face.Height + face.Height = y + (↑n + 1) * face.Height by ring]
    exact wrap32_of_inInt32 this

/-- Without overflow `Height.Mul(n*64)` is `Height * n`. -/
theorem Int26_6.Mul_lines (H n : Int) (h : inInt32 (H * n)) :
    Int26_6.Mul H (n * 64) = H * n := by
  unfold Int26_6.Mul
  have h1 : H * (n * 64) + 32 = (H * n) * 64 + 32 := by ring
  rw [h1]
  generalize H * n = t at h ⊢
  unfold inInt32 at h
  unfold wrap32 wrap64
  omega

theorem alignX_exact (s : TextSlot) (w : Int)
    (hfree : inInt32 (s.Bounds.Dx * 64 - w))
    (hsum : inInt32 (s.Bounds.Min.X * 64 + horizontalOffset s w)) :
    alignX s (s.Bounds.Dx * 64) w (s.Bounds.Min.X * 64)
      = s.Bounds.Min.X * 64 + horizontalOffset s w := by
  unfold alignX
  unfold horizontalOffset at hsum ⊢
  split_ifs with h1 h2
  · rw [if_pos h1] at hsum
    rw [wrap32_of_inInt32 hfree, wrap32_of_inInt32 hsum]
  · rw [if_neg h1, if_pos h2] at hsum
    rw [wrap32_of_inInt32 hfree, wrap32_of_inInt32 hsum]
  · simp

theorem alignY_exact (s : TextSlot) (total : Int)
    (hfree : inInt32 (s.Bounds.Dy * 64 - total))
    (hsum : inInt32 (s.Bounds.Min.Y * 64 + verticalOffset s total)) :
    alignY s (s.Bounds.Dy * 64) total (s.Bounds.Min.Y * 64)
      = s.Bounds.Min.Y * 64 + verticalOffset s total := by
  unfold alignY
  unfold verticalOffset at hsum ⊢
  split_ifs with h1 h2
  · rw [if_pos h1] at hsum
    rw [wrap32_of_inInt32 hfree, wrap32_of_inInt32 hsum]
  · rw [if_neg h1, if_pos h2] at hsum
    rw [wrap32_of_inInt32 hfree, wrap32_of_inInt32 hsum]
  · simp

/-- The positions of a returned layout, line by line, in terms of the widths
that `lines` returns for the face of the layout. -/
theorem TextLayout_positions (s : TextSlot) (text : List Rune) (l : Layout)
    (ws : List Int) (hl : TextLayout s text = Res.ok (some l))
    (hws : lines l.Face text (wrap64 (s.Bounds.Dx * 64)) = some (l.Lines, ws)) :
    l.Lines.length = ws.length ∧ l.LinePositions.length = l.Lines.length ∧
    ∀ t w, ws[t]? = some w →
      l.LinePositions[t]? = some
        ({ X := alignX s (wrap64 (s.Bounds.Dx * 64)) w (wrap64 (s.Bounds.Min.X * 64)),
           Y := baseline l.Face
            (alignY s (wrap64 (s.Bounds.Dy * 64))
              (Int26_6.Mul l.Face.Height (wrap64 ((l.Lines.length : Int) * 64)))
              (wrap64 (s.Bounds.Min.Y * 64))) (t + 1) } : Point) := by
  obtain ⟨c, _, hat⟩ := Chooses_of_TextLayout s text l hl
  obtain ⟨ws0, hlines, hface, hlen, hps, _, _, _, hat'⟩ := layoutAt_layout s text c l hat
  rw [← hface] at hlines hat'
  rw [hlines] at hws
  simp only [Option.some.injEq, Prod.mk.injEq, true_and] at hws
  subst hws
  exact ⟨hlen, hps, hat'⟩

/-! ## The empty text -/

theorem wrap64_tdiv_nonneg (a d : Int) (ha : 0 ≤ wrap64 a) (hd : 1 ≤ d) :
    0 ≤ wrap64 (Int.tdiv (wrap64 a) d) := by
  have hup : wrap64 a ≤ 9223372036854775807 := by unfold wrap64; omega
  have hdpos : 0 < d := by omega
  have h0 : 0 ≤ Int.tdiv (wrap64 a) d := by
    rw [Int.tdiv_eq_ediv ha (by omega)]; exact Int.ediv_nonneg ha (by omega)
  have h1 : Int.tdiv (wrap64 a) d ≤ wrap64 a := by
    rw [Int.tdiv_eq_ediv ha (by omega)]
    exact Int.ediv_le_self d ha
  unfold wrap64 at h0 h1 hup ⊢
  omega

theorem layoutAt_nil (s : TextSlot) (c : ℚ) (hy : inInt32 (wrap64 (s.Bounds.Min.Y * 64))) :
    layoutAt s [] c = Res.ok (some { Face := s.Font c, Lines := [], LinePositions := [] }) := by
  have hl : lines (s.Font c) [] (wrap64 (s.Bounds.Dx * 64)) = some ([], []) := rfl
  unfold layoutAt
  rw [hl]
  show buildLayout s (s.Font c) _ _ [] [] = _
  unfold buildLayout
  rw [ToInt32_of_inInt32 hy]
  rfl

theorem Fits_nil (s : TextSlot) (c : ℚ) (hh : 0 ≤ s.Bounds.Dy) (hH : 64 ≤ (s.Font c).Height) :
    Fits s [] c := by
  have hd : 1 ≤ Int.tdiv (s.Font c).Height 64 := by
    rw [Int.tdiv_eq_ediv (by omega) (by norm_num)]; omega
  refine ⟨wrap64 (Int.tdiv s.Bounds.Dy (Int.tdiv (s.Font c).Height 64)), 0, ?_, rfl, ?_⟩
  · unfold lineLimit; rw [if_neg (by omega)]
  · have := wrap64_tdiv_nonneg (s.Bounds.Max.Y - s.Bounds.Min.Y) _ hh hd
    simpa [Rectangle.Dy] using this

/-! ## Termination -/

/-- The result of the loop of `lines` does not depend on the fuel, once the
fuel is at least the length of the text. -/
theorem linesLoop_fuel (face : Face) (limit : Int) :
    ∀ (fuel fuel' : Nat) (text : List Rune) (acc : List (List Rune)) (wacc : List Int),
      text.length ≤ fuel → text.length ≤ fuel' →
      linesLoop face limit fuel text acc wacc = linesLoop face limit fuel' text acc wacc := by
  intro fuel
  induction fuel with
  | zero =>
    intro fuel' text acc wacc h _
    have : text = [] := List.length_eq_zero.mp (by omega)
    subst this
    cases fuel' <;> rfl
  | succ n ih =>
    intro fuel' text acc wacc h h'
    cases text with
    | nil => cases fuel' <;> rfl
    | cons r rest =>
      cases fuel' with
      | zero => simp at h'
      | succ m =>
        have hlt := firstLine_remaining_lt face (r :: rest) limit
        rcases hfl : firstLine face (r :: rest) limit with ⟨line, width, rem⟩
        rw [hfl] at hlt
        simp only [linesLoop, hfl]
        by_cases hl : line = []
        · rw [if_pos hl, if_pos hl]
        · rw [if_neg hl, if_neg hl]
          have hrem := hlt hl
          simp only [List.length_cons] at hrem h h'
          exact ih m _ _ _ (by omega) (by omega)

/-- From every start size the search reaches a size below 6 after at most
`⌊c0⌋` steps. -/
theorem nextFontSize_reaches (fuel : Nat) :
    ∀ c0 : ℚ, Int.toNat ⌊c0⌋ ≤ fuel →
      ∃ k, k ≤ fuel ∧ nextFontSize^[k] c0 < 6 ∧ ∀ j < k, 6 ≤ nextFontSize^[j] c0 := by
  induction fuel with
  | zero =>
    intro c0 h
    refine ⟨0, le_rfl, ?_, fun j hj => absurd hj (Nat.not_lt_zero j)⟩
    by_contra hc
    have h6 : (6 : ℚ) ≤ c0 := not_lt.mp hc
    have : (6 : Int) ≤ ⌊c0⌋ := Int.le_floor.mpr (by exact_mod_cast h6)
    omega
  | succ n ih =>
    intro c0 h
    by_cases h6 : c0 < 6
    · exact ⟨0, Nat.zero_le _, h6, fun j hj => absurd hj (Nat.not_lt_zero j)⟩
    · have h6' : (6 : ℚ) ≤ c0 := not_lt.mp h6
      have hlt := toNat_floor_nextFontSize_lt c0 h6'
      obtain ⟨k, hk, hend, hbefore⟩ := ih (nextFontSize c0) (by omega)
      refine ⟨k + 1, by omega, hend, ?_⟩
      intro j hj
      cases j with
      | zero => exact h6'
      | succ i => exact hbefore i (by omega)

/-! ## Totality -/

theorem layoutAt_ne_panic (s : TextSlot) (text : List Rune) (c : ℚ) :
    layoutAt s text c ≠ Res.panic := by
  obtain ⟨ls, ws, hl⟩ := lines_isSome (s.Font c) text (wrap64 (s.Bounds.Dx * 64))
  have hlen := lines_length_eq _ _ _ _ _ hl
  unfold layoutAt
  rw [hl]
  show buildLayout s (s.Font c) (wrap64 (s.Bounds.Dx * 64))
      (wrap64 (s.Bounds.Dy * 64)) ls ws ≠ Res.panic
  rcases buildLayout_cases s (s.Font c) (wrap64 (s.Bounds.Dx * 64))
      (wrap64 (s.Bounds.Dy * 64)) ls ws hlen with
    ⟨_, he⟩ | ⟨_, _, he⟩ | ⟨_, _, _, _, he⟩ | ⟨_, _, _, ps, he, _⟩
  · rw [he]; exact fun h => by cases h
  · rw [he]; exact fun h => by cases h
  · rw [he]; exact fun h => by cases h
  · rw [he]; exact fun h => by cases h

theorem lineLimit_isSome (s : TextSlot) (face : Face) (h : 64 ≤ face.Height) :
    ∃ lim, lineLimit s face = some lim := by
  have hd : 1 ≤ Int.tdiv face.Height 64 := by
    rw [Int.tdiv_eq_ediv (by omega) (by norm_num)]; omega
  exact ⟨_, by unfold lineLimit; rw [if_neg (by omega)]⟩

theorem lineLimit_eq_none (s : TextSlot) (face : Face) (h1 : -64 < face.Height)
    (h2 : face.Height < 64) : lineLimit s face = none := by
  have hd : Int.tdiv face.Height 64 = 0 := by
    rcases le_or_lt 0 face.Height with h0 | h0
    · rw [Int.tdiv_eq_ediv h0 (by norm_num)]; omega
    · have hneg : Int.tdiv (-(-face.Height)) 64 = -(Int.tdiv (-face.Height) 64) :=
        Int.neg_tdiv _ _
      rw [neg_neg] at hneg
      rw [hneg, Int.tdiv_eq_ediv (by omega) (by norm_num)]; omega
  unfold lineLimit; rw [if_pos hd]

/-- When the line height at the start size is below 64 units in absolute
value, the first iteration of the search divides by zero. -/
theorem TextLayout_panic (s : TextSlot) (text : List Rune)
    (hx : inInt32 (wrap64 (s.Bounds.Dx * 64))) (hy : inInt32 (wrap64 (s.Bounds.Dy * 64)))
    (h6 : 6 ≤ startSize s) (h1 : -64 < (s.Font (startSize s)).Height)
    (h2 : (s.Font (startSize s)).Height < 64) : TextLayout s text = Res.panic := by
  have hnone := lineLimit_eq_none s _ h1 h2
  rcases TextLayout_cases s text with ⟨hx', _⟩ | ⟨hy', _⟩ | ⟨_, _, k, hbefore, hend⟩
  · exact absurd hx hx'
  · exact absurd hy hy'
  · cases k with
    | succ j =>
      obtain ⟨_, lim, n, hlim, _⟩ := hbefore 0 (Nat.succ_pos j)
      have h0 : lineLimit s (s.Font (startSize s)) = some lim := hlim
      rw [hnone] at h0; cases h0
    | zero =>
      rcases hend with ⟨hlt, _⟩ | ⟨_, _, he⟩ | ⟨_, ⟨lim, n, hlim, _⟩, _⟩
      · exact absurd h6 (not_le.mpr hlt)
      · exact he
      · have h0 : lineLimit s (s.Font (startSize s)) = some lim := hlim
        rw [hnone] at h0; cases h0

theorem exFont_Height_ge (c : ℚ) (h : 6 ≤ c) : 64 ≤ (exFont c).Height := by
  have h6 : (6 : Int) ≤ ⌊c⌋ := Int.le_floor.mpr (by exact_mod_cast h)
  show 64 ≤ ⌊c⌋ * 75
  omega

/-! ## Asset names -/

theorem extLoop_eq : ∀ (l acc : List Rune),
    extLoop l acc
      = if 46 ∈ l.takeWhile (fun r => r ≠ 47) then
          46 :: ((l.takeWhile (fun r => r ≠ 47)).takeWhile (fun r => r ≠ 46)).reverse ++ acc
        else [] := by
  intro l
  induction l with
  | nil => intro acc; simp [extLoop]
  | cons r before ih =>
    intro acc
    unfold extLoop
    by_cases h47 : r = 47
    · subst h47; simp [isPathSeparator]
    · by_cases h46 : r = 46
      · subst h46; simp [isPathSeparator]
      · have hsep : isPathSeparator r = false := by simp [isPathSeparator, h47]
        rw [hsep, if_neg (by simp), if_neg h46, ih]
        have h46' : ¬ 46 = r := fun h => h46 h.symm
        simp [List.takeWhile_cons, h47, h46, h46']

theorem filepath.Ext_eq_extension (name : List Rune) : filepath.Ext name = extension name := by
  unfold filepath.Ext extension lastElement
  rw [extLoop_eq]
  simp

theorem foldCase_of_target {c : Nat} (hc : c ∈ [46, 101, 103, 106, 110, 112]) :
    foldCase c = c := by
  simp only [List.mem_cons, List.mem_singleton, List.mem_nil_iff, or_false] at hc
  rcases hc with h | h | h | h | h | h <;> subst h <;> rfl

theorem ToLower_eq_iff (lower : Nat → Nat)
    (hlower : ∀ r : Nat, 128 ≤ r → lower r ∉ [46, 101, 103, 106, 110, 112]) :
    ∀ (x t : List Nat), (∀ c ∈ t, c ∈ [46, 101, 103, 106, 110, 112]) →
      (strings.ToLower lower x = t ↔ EqualFold x t) := by
  intro x
  induction x with
  | nil =>
    intro t _
    cases t <;> simp [strings.ToLower, EqualFold]
  | cons r xs ih =>
    intro t ht
    cases t with
    | nil => simp [strings.ToLower, EqualFold]
    | cons c cs =>
      have hc : c ∈ [46, 101, 103, 106, 110, 112] := ht c (List.mem_cons_self _ _)
      have hcs : ∀ d ∈ cs, d ∈ [46, 101, 103, 106, 110, 112] :=
        fun d hd => ht d (List.mem_cons_of_mem _ hd)
      have ih' := ih cs hcs
      unfold strings.ToLower EqualFold at ih' ⊢
      simp only [List.map_cons, List.cons.injEq]
      rw [ih', foldCase_of_target hc]
      have hr : unicode.ToLower lower r = c ↔ foldCase r = c := by
        unfold unicode.ToLower foldCase
        by_cases h127 : r ≤ 127
        · rw [if_pos h127]
        · rw [if_neg h127]
          have hl := hlower r (by omega)
          have hn : ¬ (65 ≤ r ∧ r ≤ 90) := by omega
          rw [if_neg hn]
          constructor
          · intro h; rw [h] at hl; exact absurd hc hl
          · intro h
            have hc' : r ∈ [46, 101, 103, 106, 110, 112] := by rw [h]; exact hc
            simp only [List.mem_cons, List.mem_singleton, List.mem_nil_iff, or_false] at hc'
            omega
      rw [hr]

theorem exLower_spec : ∀ r : Nat, 128 ≤ r → exLower r ∉ [46, 101, 103, 106, 110, 112] := by
  intro r h
  unfold exLower
  simp only [List.mem_cons, List.mem_singleton, List.mem_nil_iff, or_false]
  unfold Rune
  split_ifs <;> omega

/-! ## Where `firstLine` breaks -/

theorem lineWidthFrom_nonneg (face : Face) (hnn : NonNegAdvances face) :
    ∀ (l : List Rune) (prev : Option Rune), 0 ≤ lineWidthFrom face prev l := by
  intro l
  induction l with
  | nil => intro prev; simp [lineWidthFrom]
  | cons r rest ih =>
    intro prev
    unfold lineWidthFrom
    cases hg : face.GlyphAdvance r with
    | none => exact ih prev
    | some adv =>
      have h := hnn r adv hg
      cases prev with
      | none =>
        have := ih (some r)
        simp only
        linarith [h.1]
      | some p =>
        have := ih (some r)
        simp only
        linarith [h.2 p]

theorem lineWidth_le_append (face : Face) (hnn : NonNegAdvances face) (a b : List Rune) :
    lineWidth face a ≤ lineWidth face (a ++ b) := by
  unfold lineWidth
  rw [lineWidthFrom_append]
  have := lineWidthFrom_nonneg face hnn b (lastGlyph face none a)
  linarith

theorem eq_nil_or_snoc (l : List Rune) : l = [] ∨ ∃ init x, l = init ++ [x] := by
  rcases List.eq_nil_or_concat l with h | ⟨init, x, h⟩
  · exact Or.inl h
  · exact Or.inr ⟨init, x, by rw [h, List.concat_eq_append]⟩

theorem lastGlyph_eq_getLast (face : Face) (hg : AllGlyphs face) (done : List Rune) :
    lastGlyph face none done = done.getLast? := by
  rcases eq_nil_or_snoc done with h | ⟨init, x, h⟩
  · subst h; rfl
  · subst h
    obtain ⟨a, ha⟩ := hg x
    rw [lastGlyph_snoc_some face init x a ha]
    simp

theorem SpacesThenWord.singleton (r : Rune) : SpacesThenWord [r] := by
  cases h : isSpace r with
  | true => exact ⟨[r], [], by simp, by simpa using h, by simp⟩
  | false => exact ⟨[], [r], by simp, by simp, by simpa using h⟩

theorem SpacesThenWord.snoc_word {l : List Rune} (hl : SpacesThenWord l) (r : Rune)
    (hr : isSpace r = false) : SpacesThenWord (l ++ [r]) := by
  obtain ⟨ws, w, rfl, hws, hw⟩ := hl
  refine ⟨ws, w ++ [r], by simp, hws, ?_⟩
  intro x hx
  rcases List.mem_append.mp hx with h | h
  · exact hw x h
  · simp only [List.mem_singleton] at h; rw [h]; exact hr

theorem SpacesThenWord.snoc_space {l : List Rune} (hl : SpacesThenWord l) (r : Rune)
    (hr : isSpace r = true) (hlast : ∀ x, l.getLast? = some x → isSpace x = true) :
    SpacesThenWord (l ++ [r]) := by
  obtain ⟨ws, w, rfl, hws, hw⟩ := hl
  rcases eq_nil_or_snoc w with h | ⟨init, x, h⟩
  · subst h
    refine ⟨ws ++ [r], [], by simp, ?_, by simp⟩
    intro y hy
    rcases List.mem_append.mp hy with h | h
    · exact hws y h
    · simp only [List.mem_singleton] at h; rw [h]; exact hr
  · subst h
    have h1 := hlast x (by simp)
    have h2 := hw x (by simp)
    rw [h1] at h2; cases h2

/-- The segment after a line contains whatever follows the line as a run of
white space and then a run of other runes. -/
theorem nextSegment_prefix (t a b c : List Rune) (ht : t = a ++ b ++ c)
    (hb : SpacesThenWord b) : ∃ d, nextSegment t a = a ++ b ++ d := by
  obtain ⟨ws, w, rfl, hws, hw⟩ := hb
  have hdrop : t.drop a.length = ws ++ w ++ c := by
    rw [ht, List.append_assoc a, List.drop_left]
  unfold nextSegment
  rw [hdrop]
  cases w with
  | nil =>
    refine ⟨c.takeWhile isSpace
      ++ ((ws ++ c).dropWhile isSpace).takeWhile (fun r => !isSpace r), ?_⟩
    simp only [List.append_nil]
    rw [List.takeWhile_append_of_pos (fun x hx => hws x hx)]
    simp only [List.append_assoc]
  | cons x w =>
    have hx : isSpace x = false := hw x (List.mem_cons_self _ _)
    have h1 : (ws ++ x :: w ++ c).takeWhile isSpace = ws := by
      rw [List.append_assoc, List.takeWhile_append_of_pos (fun y hy => hws y hy)]
      simp [List.takeWhile_cons, hx]
    have h2 : (ws ++ x :: w ++ c).dropWhile isSpace = x :: w ++ c := by
      rw [List.append_assoc, List.dropWhile_append_of_pos (fun y hy => hws y hy)]
      simp [List.dropWhile_cons, hx]
    refine ⟨c.takeWhile (fun r => !isSpace r), ?_⟩
    rw [h1, h2, List.takeWhile_append_of_pos (fun y hy => by simp [hw y hy])]
    simp only [List.append_assoc]

/-- The segment after a line is a start piece of the text. -/
theorem nextSegment_append (line rem : List Rune) :
    ∃ d, line ++ rem = nextSegment (line ++ rem) line ++ d := by
  refine ⟨(rem.dropWhile isSpace).dropWhile (fun r => !isSpace r), ?_⟩
  unfold nextSegment
  rw [List.drop_left]
  simp only [List.append_assoc, List.takeWhile_append_dropWhile]

theorem trimSpace_head (t : List Rune) (r : Rune) (h : (trimSpace t).head? = some r) :
    isSpace r = false := by
  unfold trimSpace at h
  have hne : (t.dropWhile isSpace).rdropWhile isSpace ≠ [] := by
    intro h0; rw [h0] at h; cases h
  have hpre : (t.dropWhile isSpace).rdropWhile isSpace <+: t.dropWhile isSpace :=
    List.rdropWhile_prefix _ _
  obtain ⟨d, hd⟩ := hpre
  cases hq : (t.dropWhile isSpace).rdropWhile isSpace with
  | nil => exact absurd hq hne
  | cons x xs =>
    rw [hq] at h hd
    simp only [List.head?_cons, Option.some.injEq] at h
    subst h
    have hh : (t.dropWhile isSpace).head? = some x := by rw [← hd]; rfl
    have := List.head?_dropWhile_not isSpace t
    rw [hh] at this
    simpa using this
theorem firstLineLoop_shape (face : Face) (t : List Rune) (limit : Int) (hg : AllGlyphs face)
    (hhead : ∀ r, t.head? = some r → isSpace r = false)
    (W : Prop) (hW : W → NonNegAdvances face ∧ limit ≤ 2147483647) :
    ∀ (rest done : List Rune) (pos lb : Nat) (width lbw : Int) (prev : Option Rune),
      t = done ++ rest → pos = done.length → prev = done.getLast? →
      ((lb = 0 ∧ ∀ x ∈ done, isSpace x = false) ∨
        (1 ≤ lb ∧ lb ≤ pos ∧ Boundary t lb ∧ SpacesThenWord (done.drop lb))) →
      (W → width = lineWidth face done ∨ limit < lineWidth face done) →
      BreakShape face t limit W (firstLineLoop face t limit rest pos lb width lbw prev) := by
  intro rest
  induction rest with
  | nil =>
    intro done pos lb width lbw prev _ _ _ _ _
    exact ⟨t.length, by simp [firstLineLoop], by simp [firstLineLoop], Or.inl rfl⟩
  | cons r rest ih =>
    obtain ⟨adv, hadv⟩ := hg r
    intro done pos lb width lbw prev
    obtain ⟨m, hm⟩ : ∃ m : Int, m = wrap32 (width + (match prev with
        | none => adv
        | some p => wrap32 (adv + face.Kern p r))) := ⟨_, rfl⟩
    have hm0 : prev = none → m = wrap32 (width + adv) := by
      intro h; rw [hm, h]
    have hm1 : ∀ p, prev = some p → m = wrap32 (width + wrap32 (adv + face.Kern p r)) := by
      intro p h; rw [hm, h]
    intro ht hpos hprev hinv hwidth
    have ht' : t = (done ++ [r]) ++ rest := by simp [ht]
    have hlen : pos < t.length := by rw [ht, hpos]; simp
    have htake0 : t.take pos = done := by rw [ht, hpos]; simp
    have htake : t.take (pos + 1) = done ++ [r] := by
      rw [ht', hpos]
      have : (done ++ [r]).length = done.length + 1 := by simp
      rw [← this, List.take_left']
      rfl
    have hdrop0 : t.drop pos = r :: rest := by rw [ht, hpos]; simp
    -- the rune is not white space when nothing but the first word was read
    have hword : (∀ x ∈ done, isSpace x = false) →
        (isSpace r && !prevIsSpace prev) = false → isSpace r = false := by
      intro hdone hb
      rcases eq_nil_or_snoc done with h | ⟨init, x, h⟩
      · subst h
        exact hhead r (by rw [ht]; rfl)
      · subst h
        have hx : isSpace x = false := hdone x (by simp)
        have hp : prev = some x := by rw [hprev]; simp
        rw [hp] at hb
        simpa [prevIsSpace, hx] using hb
    obtain ⟨lb1, lbw1, hstep, hF⟩ : ∃ (lb1 : Nat) (lbw1 : Int),
        firstLineLoop face t limit (r :: rest) pos lb width lbw prev
          = (if m > limit then
              (if lb1 = 0 then (t.take pos, width, t.drop pos)
               else (t.take lb1, lbw1, t.drop lb1))
             else firstLineLoop face t limit rest (pos + 1) lb1 m lbw1 (some r)) ∧
        ((lb1 = 0 ∧ ∀ x ∈ done ++ [r], isSpace x = false) ∨
          (1 ≤ lb1 ∧ lb1 ≤ pos ∧ Boundary t lb1 ∧
            SpacesThenWord ((done ++ [r]).drop lb1))) := by
      cases hb : (isSpace r && !prevIsSpace prev) with
      | true =>
        refine ⟨pos, width, ?_, Or.inr ?_⟩
        · simp only [firstLineLoop, hadv, hb, if_true]
          rw [hm]
        · simp only [Bool.and_eq_true, Bool.not_eq_true'] at hb
          have hne : done ≠ [] := by
            intro h0; subst h0
            have := hhead r (by rw [ht]; rfl)
            rw [this] at hb; exact Bool.noConfusion hb.1
          obtain ⟨init, x, hx⟩ : ∃ init x, done = init ++ [x] := by
            rcases eq_nil_or_snoc done with h | h
            · exact absurd h hne
            · exact h
          have hp : prev = some x := by rw [hprev, hx]; simp
          have hxs : isSpace x = false := by
            have := hb.2; rw [hp] at this; simpa [prevIsSpace] using this
          refine ⟨?_, le_rfl, ⟨⟨x, ?_, hxs⟩, ⟨r, ?_, hb.1⟩⟩, ?_⟩
          · rw [hpos, hx]; simp
          · rw [htake0, hx]; simp
          · rw [hdrop0]; rfl
          · rw [hpos, List.drop_left]; exact SpacesThenWord.singleton r
      | false =>
        refine ⟨lb, lbw, ?_, ?_⟩
        · simp only [firstLineLoop, hadv, hb, Bool.false_eq_true, if_false]
          rw [hm]
        · rcases hinv with ⟨h0, hdone⟩ | ⟨h1, h2, hB, hS⟩
          · left
            refine ⟨h0, ?_⟩
            intro x hx
            rcases List.mem_append.mp hx with h | h
            · exact hdone x h
            · simp only [List.mem_singleton] at h; rw [h]; exact hword hdone hb
          · right
            refine ⟨h1, h2, hB, ?_⟩
            have hd : (done ++ [r]).drop lb = done.drop lb ++ [r] := by
              rw [List.drop_append_of_le_length (by omega)]
            rw [hd]
            cases hr : isSpace r with
            | false => exact hS.snoc_word r hr
            | true =>
              apply hS.snoc_space r hr
              intro x hx
              have hne : done.drop lb ≠ [] := by intro h0; rw [h0] at hx; cases hx
              have hlast : done.getLast? = some x := by
                have := getLast?_of_end_piece (done.take lb) (done.drop lb) hne
                rw [List.take_append_drop] at this
                rw [this]; exact hx
              have hp : prev = some x := by rw [hprev, hlast]
              rw [hr, hp] at hb
              simpa [prevIsSpace] using hb
    have hQ : W → m = lineWidth face (done ++ [r]) ∨ limit < lineWidth face (done ++ [r]) := by
      intro hw
      obtain ⟨hnn, hlim⟩ := hW hw
      have hE := lineWidth_snoc_some face done r adv hadv
      rw [lastGlyph_eq_getLast face hg done, ← hprev] at hE
      have hE0 : 0 ≤ lineWidth face (done ++ [r]) := lineWidthFrom_nonneg face hnn _ none
      have hmono := lineWidth_le_append face hnn done [r]
      rcases hwidth hw with hex | hwide
      · by_cases hin : inInt32 (lineWidth face (done ++ [r]))
        · left
          rw [hE] at hin ⊢
          cases prev with
          | none =>
            simp only at hin ⊢
            rw [hm0 rfl, hex]; exact wrap32_of_inInt32 hin
          | some p =>
            simp only at hin ⊢
            rw [hm1 p rfl, hex, wrap32_add_wrap32]; exact wrap32_of_inInt32 hin
        · right
          unfold inInt32 at hin
          omega
      · right; omega
    rw [hstep]
    have htk : ∀ k, k ≤ pos → t.take k ++ (done ++ [r]).drop k = done ++ [r] := by
      intro k hk
      have h1 : t.take k = (done ++ [r]).take k := by
        rw [ht', List.take_append_of_le_length (by simp; omega)]
      rw [h1, List.take_append_drop]
    have hseg : ∀ k, k ≤ pos → SpacesThenWord ((done ++ [r]).drop k) → W →
        limit < lineWidth face (done ++ [r]) →
        limit < lineWidth face (nextSegment t (t.take k)) := by
      intro k hk hS hw hwide
      obtain ⟨hnn, _⟩ := hW hw
      obtain ⟨d, hd⟩ := nextSegment_prefix t (t.take k) ((done ++ [r]).drop k) rest
        (by rw [htk k hk]; exact ht') hS
      rw [hd, htk k hk]
      have := lineWidth_le_append face hnn (done ++ [r]) d
      omega
    by_cases hover : m > limit
    · rw [if_pos hover]
      have hwide : W → limit < lineWidth face (done ++ [r]) := by
        intro hw
        rcases hQ hw with h | h
        · rw [← h]; exact hover
        · exact h
      by_cases h0 : lb1 = 0
      · rw [if_pos h0]
        refine ⟨pos, rfl, rfl, Or.inr ⟨hlen, Or.inl ?_, ?_⟩⟩
        · rw [htake]
          rcases hF with ⟨_, h⟩ | ⟨h1, _⟩
          · exact h
          · omega
        · intro hw
          apply hseg pos le_rfl _ hw (hwide hw)
          rw [hpos, List.drop_left]
          exact SpacesThenWord.singleton r
      · rw [if_neg h0]
        rcases hF with ⟨h, _⟩ | ⟨h1, h2, hB, hS⟩
        · exact absurd h h0
        · exact ⟨lb1, rfl, rfl, Or.inr ⟨by omega, Or.inr ⟨h1, hB⟩,
            fun hw => hseg lb1 h2 hS hw (hwide hw)⟩⟩
    · rw [if_neg hover]
      apply ih (done ++ [r]) (pos + 1) lb1 m lbw1 (some r) ht' (by simp [hpos]) (by simp)
      · rcases hF with h | ⟨h1, h2, hB, hS⟩
        · exact Or.inl h
        · exact Or.inr ⟨h1, by omega, hB, hS⟩
      · exact hQ

theorem firstLine_shape (face : Face) (hg : AllGlyphs face) (text : List Rune) (limit : Int)
    (W : Prop) (hW : W → NonNegAdvances face ∧ limit ≤ 2147483647) :
    BreakShape face (trimSpace text) limit W (firstLine face text limit) :=
  firstLineLoop_shape face (trimSpace text) limit hg (trimSpace_head text) W hW
    (trimSpace text) [] 0 0 0 0 none (by simp) rfl rfl (Or.inl ⟨rfl, by simp⟩)
    (fun _ => Or.inl rfl)
theorem firstLine_line_ends (face : Face) (hg : AllGlyphs face) (text : List Rune)
    (limit : Int) :
    (∀ r, (firstLine face text limit).1.head? = some r → isSpace r = false) ∧
    (∀ r, (firstLine face text limit).1.getLast? = some r → isSpace r = false) := by
  obtain ⟨k, h1, _, hcase⟩ := firstLine_shape face hg text limit False (fun h => h.elim)
  constructor
  · intro r hr
    rw [h1] at hr
    apply trimSpace_head text r
    cases k with
    | zero => simp at hr
    | succ j =>
      cases ht : trimSpace text with
      | nil => rw [ht] at hr; simp at hr
      | cons x xs => rw [ht] at hr; simpa using hr
  · intro r hr
    rw [h1] at hr
    rcases hcase with hk | ⟨_, hf | ⟨_, ⟨x, hx, hxs⟩, _⟩, _⟩
    · rw [hk, List.take_length] at hr
      exact trimSpace_getLast text r hr
    · apply hf r
      have hmem : r ∈ (trimSpace text).take k := List.mem_of_getLast?_eq_some hr
      have : (trimSpace text).take k = ((trimSpace text).take (k + 1)).take k := by
        rw [List.take_take]; simp
      rw [this] at hmem
      exact List.mem_of_mem_take hmem
    · rw [hx] at hr
      simp only [Option.some.injEq] at hr
      rw [← hr]; exact hxs

theorem Wrapped.line_ends {face : Face} {limit : Int} (hg : AllGlyphs face) :
    ∀ {ls : List (List Rune)} {text : List Rune} {ws : List Int},
      Wrapped face limit text ls ws →
      ∀ l ∈ ls, l ≠ [] ∧ (∀ r, l.head? = some r → isSpace r = false) ∧
        (∀ r, l.getLast? = some r → isSpace r = false) := by
  intro ls
  induction ls with
  | nil => intro _ _ _ l hl; simp at hl
  | cons l0 ls ih =>
    intro text ws h l hl
    cases ws with
    | nil => simp [Wrapped] at h
    | cons w ws =>
      obtain ⟨_, hne, rem, hfl, hrest⟩ := h
      rcases List.mem_cons.mp hl with rfl | hl
      · have := firstLine_line_ends face hg text limit
        rw [hfl] at this
        exact ⟨hne, this.1, this.2⟩
      · exact ih hrest l hl

theorem exMono_allGlyphs : AllGlyphs exMono := fun _ => ⟨640, rfl⟩

theorem exMono_nonNeg : NonNegAdvances exMono := by
  intro r a h
  have ha : a = 640 := by
    have : some (640 : Int) = some a := h
    simpa using this.symm
  subst ha
  refine ⟨by norm_num, ?_⟩
  intro p
  show (0 : Int) ≤ 640 + (if p = 65 ∧ r = 86 then -64 else 0)
  split_ifs <;> norm_num
/-- With non-negative advances a line that is not the whole text could not
have taken the next word, and a text no wider than the limit is one line. -/
theorem firstLine_greedy (face : Face) (hg : AllGlyphs face) (hnn : NonNegAdvances face)
    (text : List Rune) (limit : Int) (hlim : limit ≤ 2147483647) :
    ((firstLine face text limit).2.2 ≠ [] →
      limit < lineWidth face (nextSegment (trimSpace text) (firstLine face text limit).1) ∧
      (firstLine face text limit).2.2
        = (trimSpace text).drop (firstLine face text limit).1.length) ∧
    (lineWidth face (trimSpace text) ≤ limit →
      (firstLine face text limit).1 = trimSpace text ∧ (firstLine face text limit).2.2 = []) := by
  obtain ⟨k, h1, h2, hcase⟩ := firstLine_shape face hg text limit True (fun _ => ⟨hnn, hlim⟩)
  constructor
  · intro hrem
    rcases hcase with hk | ⟨hk, _, hw⟩
    · rw [h2, hk, List.drop_length] at hrem
      exact absurd rfl hrem
    · have hlen : (firstLine face text limit).1.length = k := by
        rw [h1, List.length_take]; omega
      rw [hlen, h1]
      exact ⟨hw trivial, h2⟩
  · intro hfit
    rcases hcase with hk | ⟨_, _, hw⟩
    · rw [h1, h2, hk, List.take_length, List.drop_length]
      exact ⟨rfl, rfl⟩
    · exfalso
      obtain ⟨d, hd⟩ := nextSegment_append ((trimSpace text).take k) ((trimSpace text).drop k)
      rw [List.take_append_drop] at hd
      have hle := lineWidth_le_append face hnn
        (nextSegment (trimSpace text) ((trimSpace text).take k)) d
      rw [← hd] at hle
      have := hw trivial
      omega

theorem Wrapped.greedy {face : Face} {limit : Int} (hg : AllGlyphs face)
    (hnn : NonNegAdvances face) (hlim : limit ≤ 2147483647) :
    ∀ {ls : List (List Rune)} {text : List Rune} {ws : List Int},
      Wrapped face limit text ls ws → Greedy face limit text ls := by
  intro ls
  induction ls with
  | nil => intro _ _ _; trivial
  | cons l ls ih =>
    intro text ws h
    cases ws with
    | nil => simp [Wrapped] at h
    | cons w ws =>
      obtain ⟨_, _, rem, hfl, hrest⟩ := h
      cases ls with
      | nil => trivial
      | cons l' ls' =>
        have hrem : rem ≠ [] := by
          cases ws with
          | nil => simp [Wrapped] at hrest
          | cons w' ws' => exact hrest.1
        have hgr := (firstLine_greedy face hg hnn text limit hlim).1
        rw [hfl] at hgr
        obtain ⟨hwide, hdrop⟩ := hgr hrem
        refine ⟨hwide, ?_⟩
        have hdrop' : (trimSpace text).drop l.length = rem := hdrop.symm
        rw [hdrop']
        exact ih hrest

/-- A text that is all white space gives no lines. -/
theorem lines_of_trimSpace_nil (face : Face) (text : List Rune) (limit : Int)
    (h : trimSpace text = []) : lines face text limit = some ([], []) := by
  cases text with
  | nil => rfl
  | cons r rest =>
    have hfl : (firstLine face (r :: rest) limit).1 = [] := by
      unfold firstLine; rw [h]; rfl
    rcases hf : firstLine face (r :: rest) limit with ⟨line, width, rem⟩
    rw [hf] at hfl
    simp only at hfl
    unfold lines
    simp only [List.length_cons, linesLoop, hf, hfl, if_true]

/-- A text that `firstLine` takes whole is returned as one line. -/
theorem lines_of_whole (face : Face) (text : List Rune) (limit : Int)
    (hne : trimSpace text ≠ []) (h1 : (firstLine face text limit).1 = trimSpace text)
    (h2 : (firstLine face text limit).2.2 = []) :
    lines face text limit = some ([trimSpace text], [(firstLine face text limit).2.1]) := by
  cases text with
  | nil => exact absurd rfl hne
  | cons r rest =>
    rcases hf : firstLine face (r :: rest) limit with ⟨line, width, rem⟩
    rw [hf] at h1 h2
    simp only at h1 h2
    subst h2
    have hl : line ≠ [] := by rw [h1]; exact hne
    unfold lines
    simp only [List.length_cons, linesLoop, hf, if_neg hl]
    rw [h1]
    cases rest <;> rfl
/-! ## Words -/

theorem words_nil : words [] = [] := rfl

theorem wordsLoop_append (a : List Rune) :
    ∀ (cur b : List Rune), (b = [] ∨ ∃ y tl, b = y :: tl ∧ isSpace y = true) →
      wordsLoop cur (a ++ b) = wordsLoop cur a ++ words b := by
  induction a with
  | nil =>
    intro cur b hb
    rcases hb with rfl | ⟨y, tl, rfl, hy⟩
    · simp [words, wordsLoop]
    · by_cases hc : cur = [] <;> simp [words, wordsLoop, hy, hc]
  | cons r a ih =>
    intro cur b hb
    show wordsLoop cur (r :: (a ++ b)) = wordsLoop cur (r :: a) ++ words b
    by_cases hr : isSpace r = true
    · by_cases hc : cur = [] <;> simp [wordsLoop, hr, hc, ih [] b hb]
    · simp [wordsLoop, hr, ih (cur ++ [r]) b hb]

theorem words_append (a b : List Rune) (hb : b = [] ∨ ∃ y tl, b = y :: tl ∧ isSpace y = true) :
    words (a ++ b) = words a ++ words b :=
  wordsLoop_append a [] b hb

theorem words_cons_space (r : Rune) (l : List Rune) (hr : isSpace r = true) :
    words (r :: l) = words l := by
  simp [words, wordsLoop, hr]

theorem words_dropWhile (l : List Rune) : words (l.dropWhile isSpace) = words l := by
  induction l with
  | nil => rfl
  | cons r l ih =>
    by_cases hr : isSpace r = true
    · rw [List.dropWhile_cons_of_pos hr, ih, words_cons_space r l hr]
    · rw [List.dropWhile_cons_of_neg hr]

theorem words_rdropWhile (l : List Rune) : words (l.rdropWhile isSpace) = words l := by
  induction l using List.reverseRecOn with
  | nil => rfl
  | append_singleton init x ih =>
    by_cases hx : isSpace x = true
    · rw [List.rdropWhile_concat_pos _ _ _ hx, ih,
        words_append init [x] (Or.inr ⟨x, [], rfl, hx⟩), words_cons_space x [] hx, words_nil,
        List.append_nil]
    · rw [List.rdropWhile_concat_neg _ _ _ hx]

theorem words_trimSpace (t : List Rune) : words (trimSpace t) = words t := by
  unfold trimSpace
  rw [words_rdropWhile, words_dropWhile]

theorem wordsLoop_word (w : List Rune) :
    ∀ cur : List Rune, (∀ x ∈ w, isSpace x = false) →
      wordsLoop cur w = if cur ++ w = [] then [] else [cur ++ w] := by
  induction w with
  | nil => intro cur _; simp [wordsLoop]
  | cons r w ih =>
    intro cur h
    have hr : isSpace r = false := h r (List.mem_cons_self _ _)
    have hw : ∀ x ∈ w, isSpace x = false := fun x hx => h x (List.mem_cons_of_mem _ hx)
    simp [wordsLoop, hr, ih (cur ++ [r]) hw]

/-- The first word of a text that starts with a rune that is not white space
is one of its words. -/
theorem firstWord_mem (t : List Rune) (hne : t ≠ [])
    (hhead : ∀ r, t.head? = some r → isSpace r = false) :
    t.takeWhile (fun x => !isSpace x) ∈ words t := by
  have hsplit := List.takeWhile_append_dropWhile (fun x => !isSpace x) t
  have hb : t.dropWhile (fun x => !isSpace x) = [] ∨
      ∃ y tl, t.dropWhile (fun x => !isSpace x) = y :: tl ∧ isSpace y = true := by
    cases hd : t.dropWhile (fun x => !isSpace x) with
    | nil => exact Or.inl rfl
    | cons y tl =>
      right
      refine ⟨y, tl, rfl, ?_⟩
      have := List.head?_dropWhile_not (fun x => !isSpace x) t
      rw [hd] at this
      simpa using this
  have htw : t.takeWhile (fun x => !isSpace x) ≠ [] := by
    cases t with
    | nil => exact absurd rfl hne
    | cons x xs =>
      have hx := hhead x rfl
      simp [List.takeWhile_cons, hx]
  have hw := words_append (t.takeWhile (fun x => !isSpace x))
    (t.dropWhile (fun x => !isSpace x)) hb
  rw [hsplit] at hw
  have h1 := wordsLoop_word (t.takeWhile (fun x => !isSpace x)) []
    (fun x hx => by simpa using List.mem_takeWhile_imp hx)
  rw [List.nil_append, if_neg htw] at h1
  have h2 : words (t.takeWhile (fun x => !isSpace x))
      = [t.takeWhile (fun x => !isSpace x)] := h1
  rw [hw, h2]
  simp

/-- At a force break the segment after the line is the first word. -/
theorem nextSegment_of_force (t : List Rune) (k : Nat) (hk : k < t.length)
    (hf : ∀ x ∈ t.take (k + 1), isSpace x = false) :
    nextSegment t (t.take k) = t.takeWhile (fun x => !isSpace x) := by
  have hlen : (t.take k).length = k := by rw [List.length_take]; omega
  obtain ⟨y, tl, hd⟩ : ∃ y tl, t.drop k = y :: tl := by
    cases hd : t.drop k with
    | nil =>
      have := congrArg List.length hd
      simp at this; omega
    | cons y tl => exact ⟨y, tl, rfl⟩
  have hy : isSpace y = false := by
    apply hf
    have : t.take (k + 1) = t.take k ++ [y] := by
      have h1 : t = t.take k ++ (y :: tl) := by rw [← hd, List.take_append_drop]
      conv_lhs => rw [h1]
      rw [List.take_append_eq_append_take]
      simp [hlen]
    rw [this]; simp
  have hall : ∀ x ∈ t.take k, (fun x => !isSpace x) x = true := by
    intro x hx
    have : t.take k = (t.take (k + 1)).take k := by rw [List.take_take]; simp
    rw [this] at hx
    simpa using hf x (List.mem_of_mem_take hx)
  unfold nextSegment
  rw [hlen, hd]
  have h1 : (y :: tl).takeWhile isSpace = [] := by simp [List.takeWhile_cons, hy]
  have h2 : (y :: tl).dropWhile isSpace = y :: tl := by simp [List.dropWhile_cons, hy]
  rw [h1, h2, List.append_nil]
  conv_rhs => rw [← List.take_append_drop k t, hd]
  rw [List.takeWhile_append_of_pos hall]
/-- A line is force-broken only inside the first word of its text, and only
when that word is wider than the limit. -/
theorem firstLine_force (face : Face) (hg : AllGlyphs face) (hnn : NonNegAdvances face)
    (text : List Rune) (limit : Int) (hlim : limit ≤ 2147483647) (r : Rune)
    (hr : (firstLine face text limit).2.2.head? = some r) (hrs : isSpace r = false) :
    (∀ x ∈ (firstLine face text limit).1, isSpace x = false) ∧
    limit < lineWidth face ((trimSpace text).takeWhile (fun x => !isSpace x)) := by
  obtain ⟨k, h1, h2, hcase⟩ := firstLine_shape face hg text limit True (fun _ => ⟨hnn, hlim⟩)
  rcases hcase with hk | ⟨hk, hf | ⟨_, _, ⟨y, hy, hys⟩⟩, hw⟩
  · rw [h2, hk, List.drop_length] at hr
    cases hr
  · constructor
    · intro x hx
      rw [h1] at hx
      have : (trimSpace text).take k = ((trimSpace text).take (k + 1)).take k := by
        rw [List.take_take]; simp
      rw [this] at hx
      exact hf x (List.mem_of_mem_take hx)
    · rw [← nextSegment_of_force (trimSpace text) k hk hf]
      exact hw trivial
  · rw [h2, hy] at hr
    simp only [Option.some.injEq] at hr
    rw [hr] at hys
    rw [hys] at hrs
    cases hrs

/-- When every word fits the limit, `firstLine` returns whole words and
leaves a rest that is empty or has a word. -/
theorem firstLine_words (face : Face) (hg : AllGlyphs face) (hnn : NonNegAdvances face)
    (text : List Rune) (limit : Int) (hlim : limit ≤ 2147483647)
    (hne : trimSpace text ≠ []) (hwords : ∀ w ∈ words text, lineWidth face w ≤ limit) :
    (firstLine face text limit).1 ≠ [] ∧
    words text = words (firstLine face text limit).1 ++ words (firstLine face text limit).2.2 ∧
    ((firstLine face text limit).2.2 = [] ∨ trimSpace (firstLine face text limit).2.2 ≠ []) := by
  obtain ⟨k, h1, h2, hcase⟩ := firstLine_shape face hg text limit True (fun _ => ⟨hnn, hlim⟩)
  rcases hcase with hk | ⟨hk, hf | ⟨hk1, ⟨x, hx, hxs⟩, ⟨y, hy, hys⟩⟩, hw⟩
  · rw [h1, h2, hk, List.take_length, List.drop_length]
    exact ⟨hne, by rw [words_nil, List.append_nil, words_trimSpace], Or.inl rfl⟩
  · exfalso
    have hmem := firstWord_mem (trimSpace text) hne (trimSpace_head text)
    rw [words_trimSpace] at hmem
    have := hwords _ hmem
    rw [← nextSegment_of_force (trimSpace text) k hk hf] at this
    have := hw trivial
    omega
  · obtain ⟨tl, hd⟩ : ∃ tl, (trimSpace text).drop k = y :: tl := by
      cases hd : (trimSpace text).drop k with
      | nil => rw [hd] at hy; cases hy
      | cons z tl =>
        rw [hd] at hy
        simp only [List.head?_cons, Option.some.injEq] at hy
        exact ⟨tl, by rw [hy]⟩
    refine ⟨?_, ?_, Or.inr ?_⟩
    · rw [h1]
      intro h0
      have := congrArg List.length h0
      simp only [List.length_take, List.length_nil] at this
      omega
    · rw [h1, h2, ← words_append _ _ (Or.inr ⟨y, tl, hd, hys⟩), List.take_append_drop,
        words_trimSpace]
    · rw [h2]
      intro h0
      have hrest := trimSpace_rest text k
      rw [h0, List.append_nil] at hrest
      have hdne : (trimSpace text).drop k ≠ [] := by rw [hd]; simp
      have hlast := getLast?_of_end_piece ((trimSpace text).take k) _ hdne
      rw [List.take_append_drop] at hlast
      have hex := List.getLast?_eq_getLast _ hdne
      have hall : ∀ z ∈ (trimSpace text).drop k, isSpace z = true := by
        intro z hz
        rw [hrest] at hz
        exact List.mem_takeWhile_imp hz
      have hsp : isSpace (((trimSpace text).drop k).getLast hdne) = true :=
        hall _ (List.getLast_mem hdne)
      have := trimSpace_getLast text _ (by rw [hlast, hex])
      rw [hsp] at this
      cases this

/-- The loop of `lines` runs to the end, without giving up, on the texts of
a class that `firstLine` never answers with the empty line and never
leaves. -/
theorem linesLoop_progress (face : Face) (limit : Int) (P : List Rune → Prop)
    (hP : ∀ t, P t → t ≠ [] →
      (firstLine face t limit).1 ≠ [] ∧ P (firstLine face t limit).2.2) :
    ∀ (fuel : Nat) (text : List Rune) (acc : List (List Rune)) (wacc : List Int),
      text.length ≤ fuel → P text →
      ∃ new wnew, linesLoop face limit fuel text acc wacc = some (acc ++ new, wacc ++ wnew) ∧
        Wrapped face limit text new wnew := by
  intro fuel
  induction fuel with
  | zero =>
    intro text acc wacc hlen _
    have : text = [] := List.length_eq_zero.mp (by omega)
    subst this
    exact ⟨[], [], by simp [linesLoop], by simp [Wrapped]⟩
  | succ fuel ih =>
    intro text acc wacc hlen hPt
    cases text with
    | nil => exact ⟨[], [], by simp [linesLoop], by simp [Wrapped]⟩
    | cons r rest =>
      have hstep := hP (r :: rest) hPt (by simp)
      have hlt := firstLine_remaining_lt face (r :: rest) limit hstep.1
      rcases hfl : firstLine face (r :: rest) limit with ⟨line, width, rem⟩
      rw [hfl] at hstep hlt
      simp only at hstep hlt
      simp only [linesLoop, hfl, if_neg hstep.1]
      obtain ⟨new, wnew, h, hw⟩ := ih rem (acc ++ [line]) (wacc ++ [width]) (by
        simp only [List.length_cons] at hlt hlen; omega) hstep.2
      refine ⟨line :: new, width :: wnew, ?_, ?_⟩
      · rw [h]; simp
      · exact ⟨by simp, hstep.1, rem, hfl, hw⟩

theorem Wrapped.words {face : Face} {limit : Int} (hg : AllGlyphs face)
    (hnn : NonNegAdvances face) (hlim : limit ≤ 2147483647) :
    ∀ {ls : List (List Rune)} {text : List Rune} {ws : List Int},
      Wrapped face limit text ls ws → (text = [] ∨ trimSpace text ≠ []) →
      (∀ w ∈ words text, lineWidth face w ≤ limit) →
      (ls.map Meme.words).flatten = Meme.words text := by
  intro ls
  induction ls with
  | nil =>
    intro text ws h _ _
    cases ws with
    | nil =>
      have : text = [] := by simpa [Wrapped] using h
      subst this; rfl
    | cons w ws => simp [Wrapped] at h
  | cons l ls ih =>
    intro text ws h htrim hwords
    cases ws with
    | nil => simp [Wrapped] at h
    | cons w ws =>
      obtain ⟨hne, _, rem, hfl, hrest⟩ := h
      have htrim' : trimSpace text ≠ [] := by
        rcases htrim with h0 | h0
        · exact absurd h0 hne
        · exact h0
      have hfw := firstLine_words face hg hnn text limit hlim htrim' hwords
      rw [hfl] at hfw
      obtain ⟨_, hsplit, hrem⟩ := hfw
      simp only at hsplit hrem
      have hwrem : ∀ w ∈ Meme.words rem, lineWidth face w ≤ limit := by
        intro w hw
        apply hwords
        rw [hsplit]
        exact List.mem_append_right _ hw
      rw [List.map_cons, List.flatten_cons, ih hrest hrem hwrem, hsplit]
/-! ## A single word -/

/-- When every rune has a glyph and no running width overflows, the width
that `firstLine` returns is the rendered width of the line it returns. -/
theorem firstLineLoop_width_eq (face : Face) (t : List Rune) (limit : Int)
    (hg : AllGlyphs face) (hno : ∀ j, inInt32 (lineWidth face (t.take j))) :
    ∀ (rest done : List Rune) (pos lb : Nat) (w lbw : Int) (prev : Option Rune),
      t = done ++ rest → w = lineWidth face done → prev = lastGlyph face none done →
      pos = done.length → lbw = lineWidth face (t.take lb) →
      (firstLineLoop face t limit rest pos lb w lbw prev).2.1
        = lineWidth face (firstLineLoop face t limit rest pos lb w lbw prev).1 := by
  intro rest
  induction rest with
  | nil =>
    intro done pos lb w lbw prev ht hw _ _ _
    simp only [firstLineLoop]
    rw [hw, ht]; simp
  | cons r rest ih =>
    intro done pos lb w lbw prev ht hw hprev hpos hlbw
    subst hw hprev
    obtain ⟨adv, hadv⟩ := hg r
    have ht' : t = (done ++ [r]) ++ rest := by simp [ht]
    have htake0 : t.take pos = done := by rw [ht, hpos]; simp
    have htake : t.take (pos + 1) = done ++ [r] := by
      rw [ht', hpos]
      have : (done ++ [r]).length = done.length + 1 := by simp
      rw [← this, List.take_left']
      rfl
    unfold firstLineLoop
    rw [hadv]
    simp only
    have hexact : wrap32 (lineWidth face done + (match lastGlyph face none done with
        | none => adv
        | some p => wrap32 (adv + face.Kern p r))) = lineWidth face (done ++ [r]) := by
      have hin := hno (pos + 1)
      rw [htake] at hin
      rw [lineWidth_snoc_some face done r adv hadv] at hin ⊢
      generalize lastGlyph face none done = q at hin ⊢
      cases q with
      | none => exact wrap32_of_inInt32 hin
      | some p =>
        simp only at hin ⊢
        rw [wrap32_add_wrap32]
        exact wrap32_of_inInt32 hin
    erw [hexact]
    split_ifs with h1 h2 h3 h4
    · simp only; rw [htake0]
    · simp only; rw [htake0]
    · simp only; rw [htake0]
    · simp only; exact hlbw
    · apply ih (done ++ [r]) (pos + 1) _ _ _ (some r) ht' rfl
      · rw [lastGlyph_snoc_some face done r adv hadv]
      · simp [hpos]
      · rw [htake0]
    · apply ih (done ++ [r]) (pos + 1) _ _ _ (some r) ht' rfl
      · rw [lastGlyph_snoc_some face done r adv hadv]
      · simp [hpos]
      · exact hlbw

theorem firstLine_width_eq (face : Face) (hg : AllGlyphs face) (text : List Rune)
    (limit : Int) (hno : NoOverflow face text) :
    (firstLine face text limit).2.1 = lineWidth face (firstLine face text limit).1 := by
  obtain ⟨pre, post, hp⟩ := trimSpace_piece text
  exact firstLineLoop_width_eq face (trimSpace text) limit hg
    (fun j => hno.piece pre _ ((trimSpace text).drop j ++ post)
      (by conv_lhs => rw [hp, ← List.take_append_drop j (trimSpace text)]
          simp only [List.append_assoc]))
    (trimSpace text) [] 0 0 0 0 none rfl rfl rfl rfl rfl

theorem Wrapped.width_eq {face : Face} {limit : Int} (hg : AllGlyphs face) :
    ∀ {ls : List (List Rune)} {text : List Rune} {ws : List Int},
      NoOverflow face text → Wrapped face limit text ls ws →
      ws = ls.map (lineWidth face) := by
  intro ls
  induction ls with
  | nil =>
    intro text ws _ h
    cases ws with
    | nil => rfl
    | cons w ws => simp [Wrapped] at h
  | cons l0 ls ih =>
    intro text ws hno h
    cases ws with
    | nil => simp [Wrapped] at h
    | cons w ws =>
      obtain ⟨_, _, rem, hfl, hrest⟩ := h
      have hw := firstLine_width_eq face hg text limit hno
      rw [hfl] at hw
      simp only at hw
      obtain ⟨pre, post, hp⟩ := firstLine_remaining_piece face text limit
      rw [hfl] at hp
      rw [List.map_cons, ← ih (hno.sub pre rem post hp) hrest, hw]

/-- When every rune has a glyph and no running width overflows, the widths
that `lines` returns are the rendered widths of the lines it returns. -/
theorem lines_width_eq (face : Face) (hg : AllGlyphs face) (text : List Rune) (limit : Int)
    (hno : NoOverflow face text) (ls : List (List Rune)) (ws : List Int)
    (h : lines face text limit = some (ls, ws)) : ws = ls.map (lineWidth face) := by
  rcases lines_spec face text limit with h0 | ⟨ls', ws', h1, hw⟩
  · rw [h0] at h
    simp only [Option.some.injEq, Prod.mk.injEq] at h
    rw [← h.1, ← h.2]; rfl
  · rw [h1] at h
    simp only [Option.some.injEq, Prod.mk.injEq] at h
    rw [← h.1, ← h.2]
    exact Wrapped.width_eq hg hno hw
theorem roundEven_eq_of_tie (x : ℚ) (m : Int) (hx : x = m - 1 / 2) (hm : m % 2 = 0) :
    roundEven x = m := by
  have hfl : ⌊x⌋ = m - 1 := by
    rw [Int.floor_eq_iff, hx]; push_cast; constructor <;> linarith
  have hq : (⌊x⌋ : ℚ) = m - 1 := by rw [hfl]; push_cast; ring
  unfold roundEven
  rw [if_neg (by rw [hq, hx]; norm_num), if_neg (by rw [hq, hx]; norm_num),
    if_neg (by rw [hfl]; omega), hfl]
  ring

/-- The float64 value of an exact result that lies half-way between two
neighbours, the upper one having an even significand. -/
theorem Float64.round_eq_of_tie (x : ℚ) (e m : Int) (hpos : 0 < x)
    (hlo : (2 : ℚ) ^ e ≤ x) (hhi : x < (2 : ℚ) ^ (e + 1))
    (h : x / 2 ^ (e - 52) = m - 1 / 2) (hm : m % 2 = 0) :
    Float64.round x = m * 2 ^ (e - 52) := by
  have habs : |x| = x := abs_of_pos hpos
  have he : Int.log 2 |x| = e := by
    rw [habs]
    have h1 : e ≤ Int.log 2 x :=
      (Int.zpow_le_iff_le_log (b := 2) (by norm_num) hpos (x := e)).mp (by simpa using hlo)
    have h2 : Int.log 2 x < e + 1 :=
      (Int.lt_zpow_iff_log_lt (b := 2) (by norm_num) hpos (x := e + 1)).mp (by simpa using hhi)
    omega
  unfold Float64.round
  rw [if_neg hpos.ne', he, roundEven_eq_of_tie _ m h hm]

theorem nextFontSize_80_80_80 : nextFontSize (8879128140337643 / 140737488355328)
    = 7864551586784083 / 140737488355328 := by
  unfold nextFontSize Float64.sub Float64.div Float64.add
  have h1 : Float64.round (8879128140337643 / 140737488355328 + 9)
      = 2536441383883899 / 35184372088832 := by
    rw [Float64.round_eq_of_tie _ 6 5072882767767798] <;> norm_num
  rw [h1]
  have h2 : Float64.round (2536441383883899 / 35184372088832 / 10)
      = 8116612428428477 / 1125899906842624 := by
    rw [Float64.round_eq_of _ 2 8116612428428477] <;> norm_num
  rw [h2]
  rw [Float64.round_eq_of _ 5 7864551586784083] <;> norm_num

/-- The face at the third size after 80, about 55.88, is the face at 55. -/
theorem exFont_after_80_80_80 : exFont (7864551586784083 / 140737488355328) = exFont 55 := by
  rw [exFont_eq_of_floor _ 55 (by rw [Int.floor_eq_iff]; norm_num),
    exFont_eq_of_floor 55 55 (by rw [Int.floor_eq_iff]; norm_num)]

/-- The candidates after the default start size 80: about 71.1, 63.09 and
55.88. -/
theorem candidates_of_default (s : TextSlot) (h : s.MaxFontSize = 0) :
    candidate s 0 = 80 ∧ candidate s 1 = 2501608855515955 / 35184372088832 ∧
    candidate s 2 = 8879128140337643 / 140737488355328 ∧
    candidate s 3 = 7864551586784083 / 140737488355328 := by
  have h0 : startSize s = 80 := by unfold startSize; rw [if_pos h]
  refine ⟨h0, ?_, ?_, ?_⟩
  · show nextFontSize (startSize s) = _
    rw [h0, nextFontSize_80]
  · show nextFontSize (nextFontSize (startSize s)) = _
    rw [h0, nextFontSize_80, nextFontSize_80_80]
  · show nextFontSize (nextFontSize (nextFontSize (startSize s))) = _
    rw [h0, nextFontSize_80, nextFontSize_80_80, nextFontSize_80_80_80]

/-- C1: for every face, text and limit `≥ 0`, when no running width
overflows, `lines` returns lines whose rendered width (advances plus the
kerning between consecutive runes) is at most the limit; hence every line of
a layout returned by `TextLayout` is no wider than `Bounds.Dx()*64`. -/
theorem line_width_le_limit (face : Face) (text : List Rune) (limit : Int)
    (hlimit : 0 ≤ limit) (hno : NoOverflow face text) :
    (∃ ls ws, lines face text limit = some (ls, ws) ∧
      ∀ line ∈ ls, lineWidth face line ≤ limit) ∧
    ∀ (s : TextSlot) (l : Layout), 0 ≤ s.Bounds.Dx → TextLayout s text = Res.ok (some l) →
      NoOverflow l.Face text → ∀ line ∈ l.Lines, lineWidth l.Face line ≤ s.Bounds.Dx * 64 := by
  constructor
  · rcases lines_spec face text limit with h | ⟨ls, ws, h, hw⟩
    · exact ⟨[], [], h, fun line hl => by simp at hl⟩
    · refine ⟨ls, ws, h, fun line hl => ?_⟩
      have := hw.width_le hno line hl
      rwa [max_eq_left hlimit] at this
  · intro s l hdx hl hnol line hline
    obtain ⟨c, _, hat⟩ := Chooses_of_TextLayout s text l hl
    obtain ⟨ws, hlines, hface, _⟩ := layoutAt_layout s text c l hat
    have hx := (TextLayout_layout s text l hl).1
    rw [← hface] at hlines
    have hbound : max (wrap64 (s.Bounds.Dx * 64)) 0 ≤ s.Bounds.Dx * 64 := by
      apply max_le
      · unfold wrap64; omega
      · omega
    rcases lines_spec l.Face text (wrap64 (s.Bounds.Dx * 64)) with h0 | ⟨ls, ws', h1, hw⟩
    · rw [h0] at hlines
      simp only [Option.some.injEq, Prod.mk.injEq] at hlines
      rw [← hlines.1] at hline
      simp at hline
    · rw [h1] at hlines
      simp only [Option.some.injEq, Prod.mk.injEq] at hlines
      rw [← hlines.1] at hline
      exact le_trans (hw.width_le hnol line hline) hbound

/-- Witness of C1: the text `AV a` at size 80 with a limit of 100 pixels, and
its layout in `exSlot`. -/
theorem line_width_le_limit_witness :
    (0 ≤ (6400 : Int) ∧ NoOverflow (exFont 80) exText) ∧
    (∃ ls ws, lines (exFont 80) exText 6400 = some (ls, ws) ∧
      ∀ line ∈ ls, lineWidth (exFont 80) line ≤ 6400) ∧
    (TextLayout exSlot exText = Res.ok (some exLayout) ∧
      ∀ line ∈ exLayout.Lines, lineWidth exLayout.Face line ≤ exSlot.Bounds.Dx * 64) :=
  ⟨⟨by decide, by decide⟩,
    (line_width_le_limit (exFont 80) exText 6400 (by decide) (by decide)).1,
    rfl,
    (line_width_le_limit (exFont 80) exText 6400 (by decide) (by decide)).2
      exSlot exLayout (by decide) rfl (by decide)⟩

/-- C2, as stated, fails: in a rectangle 93 pixels high the text `a` is laid
out at size 80, where the line height is 6000/64 = 93.75 pixels; the one line
is taller than the rectangle, `1 * 6000 > 93 * 64`. -/
theorem line_count_fixed_point_counterexample :
    0 ≤ (exSlotIn (exRect 100 93)).Bounds.Dy ∧
    (∀ c : ℚ, 6 ≤ c → 64 ≤ (exFont c).Height) ∧
    TextLayout (exSlotIn (exRect 100 93)) [97]
      = Res.ok (some (exLayoutA { X := 1920, Y := 5976 })) ∧
    ¬ (((exLayoutA { X := 1920, Y := 5976 }).Lines.length : Int)
        * (exLayoutA { X := 1920, Y := 5976 }).Face.Height
      ≤ (exSlotIn (exRect 100 93)).Bounds.Dy * 64) := by
  refine ⟨by decide, ?_, rfl, by decide⟩
  intro c hc
  have h6 : (6 : Int) ≤ ⌊c⌋ := Int.le_floor.mpr (by exact_mod_cast hc)
  show 64 ≤ ⌊c⌋ * 75
  omega

/-- C2, amended: the line budget is taken in whole pixels. For a slot with
non-negative rectangle height and a face whose line height is at least one
pixel, a returned layout has at most `Dy / (Height/64)` lines, the line
height being cut down to whole pixels first; so the number of lines times the
whole-pixel line height is at most the rectangle height in pixels. -/
theorem line_count_le_pixel_budget (s : TextSlot) (text : List Rune) (l : Layout)
    (hdy : 0 ≤ s.Bounds.Dy) (hH : 64 ≤ l.Face.Height)
    (h : TextLayout s text = Res.ok (some l)) :
    (l.Lines.length : Int) ≤ s.Bounds.Dy / (l.Face.Height / 64) ∧
    (l.Lines.length : Int) * (l.Face.Height / 64) ≤ s.Bounds.Dy := by
  obtain ⟨_, _, k, _, _, hfit, hat⟩ := TextLayout_layout s text l h
  obtain ⟨ws, hlines, hface, _⟩ := layoutAt_layout s text _ l hat
  obtain ⟨lim, n, hlim, hcount, hle⟩ := hfit
  have hn : n = l.Lines.length := by
    simp only [lineCount, hlines, Option.map_some', Option.some.injEq] at hcount
    exact hcount.symm
  subst hn
  rw [← hface] at hlim
  have hd1 : 1 ≤ l.Face.Height / 64 := by omega
  have htd : Int.tdiv l.Face.Height 64 = l.Face.Height / 64 :=
    Int.tdiv_eq_ediv (by omega) (by norm_num)
  have htd2 : Int.tdiv s.Bounds.Dy (l.Face.Height / 64) = s.Bounds.Dy / (l.Face.Height / 64) :=
    Int.tdiv_eq_ediv hdy (by omega)
  have hq0 : 0 ≤ s.Bounds.Dy / (l.Face.Height / 64) := Int.ediv_nonneg hdy (by omega)
  have hq1 : s.Bounds.Dy / (l.Face.Height / 64) ≤ s.Bounds.Dy := Int.ediv_le_self _ hdy
  have hdy64 : s.Bounds.Dy < 9223372036854775808 := by
    unfold Rectangle.Dy wrap64; omega
  unfold lineLimit at hlim
  rw [htd, if_neg (by omega), htd2] at hlim
  simp only [Option.some.injEq] at hlim
  have hw : wrap64 (s.Bounds.Dy / (l.Face.Height / 64)) = s.Bounds.Dy / (l.Face.Height / 64) := by
    unfold wrap64; omega
  rw [hw] at hlim
  subst hlim
  refine ⟨hle, ?_⟩
  exact (Int.le_ediv_iff_mul_le (by omega)).mp hle

/-- Witness of C2, amended: `AV a` in `exSlot`, two lines of 93 whole
pixels in 200 pixels. -/
theorem line_count_le_pixel_budget_witness :
    (0 ≤ exSlot.Bounds.Dy ∧ 64 ≤ exLayout.Face.Height ∧
      TextLayout exSlot exText = Res.ok (some exLayout)) ∧
    ((exLayout.Lines.length : Int) ≤ exSlot.Bounds.Dy / (exLayout.Face.Height / 64) ∧
      (exLayout.Lines.length : Int) * (exLayout.Face.Height / 64) ≤ exSlot.Bounds.Dy) :=
  ⟨⟨by decide, by decide, rfl⟩,
    line_count_le_pixel_budget exSlot exText exLayout (by decide) (by decide) rfl⟩

/-- C3 fails on the code: `a` in a rectangle 30 pixels wide and 200 high,
default start size 80. At size 80 the rune is 40 pixels wide, `firstLine`
returns the empty line and `lines` returns no lines; the test
`len(lines) > lineLimit` reads `0 > 2`, so `TextLayout` returns a layout
without lines and the rune `a` of the trimmed text is dropped. The search
stops there, although at the fourth candidate, about 55.88, the text is one
line within the budget of three. -/
theorem lines_concat_drops_rune :
    lines (exFont 80) [97] 1920 = some ([], []) ∧
    lineLimit (exSlotIn (exRect 30 200)) (exFont 80) = some 2 ∧
    TextLayout (exSlotIn (exRect 30 200)) [97]
      = Res.ok (some { Face := exFont 80, Lines := [], LinePositions := [] }) ∧
    trimSpace [97] = [97] ∧
    (¬ ∃ gaps : List (List Rune), trimSpace [97] = joinWith [] gaps) ∧
    6 ≤ candidate (exSlotIn (exRect 30 200)) 3 ∧
    lines ((exSlotIn (exRect 30 200)).Font (candidate (exSlotIn (exRect 30 200)) 3))
      [97] 1920 = some ([[97]], [1760]) ∧
    lineLimit (exSlotIn (exRect 30 200))
      ((exSlotIn (exRect 30 200)).Font (candidate (exSlotIn (exRect 30 200)) 3)) = some 3 := by
  have hc := (candidates_of_default (exSlotIn (exRect 30 200)) rfl).2.2.2
  refine ⟨rfl, rfl, rfl, by decide, ?_, ?_, ?_, ?_⟩
  · rintro ⟨gaps, h⟩
    simp [joinWith] at h
    revert h; decide
  · rw [hc]; norm_num
  · rw [hc]; show lines (exFont _) _ _ = _
    rw [exFont_after_80_80_80]; rfl
  · rw [hc]; show lineLimit _ (exFont _) = _
    rw [exFont_after_80_80_80]; rfl

/-- Away from that defect nothing is lost between the lines: when
`TextLayout` returns a layout that has at least one line (or the text is all
white space), the trimmed text is the returned lines in order, with a run of
white space between each consecutive pair. -/
theorem lines_concat_trimmed (s : TextSlot) (text : List Rune) (l : Layout)
    (h : TextLayout s text = Res.ok (some l))
    (hne : l.Lines ≠ [] ∨ trimSpace text = []) :
    ∃ gaps : List (List Rune), gaps.length = l.Lines.length - 1 ∧
      (∀ g ∈ gaps, ∀ r ∈ g, isSpace r = true) ∧ trimSpace text = joinWith l.Lines gaps := by
  obtain ⟨c, _, hat⟩ := Chooses_of_TextLayout s text l h
  obtain ⟨ws, hlines, _⟩ := layoutAt_layout s text c l hat
  by_cases hl : l.Lines = []
  · have ht : trimSpace text = [] := hne.resolve_left (fun hn => hn hl)
    exact ⟨[], by simp [hl], by simp, by rw [ht, hl]; rfl⟩
  · rcases lines_spec (s.Font c) text (wrap64 (s.Bounds.Dx * 64)) with h0 | ⟨ls, ws', h1, hw⟩
    · rw [h0] at hlines
      simp only [Option.some.injEq, Prod.mk.injEq] at hlines
      exact absurd hlines.1.symm hl
    · rw [h1] at hlines
      simp only [Option.some.injEq, Prod.mk.injEq] at hlines
      rw [hlines.1] at hw
      obtain ⟨gaps, hlen, hsp, hjoin⟩ := hw.join hl
      exact ⟨gaps, by omega, hsp, hjoin⟩

/-- An instance of `lines_concat_trimmed`: `AV a` in `exSlot`; the gap is the
one space. -/
theorem lines_concat_trimmed_example :
    (TextLayout exSlot exText = Res.ok (some exLayout) ∧
      (exLayout.Lines ≠ [] ∨ trimSpace exText = [])) ∧
    ∃ gaps : List (List Rune), gaps.length = exLayout.Lines.length - 1 ∧
      (∀ g ∈ gaps, ∀ r ∈ g, isSpace r = true) ∧
      trimSpace exText = joinWith exLayout.Lines gaps :=
  ⟨⟨rfl, Or.inl (by decide)⟩,
    lines_concat_trimmed exSlot exText exLayout rfl (Or.inl (by decide))⟩

/-- C5: when the width and the height of the rectangle convert and the line
count exceeds the budget at every candidate size of at least 6, `TextLayout`
returns no layout and no error, and `Render` returns no error and draws
nothing. -/
theorem no_fit_returns_nil (s : TextSlot) (text : List Rune)
    (hx : inInt32 (wrap64 (s.Bounds.Dx * 64))) (hy : inInt32 (wrap64 (s.Bounds.Dy * 64)))
    (hex : ∀ k, (∀ j ≤ k, 6 ≤ candidate s j) → Exceeds s text (candidate s k)) :
    TextLayout s text = Res.ok none ∧
    ∀ (ToUpper : List Rune → List Rune) (raw : List Rune),
      (if s.AllUppercase then ToUpper raw else raw) = text → Render ToUpper s raw = Res.ok [] := by
  have hT := TextLayout_eq_none s text hx hy hex
  refine ⟨hT, ?_⟩
  intro ToUpper raw hraw
  unfold Render
  rw [hraw, hT]

/-- Witness of C5: `a` in a rectangle 5 pixels high with a maximum size of 6:
at size 6 the one line exceeds the budget of no lines, and the next candidate
is below 6. -/
theorem no_fit_returns_nil_witness :
    (inInt32 (wrap64 ((exSlotMax (exRect 100 5) 6).Bounds.Dx * 64)) ∧
      inInt32 (wrap64 ((exSlotMax (exRect 100 5) 6).Bounds.Dy * 64)) ∧
      Exceeds (exSlotMax (exRect 100 5) 6) [97] 6) ∧
    TextLayout (exSlotMax (exRect 100 5) 6) [97] = Res.ok none ∧
    Render id (exSlotMax (exRect 100 5) 6) [97] = Res.ok [] :=
  ⟨⟨by decide, by decide, 0, 1, rfl, rfl, by decide⟩,
    (no_fit_returns_nil (exSlotMax (exRect 100 5) 6) [97] (by decide) (by decide)
      (exceeds_all_of_max_6 _ _ rfl ⟨0, 1, rfl, rfl, by decide⟩)).1,
    (no_fit_returns_nil (exSlotMax (exRect 100 5) 6) [97] (by decide) (by decide)
      (exceeds_all_of_max_6 _ _ rfl ⟨0, 1, rfl, rfl, by decide⟩)).2 id [97] rfl⟩

/-- C6, as stated, fails: the left and the top edge are converted only when
a layout is built. With a left edge outside the range the empty text still
gets a layout (without lines), and with a top edge outside the range a text
that fits at no size gets `nil, nil`; neither call fails. -/
theorem conversion_error_counterexample :
    (¬ inInt32 ((exSlotIn (exRectAt 2147483648 0 100 200)).Bounds.Min.X * 64) ∧
      ∃ l, TextLayout (exSlotIn (exRectAt 2147483648 0 100 200)) [] = Res.ok (some l)) ∧
    (¬ inInt32 ((exSlotMax (exRectAt 0 2147483648 100 5) 6).Bounds.Min.Y * 64) ∧
      TextLayout (exSlotMax (exRectAt 0 2147483648 100 5) 6) [97] = Res.ok none) :=
  ⟨⟨by decide, { Face := exFont 80, Lines := [], LinePositions := [] }, rfl⟩,
    by decide,
    TextLayout_eq_none _ _ (by decide) (by decide)
      (exceeds_all_of_max_6 _ _ rfl ⟨0, 1, rfl, rfl, by decide⟩)⟩

/-- C6, amended: `TextLayout` fails with a conversion error, whatever the
text, when `Bounds.Dx()*64` or `Bounds.Dy()*64` (as the program computes
them) is outside the `int32` range; when `Bounds.Min.Y*64` is, it fails for
every text whose line count fits at some candidate; when `Bounds.Min.X*64`
is, it fails for every text that fits at some candidate with at least one
line. -/
theorem conversion_error (s : TextSlot) (text : List Rune)
    (h : ¬ inInt32 (wrap64 (s.Bounds.Dx * 64)) ∨ ¬ inInt32 (wrap64 (s.Bounds.Dy * 64)) ∨
      (¬ inInt32 (wrap64 (s.Bounds.Min.Y * 64)) ∧ ∃ c, Chooses s text c) ∨
      (¬ inInt32 (wrap64 (s.Bounds.Min.X * 64)) ∧
        ∃ c n, Chooses s text c ∧ lineCount s text c = some n ∧ 0 < n)) :
    ∃ msg, TextLayout s text = Res.error msg := by
  rcases TextLayout_cases s text with ⟨_, he⟩ | ⟨_, he⟩ | ⟨hx, hy, _⟩
  · exact ⟨_, he⟩
  · exact ⟨_, he⟩
  · rcases h with h | h | ⟨hmy, c, hc⟩ | ⟨hmx, c, n, hc, hn, hpos⟩
    · exact absurd hx h
    · exact absurd hy h
    · rw [TextLayout_of_Chooses s text c hx hy hc]
      obtain ⟨ls, ws, hl⟩ := lines_isSome (s.Font c) text (wrap64 (s.Bounds.Dx * 64))
      have hlen := lines_length_eq _ _ _ _ _ hl
      unfold layoutAt
      rw [hl]
      rcases buildLayout_cases s (s.Font c) (wrap64 (s.Bounds.Dx * 64))
          (wrap64 (s.Bounds.Dy * 64)) ls ws hlen with
        ⟨_, he⟩ | ⟨hy', _⟩ | ⟨hy', _⟩ | ⟨hy', _⟩
      · exact ⟨_, he⟩
      · exact absurd hy' hmy
      · exact absurd hy' hmy
      · exact absurd hy' hmy
    · rw [TextLayout_of_Chooses s text c hx hy hc]
      obtain ⟨ls, ws, hl⟩ := lines_isSome (s.Font c) text (wrap64 (s.Bounds.Dx * 64))
      have hlen := lines_length_eq _ _ _ _ _ hl
      have hne : ls ≠ [] := by
        intro h0
        simp only [lineCount, hl, Option.map_some', Option.some.injEq, h0, List.length_nil] at hn
        omega
      unfold layoutAt
      rw [hl]
      rcases buildLayout_cases s (s.Font c) (wrap64 (s.Bounds.Dx * 64))
          (wrap64 (s.Bounds.Dy * 64)) ls ws hlen with
        ⟨_, he⟩ | ⟨_, _, he⟩ | ⟨_, _, _, _, he⟩ | ⟨_, _, hx', _⟩
      · exact ⟨_, he⟩
      · exact ⟨_, he⟩
      · exact ⟨_, he⟩
      · rcases hx' with hx' | hx'
        · exact absurd hx' hmx
        · exact absurd hx' hne

/-- Witness of C6, amended: with a left edge outside the range, the text `a`
(one line at size 80) makes `TextLayout` fail. -/
theorem conversion_error_witness :
    (¬ inInt32 (wrap64 ((exSlotIn (exRectAt 2147483648 0 100 200)).Bounds.Min.X * 64)) ∧
      Chooses (exSlotIn (exRectAt 2147483648 0 100 200)) [97] 80) ∧
    ∃ msg, TextLayout (exSlotIn (exRectAt 2147483648 0 100 200)) [97] = Res.error msg :=
  ⟨⟨by decide, 0, rfl, by norm_num, ⟨2, 1, rfl, rfl, by decide⟩,
      fun j hj => absurd hj (Nat.not_lt_zero j)⟩,
    conversion_error _ [97] (Or.inr (Or.inr (Or.inr ⟨by decide, 80, 1,
      ⟨0, rfl, by norm_num, ⟨2, 1, rfl, rfl, by decide⟩,
        fun j hj => absurd hj (Nat.not_lt_zero j)⟩, rfl, by decide⟩)))⟩

/-- C7, as stated, fails: in a rectangle 75 pixels high the text `a` is laid
out at about 63.09 when the maximum size is 80 (candidates 80, 71.1, 63.09)
but at about 64.8 when the maximum size is 73 (candidates 73, 64.8): the
smaller maximum gives the larger size, and the larger face. -/
theorem max_size_monotone_counterexample :
    (0 < (73 : ℚ) ∧ (73 : ℚ) ≤ 80) ∧
    (Chooses (exSlotMax (exRect 100 75) 80) [97] (8879128140337643 / 140737488355328) ∧
      TextLayout (exSlotMax (exRect 100 75) 80) [97]
        = Res.ok (some (exLayoutAt 63 { X := 2192, Y := 4762 }))) ∧
    (Chooses (exSlotMax (exRect 100 75) 73) [97] (4559894622712627 / 70368744177664) ∧
      TextLayout (exSlotMax (exRect 100 75) 73) [97]
        = Res.ok (some (exLayoutAt 64 { X := 2176, Y := 4800 }))) ∧
    ¬ ((4559894622712627 / 70368744177664 : ℚ) ≤ 8879128140337643 / 140737488355328) ∧
    (exLayoutAt 63 { X := 2192, Y := 4762 }).Face.Height
      < (exLayoutAt 64 { X := 2176, Y := 4800 }).Face.Height :=
  ⟨⟨by norm_num, by norm_num⟩, ⟨exSlot_75_chooses_80, exSlot_75_layout_80⟩,
    ⟨exSlot_75_chooses_73, exSlot_75_layout_73⟩, by norm_num, by decide⟩

/-- C7, amended: the search is monotone along its own candidates. When the
smaller maximum size is one of the candidate sizes `s_k` of the search from
`MaxFontSize` (every candidate before it being at least 6), and both
searches return a layout, the layout for the smaller maximum is built at a
size `c'` no larger than the size `c` of the other; moreover
`c' ≤ s_k ≤ MaxFontSize` (or 80). -/
theorem chosen_size_monotone_along_candidates (s : TextSlot) (text : List Rune) (k : Nat)
    (l l' : Layout) (hk : ∀ j < k, 6 ≤ candidate s j)
    (hl : TextLayout s text = Res.ok (some l))
    (hl' : TextLayout (s.withMax (candidate s k)) text = Res.ok (some l')) :
    ∃ c c', Chooses s text c ∧ layoutAt s text c = Res.ok (some l) ∧
      Chooses (s.withMax (candidate s k)) text c' ∧
      layoutAt (s.withMax (candidate s k)) text c' = Res.ok (some l') ∧
      c' ≤ c ∧ c' ≤ candidate s k ∧ candidate s k ≤ startSize s := by
  have h0 := candidate_ne_zero s k hk
  obtain ⟨c, hc, hat⟩ := Chooses_of_TextLayout s text l hl
  obtain ⟨c', hc', hat'⟩ := Chooses_of_TextLayout _ text l' hl'
  refine ⟨c, c', hc, hat, hc', hat', ?_, ?_, candidate_le_start s k hk⟩
  · obtain ⟨i, rfl, h6, hfit, hbefore⟩ := hc
    obtain ⟨i', rfl, h6', hfit', hbefore'⟩ := hc'
    have hshift : ∀ j, candidate (s.withMax (candidate s k)) j = candidate s (k + j) := by
      intro j
      rw [candidate_withMax s _ h0, candidate_add]
    rw [hshift]
    by_cases hle : i ≤ k + i'
    · obtain ⟨d, hd⟩ := Nat.exists_eq_add_of_le hle
      rw [hd]
      apply candidate_antitone
      intro j hj1 hj2
      by_cases hjk : j < k
      · exact hk j hjk
      · have := (hbefore' (j - k) (by omega)).1
        rw [hshift, show k + (j - k) = j by omega] at this
        exact this
    · have hex := (hbefore (k + i') (by omega)).2
      rw [hshift] at hfit'
      exact (not_Exceeds_of_Fits (s := s) hfit' hex).elim
  · obtain ⟨i', rfl, _, _, hbefore'⟩ := hc'
    have := candidate_le_start (s.withMax (candidate s k)) i' (fun j hj => (hbefore' j hj).1)
    have hs : startSize (s.withMax (candidate s k)) = candidate s k := by
      unfold startSize TextSlot.withMax
      simp only [if_neg h0]
    rwa [hs] at this

/-- Witness of C7, amended: the search from 80 in a rectangle 75 pixels high,
and the search from its second candidate, about 71.1. -/
theorem chosen_size_monotone_along_candidates_witness :
    ((∀ j < 1, 6 ≤ candidate (exSlotMax (exRect 100 75) 80) j) ∧
      TextLayout (exSlotMax (exRect 100 75) 80) [97]
        = Res.ok (some (exLayoutAt 63 { X := 2192, Y := 4762 })) ∧
      TextLayout ((exSlotMax (exRect 100 75) 80).withMax
          (candidate (exSlotMax (exRect 100 75) 80) 1)) [97]
        = Res.ok (some (exLayoutAt 63 { X := 2192, Y := 4762 }))) ∧
    ∃ c c', Chooses (exSlotMax (exRect 100 75) 80) [97] c ∧
      layoutAt (exSlotMax (exRect 100 75) 80) [97] c
        = Res.ok (some (exLayoutAt 63 { X := 2192, Y := 4762 })) ∧
      Chooses ((exSlotMax (exRect 100 75) 80).withMax
          (candidate (exSlotMax (exRect 100 75) 80) 1)) [97] c' ∧
      layoutAt ((exSlotMax (exRect 100 75) 80).withMax
          (candidate (exSlotMax (exRect 100 75) 80) 1)) [97] c'
        = Res.ok (some (exLayoutAt 63 { X := 2192, Y := 4762 })) ∧
      c' ≤ c ∧ c' ≤ candidate (exSlotMax (exRect 100 75) 80) 1 ∧
      candidate (exSlotMax (exRect 100 75) 80) 1 ≤ startSize (exSlotMax (exRect 100 75) 80) := by
  have h6 : ∀ j < 1, 6 ≤ candidate (exSlotMax (exRect 100 75) 80) j := by
    intro j hj
    have hj' : j = 0 := by omega
    subst hj'
    decide
  exact ⟨⟨h6, exSlot_75_layout_80, exSlot_75_layout_after_80⟩,
    chosen_size_monotone_along_candidates (exSlotMax (exRect 100 75) 80) [97] 1 _ _ h6
      exSlot_75_layout_80 exSlot_75_layout_after_80⟩

/-- C8, as stated, fails: after the candidate 80 has exceeded its budget the
next candidate is the float64 value of `80 - (80 + 9) / 10`, about 71.1, not
`80 - ceil(80/10) = 72`. In a rectangle 83 pixels high the text `a` is laid
out at that size, while at 72 it would not fit. -/
theorem shrink_step_counterexample :
    Exceeds (exSlotIn (exRect 100 83)) [97] 80 ∧
    candidate (exSlotIn (exRect 100 83)) 0 = 80 ∧
    candidate (exSlotIn (exRect 100 83)) 1 = 2501608855515955 / 35184372088832 ∧
    (80 : ℚ) - ⌈(80 : ℚ) / 10⌉ = 72 ∧
    candidate (exSlotIn (exRect 100 83)) 1 ≠ 80 - ⌈(80 : ℚ) / 10⌉ ∧
    Chooses (exSlotIn (exRect 100 83)) [97] (2501608855515955 / 35184372088832) ∧
    TextLayout (exSlotIn (exRect 100 83)) [97]
      = Res.ok (some (exLayoutAt 71 { X := 2064, Y := 5319 })) ∧
    ¬ Fits (exSlotIn (exRect 100 83)) [97] 72 := by
  have hceil : ⌈(80 : ℚ) / 10⌉ = 8 := by rw [Int.ceil_eq_iff]; norm_num
  have h1 : candidate (exSlotIn (exRect 100 83)) 1
      = 2501608855515955 / 35184372088832 := nextFontSize_80
  refine ⟨⟨0, 1, rfl, rfl, by decide⟩, rfl, h1, by rw [hceil]; norm_num,
    by rw [h1, hceil]; norm_num, exSlot_83_chooses, exSlot_83_layout, ?_⟩
  rintro ⟨lim, n, hlim, hn, hle⟩
  have hlim' : lineLimit (exSlotIn (exRect 100 83)) ((exSlotIn (exRect 100 83)).Font 72)
      = some 0 := rfl
  have hn' : lineCount (exSlotIn (exRect 100 83)) [97] 72 = some 1 := rfl
  rw [hlim'] at hlim
  rw [hn'] at hn
  simp only [Option.some.injEq] at hlim hn
  subst hlim hn
  omega

/-- C8, amended: whenever the line count at a candidate size `c` of at
least 6 exceeds the budget, the loop goes on with the float64 value of
`c - (c + 9) / 10`, which is `0.9 c - 0.9` up to a relative error of
`2^-52`; after 80 the next candidate is 2501608855515955 / 2^45, about
71.1. -/
theorem shrink_step (s : TextSlot) (text : List Rune) (fuel : Nat) (c : ℚ)
    (h6 : 6 ≤ c) (hex : Exceeds s text c) :
    searchLoop s text (wrap64 (s.Bounds.Dx * 64)) (wrap64 (s.Bounds.Dy * 64)) (fuel + 1) c
      = searchLoop s text (wrap64 (s.Bounds.Dx * 64)) (wrap64 (s.Bounds.Dy * 64)) fuel
          (nextFontSize c) ∧
    nextFontSize c = Float64.sub c (Float64.div (Float64.add c 9) 10) ∧
    |nextFontSize c - (c - (c + 9) / 10)| ≤ c / 4503599627370496 ∧
    nextFontSize 80 = 2501608855515955 / 35184372088832 := by
  refine ⟨?_, rfl, nextFontSize_abs_sub_le c h6, nextFontSize_80⟩
  obtain ⟨lim, n, hlim, hn, hlt⟩ := hex
  obtain ⟨ls, ws, hl⟩ := lines_isSome (s.Font c) text (wrap64 (s.Bounds.Dx * 64))
  have hn' : n = ls.length := by
    simp only [lineCount, hl, Option.map_some', Option.some.injEq] at hn
    exact hn.symm
  subst hn'
  simp only [searchLoop, if_pos h6, hlim, hl, if_pos (show (ls.length : Int) > lim from hlt)]

/-- Witness of C8, amended: `a` in a rectangle 83 pixels high at size 80. -/
theorem shrink_step_witness :
    ((6 : ℚ) ≤ 80 ∧ Exceeds (exSlotIn (exRect 100 83)) [97] 80) ∧
    |nextFontSize 80 - (80 - (80 + 9) / 10)| ≤ (80 : ℚ) / 4503599627370496 :=
  ⟨⟨by norm_num, 0, 1, rfl, rfl, by decide⟩,
    (shrink_step (exSlotIn (exRect 100 83)) [97] 0 80 (by norm_num)
      ⟨0, 1, rfl, rfl, by decide⟩).2.2.1⟩

/-- C9, as stated, fails: the additions are made in `int32`. For a rectangle
100 pixels wide whose left edge is at pixel 33554431 (so that
`Bounds.Min.X*64` still converts) the right-aligned line `a` of width 2560
gets `X = -2147479872`, not `Bounds.Min.X*64 + (W - w) = 2147487424`, and its
right edge is not the right edge of the rectangle. -/
theorem line_x_counterexample :
    TextLayout (exSlotAligned (exRectAt 33554431 0 100 200) Right Middle) [97]
      = Res.ok (some (exLayoutA { X := -2147479872, Y := 9400 })) ∧
    (exSlotAligned (exRectAt 33554431 0 100 200) Right Middle).HorizontalAlignment = Right ∧
    inInt32 ((exSlotAligned (exRectAt 33554431 0 100 200) Right Middle).Bounds.Min.X * 64) ∧
    lines (exFont 80) [97]
        (wrap64 ((exSlotAligned (exRectAt 33554431 0 100 200) Right Middle).Bounds.Dx * 64))
      = some ([[97]], [2560]) ∧
    (-2147479872 : Int)
      ≠ (exSlotAligned (exRectAt 33554431 0 100 200) Right Middle).Bounds.Min.X * 64
        + ((exSlotAligned (exRectAt 33554431 0 100 200) Right Middle).Bounds.Dx * 64 - 2560) ∧
    (-2147479872 : Int) + 2560
      ≠ ((exSlotAligned (exRectAt 33554431 0 100 200) Right Middle).Bounds.Min.X
          + (exSlotAligned (exRectAt 33554431 0 100 200) Right Middle).Bounds.Dx) * 64 :=
  ⟨rfl, rfl, by decide, rfl, by decide, by decide⟩

/-- C9, amended: for every returned layout and every line index `i`, with
`w` the width that `lines` returns for line `i`, and provided that
`Bounds.Min.X*64`, `Bounds.Dx()*64`, the free width `W - w` and the sum
`Bounds.Min.X*64 + off` are within the `int32` range,
`LinePositions[i].X = Bounds.Min.X*64 + off`, where `off` is 0 for `Left`,
`(W - w)/2` for `Center` and `W - w` for `Right`; so with `Right` the right
edge of the line is the right edge of the rectangle. -/
theorem line_x_position (s : TextSlot) (text : List Rune) (l : Layout) (ws : List Int)
    (i : Nat) (w : Int) (hl : TextLayout s text = Res.ok (some l))
    (hws : lines l.Face text (wrap64 (s.Bounds.Dx * 64)) = some (l.Lines, ws))
    (hi : ws[i]? = some w)
    (hX : inInt32 (s.Bounds.Min.X * 64)) (hW : inInt32 (s.Bounds.Dx * 64))
    (hfree : inInt32 (s.Bounds.Dx * 64 - w))
    (hsum : inInt32 (s.Bounds.Min.X * 64 + horizontalOffset s w)) :
    ∃ p, l.LinePositions[i]? = some p ∧
      p.X = s.Bounds.Min.X * 64 + horizontalOffset s w ∧
      (s.HorizontalAlignment = Left → p.X = s.Bounds.Min.X * 64) ∧
      (s.HorizontalAlignment = Center →
        p.X = s.Bounds.Min.X * 64 + Int.tdiv (s.Bounds.Dx * 64 - w) 2) ∧
      (s.HorizontalAlignment = Right →
        p.X = s.Bounds.Min.X * 64 + (s.Bounds.Dx * 64 - w) ∧
        p.X + w = (s.Bounds.Min.X + s.Bounds.Dx) * 64) := by
  obtain ⟨_, _, hat⟩ := TextLayout_positions s text l ws hl hws
  have hp := hat i w hi
  rw [wrap64_of_inInt32 hW, wrap64_of_inInt32 hX, alignX_exact s w hfree hsum] at hp
  refine ⟨_, hp, rfl, ?_, ?_, ?_⟩
  · intro h
    simp [horizontalOffset, h, Left, Center, Right]
  · intro h
    simp [horizontalOffset, h]
  · intro h
    have : horizontalOffset s w = s.Bounds.Dx * 64 - w := by
      simp [horizontalOffset, h, Center, Right]
    simp only [this]
    constructor
    · trivial
    · ring

/-- Witness of C9, amended: the first line of `AV a` in `exSlot`, centred. -/
theorem line_x_position_witness :
    (TextLayout exSlot exText = Res.ok (some exLayout) ∧
      lines exLayout.Face exText (wrap64 (exSlot.Bounds.Dx * 64))
        = some (exLayout.Lines, [4800, 2560]) ∧
      inInt32 (exSlot.Bounds.Min.X * 64 + horizontalOffset exSlot 4800)) ∧
    ∃ p, exLayout.LinePositions[0]? = some p ∧
      p.X = exSlot.Bounds.Min.X * 64 + horizontalOffset exSlot 4800 ∧
      (exSlot.HorizontalAlignment = Left → p.X = exSlot.Bounds.Min.X * 64) ∧
      (exSlot.HorizontalAlignment = Center →
        p.X = exSlot.Bounds.Min.X * 64 + Int.tdiv (exSlot.Bounds.Dx * 64 - 4800) 2) ∧
      (exSlot.HorizontalAlignment = Right →
        p.X = exSlot.Bounds.Min.X * 64 + (exSlot.Bounds.Dx * 64 - 4800) ∧
        p.X + 4800 = (exSlot.Bounds.Min.X + exSlot.Bounds.Dx) * 64) :=
  ⟨⟨rfl, rfl, by decide⟩,
    line_x_position exSlot exText exLayout [4800, 2560] 0 4800 rfl rfl rfl
      (by decide) (by decide) (by decide) (by decide)⟩

/-- C10: for every returned layout with `n` lines and line height `H`,
absent `int32` overflow, `Height.Mul(n*64)` is exactly `H*n`, and for every
index `i`, `LinePositions[i].Y = Bounds.Min.Y*64 + off + (i+1)*H`, where
`off` is 0 for `Top`, `(Bounds.Dy()*64 - H*n)/2` truncated toward zero for
`Middle` and `Bounds.Dy()*64 - H*n` for `Bottom`; so the first baseline is one
line height below the top offset and consecutive baselines differ by `H`. -/
theorem line_y_position (s : TextSlot) (text : List Rune) (l : Layout)
    (hl : TextLayout s text = Res.ok (some l))
    (hN : inInt32 ((l.Lines.length : Int) * 64))
    (hY : inInt32 (s.Bounds.Min.Y * 64)) (hV : inInt32 (s.Bounds.Dy * 64))
    (hT : inInt32 (l.Face.Height * l.Lines.length))
    (hfree : inInt32 (s.Bounds.Dy * 64 - l.Face.Height * l.Lines.length))
    (hall : ∀ i : Nat, i ≤ l.Lines.length →
      inInt32 (s.Bounds.Min.Y * 64 + verticalOffset s (l.Face.Height * l.Lines.length)
        + i * l.Face.Height)) :
    Int26_6.Mul l.Face.Height ((l.Lines.length : Int) * 64)
      = l.Face.Height * l.Lines.length ∧
    (s.VerticalAlignment = Top → verticalOffset s (l.Face.Height * l.Lines.length) = 0) ∧
    (s.VerticalAlignment = Middle → verticalOffset s (l.Face.Height * l.Lines.length)
      = Int.tdiv (s.Bounds.Dy * 64 - l.Face.Height * l.Lines.length) 2) ∧
    (s.VerticalAlignment = Bottom → verticalOffset s (l.Face.Height * l.Lines.length)
      = s.Bounds.Dy * 64 - l.Face.Height * l.Lines.length) ∧
    l.LinePositions.length = l.Lines.length ∧
    (∀ i, i < l.Lines.length → ∃ p, l.LinePositions[i]? = some p ∧
      p.Y = s.Bounds.Min.Y * 64 + verticalOffset s (l.Face.Height * l.Lines.length)
        + (i + 1) * l.Face.Height) ∧
    (∀ i p q, l.LinePositions[i]? = some p → l.LinePositions[i + 1]? = some q →
      q.Y = p.Y + l.Face.Height) := by
  obtain ⟨ls, ws, hws⟩ := lines_isSome l.Face text (wrap64 (s.Bounds.Dx * 64))
  have hls : ls = l.Lines := by
    obtain ⟨c, _, hat⟩ := Chooses_of_TextLayout s text l hl
    obtain ⟨ws0, hlines, hface, _⟩ := layoutAt_layout s text c l hat
    rw [← hface, hws] at hlines
    simp only [Option.some.injEq, Prod.mk.injEq] at hlines
    exact hlines.1
  subst hls
  obtain ⟨hlen, hps, hat⟩ := TextLayout_positions s text l ws hl hws
  have hmul := Int26_6.Mul_lines l.Face.Height l.Lines.length hT
  have hy0 := alignY_exact s (l.Face.Height * l.Lines.length) hfree
    (by have := hall 0 (Nat.zero_le _); simpa using this)
  have hpos : ∀ i, i < l.Lines.length → ∃ p, l.LinePositions[i]? = some p ∧
      p.Y = s.Bounds.Min.Y * 64 + verticalOffset s (l.Face.Height * l.Lines.length)
        + (i + 1) * l.Face.Height := by
    intro i hi
    have hiw : i < ws.length := by omega
    have hp := hat i ws[i] (List.getElem?_eq_getElem hiw)
    rw [wrap64_of_inInt32 hN, wrap64_of_inInt32 hV, wrap64_of_inInt32 hY, hmul, hy0,
      baseline_exact _ _ _ (fun j hj => hall j (by omega))] at hp
    exact ⟨_, hp, by push_cast; ring⟩
  refine ⟨hmul, ?_, ?_, ?_, hps, hpos, ?_⟩
  · intro h; simp [verticalOffset, h, Top, Middle, Bottom]
  · intro h; simp [verticalOffset, h]
  · intro h; simp [verticalOffset, h, Middle, Bottom]
  · intro i p q hp hq
    have hi1 : i + 1 < l.Lines.length := by
      rw [← hps]
      exact (List.getElem?_eq_some.mp hq).1
    obtain ⟨p', hp', hpy⟩ := hpos i (by omega)
    obtain ⟨q', hq', hqy⟩ := hpos (i + 1) hi1
    rw [hp] at hp'; rw [hq] at hq'
    simp only [Option.some.injEq] at hp' hq'
    subst hp' hq'
    rw [hpy, hqy]
    push_cast
    ring

/-- Witness of C10: `AV a` in `exSlot`, two lines, vertically centred. -/
theorem line_y_position_witness :
    (TextLayout exSlot exText = Res.ok (some exLayout) ∧
      inInt32 (exLayout.Face.Height * exLayout.Lines.length) ∧
      inInt32 (exSlot.Bounds.Dy * 64 - exLayout.Face.Height * exLayout.Lines.length)) ∧
    Int26_6.Mul exLayout.Face.Height ((exLayout.Lines.length : Int) * 64)
      = exLayout.Face.Height * exLayout.Lines.length ∧
    ∀ i, i < exLayout.Lines.length → ∃ p, exLayout.LinePositions[i]? = some p ∧
      p.Y = exSlot.Bounds.Min.Y * 64
        + verticalOffset exSlot (exLayout.Face.Height * exLayout.Lines.length)
        + (i + 1) * exLayout.Face.Height :=
  ⟨⟨rfl, by decide, by decide⟩,
    (line_y_position exSlot exText exLayout rfl (by decide) (by decide) (by decide)
      (by decide) (by decide) (by decide)).1,
    (line_y_position exSlot exText exLayout rfl (by decide) (by decide) (by decide)
      (by decide) (by decide) (by decide)).2.2.2.2.2.1⟩

/-- C11, as stated, fails for a slot whose maximum size is set below 6: the
rectangle is 100 by 200 pixels, every conversion succeeds and the line height
at size 5 is 375 units, yet the loop `for fontSize >= 6.0` is never entered
and `TextLayout` of the empty text returns `nil, nil`, not a layout. -/
theorem empty_text_counterexample :
    0 ≤ (exSlotMax (exRect 100 200) 5).Bounds.Dy ∧
    inInt32 (wrap64 ((exSlotMax (exRect 100 200) 5).Bounds.Dx * 64)) ∧
    inInt32 (wrap64 ((exSlotMax (exRect 100 200) 5).Bounds.Dy * 64)) ∧
    inInt32 (wrap64 ((exSlotMax (exRect 100 200) 5).Bounds.Min.X * 64)) ∧
    inInt32 (wrap64 ((exSlotMax (exRect 100 200) 5).Bounds.Min.Y * 64)) ∧
    64 ≤ ((exSlotMax (exRect 100 200) 5).Font 5).Height ∧
    TextLayout (exSlotMax (exRect 100 200) 5) [] = Res.ok none :=
  ⟨by decide, by decide, by decide, by decide, by decide, by decide, rfl⟩

/-- C11 (amended): for a slot whose start size (`MaxFontSize`, or 80 when it
is zero) is at least 6, whose rectangle height is non-negative, whose width,
height and top edge convert to fixed point and whose line height at the start
size is at least 64 units, `TextLayout` of the empty text returns, with no
error, the layout at the start size with no lines and no line positions, and
`Render` draws nothing; `lines` returns no lines for the empty text. -/
theorem empty_text_layout (s : TextSlot)
    (hx : inInt32 (wrap64 (s.Bounds.Dx * 64))) (hy : inInt32 (wrap64 (s.Bounds.Dy * 64)))
    (hminy : inInt32 (wrap64 (s.Bounds.Min.Y * 64)))
    (hh : 0 ≤ s.Bounds.Dy) (hH : 64 ≤ (s.Font (startSize s)).Height) (h6 : 6 ≤ startSize s) :
    TextLayout s []
      = Res.ok (some { Face := s.Font (startSize s), Lines := [], LinePositions := [] }) ∧
    (∀ (ToUpper : List Rune → List Rune) (raw : List Rune),
      (if s.AllUppercase then ToUpper raw else raw) = [] → Render ToUpper s raw = Res.ok []) ∧
    ∀ (face : Face) (limit : Int), lines face [] limit = some ([], []) := by
  have hc : Chooses s [] (startSize s) :=
    ⟨0, rfl, h6, Fits_nil s _ hh hH, fun j hj => absurd hj (Nat.not_lt_zero j)⟩
  have hT := TextLayout_of_Chooses s [] _ hx hy hc
  rw [layoutAt_nil s _ hminy] at hT
  refine ⟨hT, ?_, fun _ _ => rfl⟩
  intro ToUpper raw hraw
  unfold Render
  rw [hraw, hT]
  rfl

/-- Witness of C11 (amended): the empty text in the example slot, whose start
size is the default 80. -/
theorem empty_text_layout_witness :
    (inInt32 (wrap64 (exSlot.Bounds.Dx * 64)) ∧ inInt32 (wrap64 (exSlot.Bounds.Dy * 64)) ∧
      inInt32 (wrap64 (exSlot.Bounds.Min.Y * 64)) ∧ 0 ≤ exSlot.Bounds.Dy ∧
      64 ≤ (exSlot.Font (startSize exSlot)).Height ∧ 6 ≤ startSize exSlot) ∧
    TextLayout exSlot [] = Res.ok (some { Face := exFont 80, Lines := [], LinePositions := [] }) ∧
    Render id exSlot [] = Res.ok [] :=
  ⟨⟨by decide, by decide, by decide, by decide, by decide, by decide⟩,
    (empty_text_layout exSlot (by decide) (by decide) (by decide) (by decide) (by decide)
      (by decide)).1,
    (empty_text_layout exSlot (by decide) (by decide) (by decide) (by decide) (by decide)
      (by decide)).2.1 id [] rfl⟩

/-- C13 fails on the code: `Hi` in a rectangle 36 pixels wide and 200 high,
default start size 80. At size 80 the first rune (40 pixels) does not fit,
`firstLine` returns the empty line and `lines` returns no lines; the test
`len(lines) > lineLimit` then reads `0 > 2`, so `TextLayout` returns a present
layout with zero lines at size 80 and tries no smaller size, although at the
next candidate, about 71.1, the text wraps into two lines within the budget
of two. -/
theorem abort_returns_empty_layout :
    (firstLine (exFont 80) [72, 105] 2304).1 = [] ∧
    lines (exFont 80) [72, 105] 2304 = some ([], []) ∧
    lineLimit (exSlotIn (exRect 36 200)) (exFont 80) = some 2 ∧
    TextLayout (exSlotIn (exRect 36 200)) [72, 105]
      = Res.ok (some { Face := exFont 80, Lines := [], LinePositions := [] }) ∧
    6 ≤ candidate (exSlotIn (exRect 36 200)) 1 ∧
    lines ((exSlotIn (exRect 36 200)).Font (candidate (exSlotIn (exRect 36 200)) 1))
      [72, 105] 2304 = some ([[72], [105]], [2272, 2272]) ∧
    lineLimit (exSlotIn (exRect 36 200))
      ((exSlotIn (exRect 36 200)).Font (candidate (exSlotIn (exRect 36 200)) 1)) = some 2 := by
  have hc : candidate (exSlotIn (exRect 36 200)) 1 = 2501608855515955 / 35184372088832 :=
    nextFontSize_80
  refine ⟨rfl, rfl, rfl, rfl, ?_, ?_, ?_⟩
  · rw [hc]; norm_num
  · rw [hc]; show lines (exFont _) _ _ = _
    rw [exFont_after_80]; rfl
  · rw [hc]; show lineLimit _ (exFont _) = _
    rw [exFont_after_80]; rfl

/-- C14: breaks prefer word boundaries. For a face in which every rune has a
glyph and every advance, also after kerning, is non-negative, a limit (a
value of its 32-bit type) and a text each of whose words is by itself no
wider than the limit, `lines` returns lines, at least one when the text has
a word, and splits no word: the words of the returned lines, in order, are
exactly the words of the text, and every line starts and ends with a rune
that is not white space. For any text, `firstLine` leaves a rest that starts
inside a word (a force break) only when the line has no white space, so the
broken word starts the line, and that word is by itself wider than the
limit. -/
theorem lines_keep_words (face : Face) (hg : AllGlyphs face) (hnn : NonNegAdvances face)
    (text : List Rune) (limit : Int) (hlim : inInt32 limit)
    (hwords : ∀ w ∈ words text, lineWidth face w ≤ limit) :
    (∃ ls ws, lines face text limit = some (ls, ws) ∧
      (ls.map words).flatten = words text ∧
      (trimSpace text ≠ [] → ls ≠ []) ∧
      ∀ l ∈ ls, l ≠ [] ∧ (∀ r, l.head? = some r → isSpace r = false) ∧
        (∀ r, l.getLast? = some r → isSpace r = false)) ∧
    (∀ (other : List Rune) (r : Rune),
      (firstLine face other limit).2.2.head? = some r → isSpace r = false →
      (∀ x ∈ (firstLine face other limit).1, isSpace x = false) ∧
      limit < lineWidth face ((trimSpace other).takeWhile (fun x => !isSpace x))) := by
  refine ⟨?_, fun other r hr hrs => firstLine_force face hg hnn other limit hlim.2 r hr hrs⟩
  by_cases htrim : trimSpace text = []
  · refine ⟨[], [], lines_of_trimSpace_nil face text limit htrim, ?_,
      fun h => absurd htrim h, fun l hl => by simp at hl⟩
    rw [← words_trimSpace text, htrim]
    rfl
  · obtain ⟨ls, ws, hl, hw⟩ := linesLoop_progress face limit
      (fun t => (t = [] ∨ trimSpace t ≠ []) ∧ ∀ w ∈ words t, lineWidth face w ≤ limit)
      (fun t ht hne => by
        have htne : trimSpace t ≠ [] := by
          rcases ht.1 with h0 | h0
          · exact absurd h0 hne
          · exact h0
        obtain ⟨h1, h2, h3⟩ := firstLine_words face hg hnn t limit hlim.2 htne ht.2
        refine ⟨h1, h3, ?_⟩
        intro w hw
        apply ht.2
        rw [h2]
        exact List.mem_append_right _ hw)
      text.length text [] [] le_rfl ⟨Or.inr htrim, hwords⟩
    refine ⟨ls, ws, by simpa [lines] using hl,
      Wrapped.words hg hnn hlim.2 hw (Or.inr htrim) hwords, ?_, Wrapped.line_ends hg hw⟩
    intro _ h0
    subst h0
    cases ws with
    | nil =>
      have : text = [] := by simpa [Wrapped] using hw
      subst this
      exact htrim rfl
    | cons w ws => simp [Wrapped] at hw

/-- Witness of C14: `AV a b` with a limit of 1300 units in the face `exMono`,
whose runes are 640 units wide: the words `AV`, `a` and `b` come back as
three lines, `a b` being 1920 units wide. -/
theorem lines_keep_words_witness :
    (AllGlyphs exMono ∧ NonNegAdvances exMono ∧ inInt32 1300 ∧
      ∀ w ∈ words [65, 86, 32, 97, 32, 98], lineWidth exMono w ≤ 1300) ∧
    words [65, 86, 32, 97, 32, 98] = [[65, 86], [97], [98]] ∧
    lines exMono [65, 86, 32, 97, 32, 98] 1300
      = some ([[65, 86], [97], [98]], [1216, 640, 640]) ∧
    ∃ ls ws, lines exMono [65, 86, 32, 97, 32, 98] 1300 = some (ls, ws) ∧
      (ls.map words).flatten = words [65, 86, 32, 97, 32, 98] :=
  ⟨⟨exMono_allGlyphs, exMono_nonNeg, by decide, by decide⟩, by decide, rfl,
    (lines_keep_words exMono exMono_allGlyphs exMono_nonNeg [65, 86, 32, 97, 32, 98] 1300
      (by decide) (by decide)).1.imp
      (fun _ h => h.imp (fun _ h' => ⟨h'.1, h'.2.1⟩))⟩

/-- C15: for a face in which every rune has a glyph, every text and every
limit, each line returned by `lines` is non-empty, does not start with white
space and does not end with white space. -/
theorem lines_trimmed (face : Face) (hg : AllGlyphs face) (text : List Rune) (limit : Int)
    (ls : List (List Rune)) (ws : List Int) (h : lines face text limit = some (ls, ws)) :
    ∀ l ∈ ls, l ≠ [] ∧ (∀ r, l.head? = some r → isSpace r = false) ∧
      (∀ r, l.getLast? = some r → isSpace r = false) := by
  rcases lines_spec face text limit with h0 | ⟨ls', ws', h1, hw⟩
  · rw [h0] at h
    simp only [Option.some.injEq, Prod.mk.injEq] at h
    intro l hl
    rw [← h.1] at hl
    simp at hl
  · rw [h1] at h
    simp only [Option.some.injEq, Prod.mk.injEq] at h
    rw [← h.1]
    exact Wrapped.line_ends hg hw

/-- Witness of C15: the text ` AV  a ` with a limit of 1300 units in the
face `exMono`: the lines are `AV` and `a`. -/
theorem lines_trimmed_witness :
    AllGlyphs exMono ∧
    lines exMono [32, 65, 86, 32, 32, 97, 32] 1300 = some ([[65, 86], [97]], [1216, 640]) ∧
    ∀ l ∈ [[65, 86], [97]], l ≠ [] ∧ (∀ r, l.head? = some r → isSpace r = false) ∧
      (∀ r, l.getLast? = some r → isSpace r = false) :=
  ⟨exMono_allGlyphs, rfl,
    lines_trimmed exMono exMono_allGlyphs [32, 65, 86, 32, 32, 97, 32] 1300 _ _ rfl⟩

/-- C16 fails on the code: in the example face the rune U+FFFF has no glyph
and every other rune advances 2560 units at size 80. For the text U+FFFF,
`a`, `b` and the limit 3000 the loop of `firstLine` skips U+FFFF without
counting it in `pos`, so when `b` overflows it cuts the text after one rune
instead of two: the first line is U+FFFF alone, whose rendered width is 0,
while the width returned for it is 2560, the advance of `a`, and `a` goes to
the second line. -/
theorem glyphless_rune_shifts_break :
    (exFont 80).GlyphAdvance 65535 = none ∧
    firstLine (exFont 80) [65535, 97, 98] 3000 = ([65535], 2560, [97, 98]) ∧
    lines (exFont 80) [65535, 97, 98] 3000 = some ([[65535], [97], [98]], [2560, 2560, 2560]) ∧
    lineWidth (exFont 80) [65535] = 0 ∧
    lineWidth (exFont 80) [65535, 97] = 2560 :=
  ⟨rfl, rfl, rfl, rfl, rfl⟩

/-- C17: `TextLayout` terminates on every input. (a) Every call of
`firstLine` that returns a non-empty line returns a remainder strictly
shorter than its input, so the loop of `lines` ends within as many iterations
as the text has runes, whatever the face and the limit: with that much fuel
or more it returns, and the result is the same. (b) Every candidate size of
at least 6 is followed by a strictly smaller one, and from every start size a
candidate below 6 is reached within `⌊start⌋` steps, so the search never runs
out of fuel. -/
theorem textLayout_terminates :
    (∀ (face : Face) (text : List Rune) (limit : Int),
      (firstLine face text limit).1 ≠ [] →
        (firstLine face text limit).2.2.length < text.length) ∧
    (∀ (face : Face) (text : List Rune) (limit : Int),
      (∃ ls ws, lines face text limit = some (ls, ws)) ∧
      ∀ fuel, text.length ≤ fuel →
        linesLoop face limit fuel text [] [] = lines face text limit) ∧
    (∀ c : ℚ, 6 ≤ c → nextFontSize c < c) ∧
    (∀ s : TextSlot, ∃ k, k ≤ Int.toNat ⌊startSize s⌋ ∧ candidate s k < 6 ∧
      ∀ j < k, 6 ≤ candidate s j ∧ candidate s (j + 1) < candidate s j) ∧
    (∀ (s : TextSlot) (text : List Rune), TextLayout s text ≠ Res.outOfFuel) := by
  refine ⟨firstLine_remaining_lt, ?_, ?_, ?_, TextLayout_ne_outOfFuel⟩
  · intro face text limit
    exact ⟨lines_isSome face text limit,
      fun fuel h => linesLoop_fuel face limit fuel text.length text [] [] h le_rfl⟩
  · intro c h
    have := nextFontSize_le c h
    linarith
  · intro s
    obtain ⟨k, hk, hend, hbefore⟩ := nextFontSize_reaches _ (startSize s) le_rfl
    exact ⟨k, hk, hend, fun j hj => ⟨hbefore j hj, candidate_succ_lt s j (hbefore j hj)⟩⟩

/-- Witness of C17: on `AV a` at size 80 with a limit of 100 pixels the rest
after the first line is shorter than the text and more fuel changes nothing;
the size after 80 is smaller than 80; the layout in `exSlot` does not run out
of fuel. -/
theorem textLayout_terminates_witness :
    (firstLine (exFont 80) exText 6400).1 ≠ [] ∧
    (firstLine (exFont 80) exText 6400).2.2.length < exText.length ∧
    linesLoop (exFont 80) 6400 10 exText [] [] = lines (exFont 80) exText 6400 ∧
    nextFontSize 80 < 80 ∧
    TextLayout exSlot exText ≠ Res.outOfFuel :=
  ⟨by decide, textLayout_terminates.1 (exFont 80) exText 6400 (by decide),
    (textLayout_terminates.2.1 (exFont 80) exText 6400).2 10 (by decide),
    textLayout_terminates.2.2.1 80 (by norm_num),
    textLayout_terminates.2.2.2.2 exSlot exText⟩

/-- C18, as stated, fails for the empty text: its trimmed form is empty, so
no wider than the limit 0, and `lines` returns no line, not the one line
equal to the trimmed text; the loop `for text != ""` is not entered. -/
theorem lines_greedy_counterexample :
    AllGlyphs exMono ∧ NonNegAdvances exMono ∧ inInt32 0 ∧
    lineWidth exMono (trimSpace []) ≤ 0 ∧
    lines exMono [] 0 = some ([], []) ∧
    ¬ ∃ w, lines exMono [] 0 = some ([trimSpace []], [w]) :=
  ⟨exMono_allGlyphs, exMono_nonNeg, by decide, by decide, rfl,
    fun ⟨_, h⟩ => by
      have h' : some (([] : List (List Rune)), ([] : List Int)) = some ([trimSpace []], [_]) := h
      simp at h'⟩

/-- C18 (amended): the line breaker is greedy. For a face in which every
rune has a glyph and every advance, also after kerning, is non-negative,
every text and every limit (a value of the 32-bit type of the limit): in what
`lines` returns, every line but the last, taken with the white space after it
and the next word of the text, is wider than the limit; a text whose trimmed
form is not empty and no wider than the limit comes back as exactly one line,
the trimmed text; and a text whose trimmed form is empty gives no line. -/
theorem lines_greedy (face : Face) (hg : AllGlyphs face) (hnn : NonNegAdvances face)
    (text : List Rune) (limit : Int) (hlim : inInt32 limit) :
    (∀ ls ws, lines face text limit = some (ls, ws) → Greedy face limit text ls) ∧
    (trimSpace text ≠ [] → lineWidth face (trimSpace text) ≤ limit →
      ∃ w, lines face text limit = some ([trimSpace text], [w])) ∧
    (trimSpace text = [] → lines face text limit = some ([], [])) := by
  refine ⟨?_, ?_, lines_of_trimSpace_nil face text limit⟩
  · intro ls ws h
    rcases lines_spec face text limit with h0 | ⟨ls', ws', h1, hw⟩
    · rw [h0] at h
      simp only [Option.some.injEq, Prod.mk.injEq] at h
      rw [← h.1]; trivial
    · rw [h1] at h
      simp only [Option.some.injEq, Prod.mk.injEq] at h
      rw [← h.1]
      exact Wrapped.greedy hg hnn hlim.2 hw
  · intro hne hfit
    obtain ⟨h1, h2⟩ := (firstLine_greedy face hg hnn text limit hlim.2).2 hfit
    exact ⟨_, lines_of_whole face text limit hne h1 h2⟩

/-- Witness of C18 (amended): ` AV a` with a limit of 1300 units in the face `exMono`
breaks after `AV`, because `AV a` is 2496 units wide; ` a ` is one line. -/
theorem lines_greedy_witness :
    (AllGlyphs exMono ∧ NonNegAdvances exMono ∧ inInt32 1300) ∧
    lines exMono [32, 65, 86, 32, 97] 1300 = some ([[65, 86], [97]], [1216, 640]) ∧
    Greedy exMono 1300 [32, 65, 86, 32, 97] [[65, 86], [97]] ∧
    nextSegment (trimSpace [32, 65, 86, 32, 97]) [65, 86] = [65, 86, 32, 97] ∧
    lineWidth exMono [65, 86, 32, 97] = 2496 ∧
    (∃ w, lines exMono [32, 97, 32] 1300 = some ([trimSpace [32, 97, 32]], [w])) :=
  ⟨⟨exMono_allGlyphs, exMono_nonNeg, by decide⟩, rfl,
    (lines_greedy exMono exMono_allGlyphs exMono_nonNeg [32, 65, 86, 32, 97] 1300
      (by decide)).1 _ _ rfl,
    by decide, rfl,
    (lines_greedy exMono exMono_allGlyphs exMono_nonNeg [32, 97, 32] 1300
      (by decide)).2.1 (by decide) (by decide)⟩

/-- C19: when the line height is at least 64 units at every candidate size
of at least 6, `TextLayout` cannot panic: the divisor `int(Height/64)` of the
line budget is non-zero, `lines` returns as many widths as lines, so every
write `LinePositions[i]` is in bounds, and a returned layout has one position
per line, the position of line `i` being the `i`-th baseline. Without the
precondition, a line height below 64 units (and above -64) at the start size
makes the line budget divide by zero. -/
theorem textLayout_total (s : TextSlot) (text : List Rune)
    (hH : ∀ k, 6 ≤ candidate s k → 64 ≤ (s.Font (candidate s k)).Height) :
    TextLayout s text ≠ Res.panic ∧ TextLayout s text ≠ Res.outOfFuel ∧
    (∀ k, 6 ≤ candidate s k →
      Int.tdiv (s.Font (candidate s k)).Height 64 ≠ 0 ∧
      ∃ lim, lineLimit s (s.Font (candidate s k)) = some lim) ∧
    (∀ (face : Face) (limit : Int) (ls : List (List Rune)) (ws : List Int),
      lines face text limit = some (ls, ws) → ls.length = ws.length) ∧
    (∀ l, TextLayout s text = Res.ok (some l) →
      l.LinePositions.length = l.Lines.length ∧
      ∃ y0, ∀ t, t < l.Lines.length →
        ∃ p, l.LinePositions[t]? = some p ∧ p.Y = baseline l.Face y0 (t + 1)) ∧
    (∀ (s' : TextSlot) (text' : List Rune),
      inInt32 (wrap64 (s'.Bounds.Dx * 64)) → inInt32 (wrap64 (s'.Bounds.Dy * 64)) →
      6 ≤ startSize s' → -64 < (s'.Font (startSize s')).Height →
      (s'.Font (startSize s')).Height < 64 →
      lineLimit s' (s'.Font (startSize s')) = none ∧ TextLayout s' text' = Res.panic) := by
  refine ⟨?_, TextLayout_ne_outOfFuel s text, ?_, ?_, ?_, ?_⟩
  · rcases TextLayout_cases s text with ⟨_, he⟩ | ⟨_, he⟩ | ⟨_, _, k, _, hend⟩
    · rw [he]; exact fun h => by cases h
    · rw [he]; exact fun h => by cases h
    · rcases hend with ⟨_, he⟩ | ⟨h6, hnone, _⟩ | ⟨_, _, he⟩
      · rw [he]; exact fun h => by cases h
      · obtain ⟨lim, hlim⟩ := lineLimit_isSome s _ (hH k h6)
        rw [hnone] at hlim; cases hlim
      · rw [he]; exact layoutAt_ne_panic s text _
  · intro k h6
    have h := hH k h6
    refine ⟨?_, lineLimit_isSome s _ h⟩
    rw [Int.tdiv_eq_ediv (by omega) (by norm_num)]; omega
  · intro face limit ls ws h
    exact lines_length_eq face text limit ls ws h
  · intro l hl
    obtain ⟨_, _, k, _, _, _, hat⟩ := TextLayout_layout s text l hl
    obtain ⟨ws, _, hface, hlen, hpos, _, _, _, hp⟩ := layoutAt_layout s text _ l hat
    refine ⟨hpos, alignY s (wrap64 (s.Bounds.Dy * 64))
      (Int26_6.Mul (s.Font (candidate s k)).Height (wrap64 ((l.Lines.length : Int) * 64)))
      (wrap64 (s.Bounds.Min.Y * 64)), ?_⟩
    intro t ht
    have htw : t < ws.length := by omega
    have hw : ws[t]? = some ws[t] := List.getElem?_eq_getElem htw
    exact ⟨_, hp t ws[t] hw, by rw [hface]⟩
  · intro s' text' hx hy h6 h1 h2
    exact ⟨lineLimit_eq_none s' _ h1 h2, TextLayout_panic s' text' hx hy h6 h1 h2⟩

/-- Witness of C19: the example slot, whose line height is 75/64 of the size,
lays `AV a` out without a panic, with two positions for its two lines; the
same slot with a font whose line height is 63 units divides by zero. -/
theorem textLayout_total_witness :
    (∀ k, 6 ≤ candidate exSlot k → 64 ≤ (exSlot.Font (candidate exSlot k)).Height) ∧
    TextLayout exSlot exText = Res.ok (some exLayout) ∧
    TextLayout exSlot exText ≠ Res.panic ∧
    exLayout.LinePositions.length = exLayout.Lines.length ∧
    TextLayout exFlatSlot exText = Res.panic :=
  ⟨fun k h => exFont_Height_ge _ h, rfl,
    (textLayout_total exSlot exText (fun k h => exFont_Height_ge _ h)).1,
    ((textLayout_total exSlot exText (fun k h => exFont_Height_ge _ h)).2.2.2.2.1
      exLayout rfl).1,
    ((textLayout_total exSlot exText (fun k h => exFont_Height_ge _ h)).2.2.2.2.2
      exFlatSlot exText (by decide) (by decide) (by decide) (by decide) (by decide)).2⟩

/-- C20: `isImageAsset` returns true exactly when the extension of the name,
the suffix starting at the final dot of its last path element (which is what
`filepath.Ext` returns), equals `.jpg`, `.jpeg` or `.png` up to the case of
its letters; `anakin-right.jpg` is accepted and `anakin-right.json` is
rejected. The case table of `strings.ToLower` beyond ASCII is any table that
sends no rune to a character of the three extensions. -/
theorem isImageAsset_iff (lower : Rune → Rune)
    (hlower : ∀ r, 128 ≤ r → lower r ∉ [46, 101, 103, 106, 110, 112])
    (assetName : List Rune) :
    filepath.Ext assetName = extension assetName ∧
    (isImageAsset lower assetName = true ↔
      EqualFold (extension assetName) (runes ".jpg") ∨
      EqualFold (extension assetName) (runes ".jpeg") ∨
      EqualFold (extension assetName) (runes ".png")) ∧
    isImageAsset lower (runes "anakin-right.jpg") = true ∧
    isImageAsset lower (runes "anakin-right.json") = false := by
  refine ⟨filepath.Ext_eq_extension assetName, ?_, rfl, rfl⟩
  have h1 := ToLower_eq_iff lower hlower (filepath.Ext assetName) (runes ".jpg") (by decide)
  have h2 := ToLower_eq_iff lower hlower (filepath.Ext assetName) (runes ".jpeg") (by decide)
  have h3 := ToLower_eq_iff lower hlower (filepath.Ext assetName) (runes ".png") (by decide)
  rw [← filepath.Ext_eq_extension, ← h1, ← h2, ← h3]
  unfold isImageAsset
  simp only [Bool.or_eq_true, beq_iff_eq, or_assoc]

/-- Witness of C20: with a case table that has the two non-ASCII entries of
Unicode with an ASCII value, `meme.JPG` in a directory is accepted, and so is
the name of the test. -/
theorem isImageAsset_iff_witness :
    (∀ r, 128 ≤ r → exLower r ∉ [46, 101, 103, 106, 110, 112]) ∧
    filepath.Ext (runes "img.d/meme.JPG") = runes ".JPG" ∧
    isImageAsset exLower (runes "img.d/meme.JPG") = true ∧
    isImageAsset exLower (runes "anakin-right.jpg") = true ∧
    isImageAsset exLower (runes "anakin-right.json") = false :=
  ⟨exLower_spec, by decide,
    ((isImageAsset_iff exLower exLower_spec (runes "img.d/meme.JPG")).2.1).mpr
      (Or.inl (by decide)),
    (isImageAsset_iff exLower exLower_spec []).2.2.1,
    (isImageAsset_iff exLower exLower_spec []).2.2.2⟩

end Meme
